import Mathlib

/-!
# FAT32 driver (`kernel/fat32.c`): shallow embedding and checked properties

The volume is a total map from sector numbers to sectors, a sector a map from
byte indices to bytes.  `bread(0, sec)` is reading that map, a store into
`b->data` followed by `bwrite`/`brelse` is updating it (the block cache makes a
store visible to every later `bread` of the same sector).  Unsigned 32-bit
arithmetic is `Nat` arithmetic reduced modulo `2^32` at the places where the C
code computes in `uint`/`uint32`.
-/

namespace Fat32

/-! ## Machine integers -/

/-- Reduction of a natural number to an unsigned 32-bit value. -/
def u32 (x : Nat) : Nat := x % 4294967296

/-- Unsigned 32-bit subtraction `a - b`. -/
def u32sub (a b : Nat) : Nat := (a + 4294967296 - b % 4294967296) % 4294967296

/-- The value of an unsigned 32-bit quantity converted to `int`. -/
def int32 (x : Nat) : Int :=
  if x % 4294967296 < 2147483648 then ((x % 4294967296 : Nat) : Int)
  else ((x % 4294967296 : Nat) : Int) - 4294967296

/-! ## Constants of the absent headers -/

/-- Modelled from the spec: `BSIZE` of the absent `include/buf.h`, the block
size of the block cache (the spec fixes 512-byte sectors). -/
def BSIZE : Nat := 512

/-- Modelled from the spec: `FAT32_EOC` of the absent `include/fat32.h`, the
end-of-chain marker `0x0FFFFFF8`. -/
def FAT32_EOC : Nat := 0x0FFFFFF8

/-- Modelled from the spec: `LAST_LONG_ENTRY` of the absent `include/fat32.h`,
the bit `0x40` of the ordinal byte of the first long-name slot on disk. -/
def LAST_LONG_ENTRY : Nat := 0x40

/-- Modelled from the spec: `EMPTY_ENTRY` of the absent `include/fat32.h`, first
byte `0xE5` of a deleted directory slot. -/
def EMPTY_ENTRY : Nat := 0xe5

/-- Modelled from the spec: `END_OF_ENTRY` of the absent `include/fat32.h`,
first byte `0x00` of the end-of-directory slot. -/
def END_OF_ENTRY : Nat := 0x00

/-- Modelled from the spec: `ATTR_DIRECTORY` of the absent `include/fat32.h`. -/
def ATTR_DIRECTORY : Nat := 0x10

/-- Modelled from the spec: `ATTR_LONG_NAME` of the absent `include/fat32.h`. -/
def ATTR_LONG_NAME : Nat := 0x0F

/-- Modelled from the spec: `CHAR_LONG_NAME` of the absent `include/fat32.h`,
the 13 characters carried by one long-name slot. -/
def CHAR_LONG_NAME : Nat := 13

/-- Modelled from the spec: `FAT32_MAX_FILENAME` of the absent
`include/fat32.h`, 255 bytes. -/
def FAT32_MAX_FILENAME : Nat := 255

/-! ## Results of kernel code -/

/-- How a piece of kernel code ends: it returns a value, it calls `panic`, or
the loop budget given to the model ran out before the code returned. -/
inductive Outcome (α : Type) where
  | done (a : α)
  | panicked
  | nofuel
deriving DecidableEq

/-- Sequencing: continue with the returned value. -/
def Outcome.bind {α β : Type} (o : Outcome α) (f : α → Outcome β) : Outcome β :=
  match o with
  | .done a => f a
  | .panicked => .panicked
  | .nofuel => .nofuel

/-- Apply a function to the returned value. -/
def Outcome.map {α β : Type} (f : α → β) : Outcome α → Outcome β
  | .done a => .done (f a)
  | .panicked => .panicked
  | .nofuel => .nofuel

/-! ## Bytes, sectors, memory -/

abbrev Byte := Fin 256

abbrev Sector := Nat → Byte

abbrev Disk := Nat → Sector

/-- Memory addressed by the `uint64 dst`/`src` argument of the copy helpers.
Addresses are not reduced modulo `2^64`. -/
abbrev Mem := Nat → Byte

/-- The low byte of a number. -/
def toByte (n : Nat) : Byte := ⟨n % 256, Nat.mod_lt _ (by decide)⟩

/-- The little-endian load `*(uint32 *)(data + off)`. -/
def rd32 (s : Nat → Byte) (off : Nat) : Nat :=
  (s off).val + 256 * (s (off + 1)).val + 65536 * (s (off + 2)).val
    + 16777216 * (s (off + 3)).val

/-- The little-endian store `*(uint32 *)(data + off) = v`. -/
def wr32 (s : Nat → Byte) (off v : Nat) : Nat → Byte :=
  fun i =>
    if i = off then toByte v
    else if i = off + 1 then toByte (v / 256)
    else if i = off + 2 then toByte (v / 65536)
    else if i = off + 3 then toByte (v / 16777216)
    else s i

/-- The little-endian load `*(uint16 *)(data + off)`. -/
def rd16 (s : Nat → Byte) (off : Nat) : Nat :=
  (s off).val + 256 * (s (off + 1)).val

/-- The four bytes of a 32-bit kernel variable, seen as memory at address 0. -/
def memOfU32 (v : Nat) : Mem := wr32 (fun _ => 0) 0 v

/-- The call `memset(p, v, n)` on a sector buffer. -/
def memset (s : Sector) (v n : Nat) : Sector :=
  fun i => if i < n then toByte v else s i

/-- The sector map after `bwrite` of a buffer holding `s` for sector `sec`. -/
def bwrite (d : Disk) (sec : Nat) (s : Sector) : Disk :=
  fun k => if k = sec then s else d k

/-- Copy of `n` bytes `src 0 .. src (n-1)` to the addresses `dst ..` . -/
def blit (mem : Nat → Byte) (dst : Nat) (src : Nat → Byte) (n : Nat) : Nat → Byte :=
  fun a => if dst ≤ a ∧ a < dst + n then src (a - dst) else mem a

/-- Modelled from the spec: `either_copyout` of the absent `proc.c`, returning
0 on success and -1 on fault.  A kernel destination (`user_dst = 0`) never
faults; whether a user destination faults is the oracle `fault dst len`.
`none` stands for -1. -/
def either_copyout (fault : Nat → Nat → Bool) (user_dst : Nat) (mem : Mem) (dst : Nat)
    (src : Nat → Byte) (len : Nat) : Option Mem :=
  if user_dst ≠ 0 ∧ fault dst len = true then none else some (blit mem dst src len)

/-- Modelled from the spec: `either_copyin` of the absent `proc.c`, copying
`len` bytes from address `src` into a sector buffer at index `off`. -/
def either_copyin (fault : Nat → Nat → Bool) (s : Sector) (off : Nat) (user_src : Nat)
    (mem : Mem) (src : Nat) (len : Nat) : Option Sector :=
  if user_src ≠ 0 ∧ fault src len = true then none
  else some (blit s off (fun k => mem (src + k)) len)

/-! ## Volume geometry -/

/-- The anonymous struct `fat.bpb`. -/
structure Bpb where
  byts_per_sec : Nat
  sec_per_clus : Nat
  rsvd_sec_cnt : Nat
  fat_cnt : Nat
  hidd_sec : Nat
  tot_sec : Nat
  fat_sz : Nat
  root_clus : Nat
deriving DecidableEq

/-- The static struct `fat`. -/
structure Fat where
  first_data_sec : Nat
  data_sec_cnt : Nat
  data_clus_cnt : Nat
  byts_per_clus : Nat
  bpb : Bpb
deriving DecidableEq

/-- The function `first_sec_of_clus`. -/
def first_sec_of_clus (fat : Fat) (cluster : Nat) : Nat :=
  u32 (u32 (u32sub cluster 2 * fat.bpb.sec_per_clus) + fat.first_data_sec)

/-- The function `fat_sec_of_clus`; `fat_num - 1` is computed in `int` and
converted to `uint32` by the multiplication. -/
def fat_sec_of_clus (fat : Fat) (cluster fat_num : Nat) : Nat :=
  u32 (fat.bpb.rsvd_sec_cnt + u32 (cluster * 4) / fat.bpb.byts_per_sec
    + u32 (fat.bpb.fat_sz * u32sub fat_num 1))

/-- The function `fat_offset_of_clus`. -/
def fat_offset_of_clus (fat : Fat) (cluster : Nat) : Nat :=
  u32 (cluster * 4) % fat.bpb.byts_per_sec

/-! ## FAT table operations -/

/-- The function `read_fat`. -/
def read_fat (fat : Fat) (d : Disk) (cluster : Nat) : Nat :=
  if cluster ≥ FAT32_EOC then cluster
  else if cluster > u32 (fat.data_clus_cnt + 1) then 0
  else rd32 (d (fat_sec_of_clus fat cluster 1)) (fat_offset_of_clus fat cluster)

/-- The function `write_fat`: the returned `int` and the volume afterwards. -/
def write_fat (fat : Fat) (d : Disk) (cluster content : Nat) : Int × Disk :=
  if cluster > u32 (fat.data_clus_cnt + 1) then (-1, d)
  else
    let fat_sec := fat_sec_of_clus fat cluster 1
    let off := fat_offset_of_clus fat cluster
    (0, bwrite d fat_sec (wr32 (d fat_sec) off content))

/-- The loop of `zero_clus`: `cnt` iterations remain, `sec` is the next sector. -/
def zero_clus_loop (d : Disk) : Nat → Nat → Disk
  | 0, _ => d
  | cnt + 1, sec => zero_clus_loop (bwrite d sec (memset (d sec) 0 BSIZE)) cnt (u32 (sec + 1))

/-- The function `zero_clus`. -/
def zero_clus (fat : Fat) (d : Disk) (cluster : Nat) : Disk :=
  zero_clus_loop d fat.bpb.sec_per_clus (first_sec_of_clus fat cluster)

/-- The inner loop of `alloc_clus` over the entries `j, j+1, ..` of one FAT
sector, `cnt` of them remaining: the first `j` whose entry is 0. -/
def alloc_scan (s : Sector) : Nat → Nat → Option Nat
  | 0, _ => none
  | cnt + 1, j => if rd32 s (4 * j) = 0 then some j else alloc_scan s cnt (j + 1)

/-- The outer loop of `alloc_clus` over the FAT sectors `i, i+1, ..`, `cnt` of
them remaining, `sec` the sector number of sector `i`.  `none` is reaching
`panic("no clusters")`. -/
def alloc_clus_loop (fat : Fat) (d : Disk) (ent_per_sec : Nat) :
    Nat → Nat → Nat → Option (Nat × Disk)
  | 0, _, _ => none
  | cnt + 1, i, sec =>
    match alloc_scan (d sec) ent_per_sec 0 with
    | some j =>
      let d1 := bwrite d sec (wr32 (d sec) (4 * j) (FAT32_EOC + 7))
      let clus := u32 (i * ent_per_sec + j)
      some (clus, zero_clus fat d1 clus)
    | none => alloc_clus_loop fat d ent_per_sec cnt (i + 1) (u32 (sec + 1))

/-- The function `alloc_clus`: the returned cluster number and the volume
afterwards, `none` when it panics. -/
def alloc_clus (fat : Fat) (d : Disk) : Option (Nat × Disk) :=
  alloc_clus_loop fat d (u32 (fat.bpb.byts_per_sec / 4)) fat.bpb.fat_sz 0 fat.bpb.rsvd_sec_cnt

/-- The function `free_clus`. -/
def free_clus (fat : Fat) (d : Disk) (cluster : Nat) : Disk :=
  (write_fat fat d cluster 0).2

/-- The caller making `n` successive calls of `alloc_clus`: the returned
cluster numbers in call order and the volume afterwards, `none` when one of
the calls panics. -/
def alloc_clus_seq (fat : Fat) : Nat → Disk → Option (List Nat × Disk)
  | 0, d => some ([], d)
  | n + 1, d =>
    match alloc_clus fat d with
    | none => none
    | some (c, d1) =>
      match alloc_clus_seq fat n d1 with
      | none => none
      | some (cs, d2) => some (c :: cs, d2)

/-! ## Cluster I/O -/

/-- The loop of `eread_clus`.  State: `tot`, `off`, `dst`, `sec` and the
destination memory.  On a copy fault the loop is left with the current `tot`. -/
def eread_clus_loop (fault : Nat → Nat → Bool) (d : Disk) (user_dst n : Nat) :
    Nat → Nat → Nat → Nat → Nat → Mem → Outcome (Nat × Mem)
  | 0, tot, _, _, _, mem => if tot < n then .nofuel else .done (tot, mem)
  | fuel + 1, tot, off, dst, sec, mem =>
    if tot < n then
      let m0 := BSIZE - off % BSIZE
      let m := if u32sub n tot < m0 then u32sub n tot else m0
      match either_copyout fault user_dst mem dst (fun k => d sec (off % BSIZE + k)) m with
      | none => .done (tot, mem)
      | some mem1 =>
        eread_clus_loop fault d user_dst n fuel (u32 (tot + m)) (u32 (off + m)) (dst + m)
          (u32 (sec + 1)) mem1
    else .done (tot, mem)

/-- The function `eread_clus`: bytes transferred and the destination memory
afterwards.  The loop budget is `n`, one unit per iteration. -/
def eread_clus (fat : Fat) (fault : Nat → Nat → Bool) (d : Disk) (cluster user_dst : Nat)
    (mem : Mem) (dst off n : Nat) : Outcome (Nat × Mem) :=
  if u32 (off + n) > fat.byts_per_clus then .panicked
  else
    eread_clus_loop fault d user_dst n n 0 (off % fat.bpb.byts_per_sec) dst
      (u32 (first_sec_of_clus fat cluster + off / fat.bpb.byts_per_sec)) mem

/-- The loop of `ewrite_clus`.  State: `tot`, `off`, `src`, `sec` and the
volume. -/
def ewrite_clus_loop (fault : Nat → Nat → Bool) (user_src : Nat) (mem : Mem) (n : Nat) :
    Nat → Nat → Nat → Nat → Nat → Disk → Outcome (Nat × Disk)
  | 0, tot, _, _, _, d => if tot < n then .nofuel else .done (tot, d)
  | fuel + 1, tot, off, src, sec, d =>
    if tot < n then
      let m0 := BSIZE - off % BSIZE
      let m := if u32sub n tot < m0 then u32sub n tot else m0
      match either_copyin fault (d sec) (off % BSIZE) user_src mem src m with
      | none => .done (tot, d)
      | some s1 =>
        ewrite_clus_loop fault user_src mem n fuel (u32 (tot + m)) (u32 (off + m)) (src + m)
          (u32 (sec + 1)) (bwrite d sec s1)
    else .done (tot, d)

/-- The function `ewrite_clus`: bytes transferred and the volume afterwards. -/
def ewrite_clus (fat : Fat) (fault : Nat → Nat → Bool) (d : Disk) (cluster user_src : Nat)
    (mem : Mem) (src off n : Nat) : Outcome (Nat × Disk) :=
  if u32 (off + n) > fat.byts_per_clus then .panicked
  else
    ewrite_clus_loop fault user_src mem n n 0 (off % fat.bpb.byts_per_sec) src
      (u32 (first_sec_of_clus fat cluster + off / fat.bpb.byts_per_sec)) d

/-! ## Directory entry handles -/

/-- The fields of `struct dir_entry` (declared in the absent
`include/fat32.h`) that `fat32.c` uses.  `filename` is the content of the
character array, `attr` is the field `attribute`, `next` and `prev` are indices into the entry cache (0 is the
sentinel `root`). -/
structure DirEntry where
  filename : List Nat
  attr : Nat
  first_clus : Nat
  file_size : Nat
  dev : Nat
  valid : Nat
  ref : Int
  off : Nat
  parent : Nat
  next : Nat
  prev : Nat
deriving DecidableEq

/-! ## File I/O -/

/-- The chain walk `while (clus_num-- > 0 && cluster < FAT32_EOC)` of `eread`,
`cnt` the non-negative value of `clus_num`. -/
def eread_walk (fat : Fat) (d : Disk) : Nat → Nat → Nat
  | 0, cluster => cluster
  | cnt + 1, cluster =>
    if cluster < FAT32_EOC then eread_walk fat d cnt (read_fat fat d cluster) else cluster

/-- The transfer loop of `eread`.  State: `tot`, `off`, `dst`, `cluster` and
the destination memory. -/
def eread_loop (fat : Fat) (fault : Nat → Nat → Bool) (d : Disk) (user_dst n : Nat) :
    Nat → Nat → Nat → Nat → Nat → Mem → Outcome (Nat × Mem)
  | 0, tot, _, _, cluster, mem =>
    if cluster < FAT32_EOC ∧ tot < n then .nofuel else .done (tot, mem)
  | fuel + 1, tot, off, dst, cluster, mem =>
    if cluster < FAT32_EOC ∧ tot < n then
      let m0 := u32sub fat.byts_per_clus (off % fat.byts_per_clus)
      let m := if u32sub n tot < m0 then u32sub n tot else m0
      match eread_clus fat fault d cluster user_dst mem dst (off % fat.byts_per_clus) m with
      | .done (r, mem1) =>
        if r ≠ m then .done (tot, mem1)
        else
          eread_loop fat fault d user_dst n fuel (u32 (tot + m)) (u32 (off + m)) (dst + m)
            (read_fat fat d cluster) mem1
      | .panicked => .panicked
      | .nofuel => .nofuel
    else .done (tot, mem)

/-- The function `eread`: the returned `int` and the destination memory
afterwards.  The loop budget is the clamped `n`. -/
def eread (fat : Fat) (fault : Nat → Nat → Bool) (d : Disk) (entry : DirEntry)
    (user_dst : Nat) (mem : Mem) (dst off n : Nat) : Outcome (Int × Mem) :=
  if off > entry.file_size ∨ u32 (off + n) < off then .done (0, mem)
  else
    let n1 := if u32 (off + n) > entry.file_size then u32sub entry.file_size off else n
    let clus_num := int32 (off / fat.byts_per_clus)
    let off1 := off % fat.byts_per_clus
    let cluster := eread_walk fat d clus_num.toNat entry.first_clus
    (eread_loop fat fault d user_dst n1 n1 0 off1 dst cluster mem).map
      (fun r => (int32 r.1, r.2))

/-- The function `eupdate`.  `junk` is the indeterminate initial value of the
uninitialised local `entcnt`, of which `eread_clus` overwrites the low byte. -/
def eupdate (fat : Fat) (fault : Nat → Nat → Bool) (junk : Nat) (d : Disk)
    (entry : DirEntry) : Outcome Disk :=
  let clus := u32 (entry.parent + entry.off / fat.byts_per_clus)
  let off := entry.off % fat.byts_per_clus
  match eread_clus fat fault d clus 0 (memOfU32 junk) 0 off 1 with
  | .done (_, m1) =>
    let entcnt := Nat.land (rd32 m1 0) (u32sub 4294967295 LAST_LONG_ENTRY)
    let off1 := u32 (off + u32 (u32 (entcnt * 32) + 28))
    let clus1 := if off1 / fat.byts_per_clus ≠ 0 then read_fat fat d clus else clus
    (ewrite_clus fat fault d clus1 0 (memOfU32 entry.file_size) 0
      (off1 % fat.byts_per_clus) 4).map (fun r => r.2)
  | .panicked => .panicked
  | .nofuel => .nofuel

/-- The chain walk `while (clus_num-- > 0)` of `ewrite`. -/
def ewrite_walk (fat : Fat) (d : Disk) : Nat → Nat → Nat
  | 0, cluster => cluster
  | cnt + 1, cluster => ewrite_walk fat d cnt (read_fat fat d cluster)

/-- State of the transfer loop of `ewrite` when it is left.  `allocated` is a
ghost field: the values returned by the calls of `alloc_clus`, in call order. -/
structure WriteLoop where
  tot : Nat
  off : Nat
  disk : Disk
  allocated : List Nat

/-- The transfer loop of `ewrite`.  State: `tot`, `off`, `src`, `cluster`, the
volume and the ghost list of allocated clusters. -/
def ewrite_loop (fat : Fat) (fault : Nat → Nat → Bool) (user_src : Nat) (mem : Mem) (n : Nat) :
    Nat → Nat → Nat → Nat → Nat → Disk → List Nat → Outcome WriteLoop
  | 0, tot, off, _, _, d, al => if tot < n then .nofuel else .done ⟨tot, off, d, al⟩
  | fuel + 1, tot, off, src, cluster, d, al =>
    if tot < n then
      let alloc : Option (Disk × List Nat) :=
        if cluster ≥ FAT32_EOC then
          match alloc_clus fat d with
          | some (new_clus, d1) => some ((write_fat fat d1 cluster new_clus).2, al ++ [new_clus])
          | none => none
        else some (d, al)
      match alloc with
      | none => .panicked
      | some (d2, al2) =>
        let m0 := u32sub fat.byts_per_clus (off % fat.byts_per_clus)
        let m := if u32sub n tot < m0 then u32sub n tot else m0
        match ewrite_clus fat fault d2 cluster user_src mem src (off % fat.byts_per_clus) m with
        | .done (r, d3) =>
          if r ≠ m then .done ⟨tot, off, d3, al2⟩
          else
            ewrite_loop fat fault user_src mem n fuel (u32 (tot + m)) (u32 (off + m)) (src + m)
              (read_fat fat d3 cluster) d3 al2
        | .panicked => .panicked
        | .nofuel => .nofuel
    else .done ⟨tot, off, d, al⟩

/-- What `ewrite` leaves: the returned `int`, the volume, the handle, and the
ghost list of clusters handed out by `alloc_clus`. -/
structure WriteRes where
  ret : Int
  disk : Disk
  entry : DirEntry
  allocated : List Nat

/-- The function `ewrite`.  The loop budget is `n`. -/
def ewrite (fat : Fat) (fault : Nat → Nat → Bool) (junk : Nat) (d : Disk) (entry : DirEntry)
    (user_src : Nat) (mem : Mem) (src off n : Nat) : Outcome WriteRes :=
  if off > entry.file_size ∨ u32 (off + n) < off then .done ⟨-1, d, entry, []⟩
  else
    let clus_num := int32 (off / fat.byts_per_clus)
    let off1 := off % fat.byts_per_clus
    let cluster := ewrite_walk fat d clus_num.toNat entry.first_clus
    match ewrite_loop fat fault user_src mem n n 0 off1 src cluster d [] with
    | .done w =>
      if n > 0 ∧ w.off > entry.file_size then
        let entry1 := { entry with file_size := w.off }
        (eupdate fat fault junk w.disk entry1).map
          (fun d1 => ⟨int32 w.tot, d1, entry1, w.allocated⟩)
      else .done ⟨int32 w.tot, w.disk, entry, w.allocated⟩
    | .panicked => .panicked
    | .nofuel => .nofuel

/-- The first loop of `etrunc`: `cnt` iterations remain.  State: `clus`, `off`
and the volume. -/
def etrunc_mark (fat : Fat) (fault : Nat → Nat → Bool) :
    Nat → Nat → Nat → Disk → Outcome Disk
  | 0, _, _, d => .done d
  | cnt + 1, clus, off, d =>
    match ewrite_clus fat fault d clus 0 (fun _ => toByte EMPTY_ENTRY) 0 off 1 with
    | .done (_, d1) =>
      let off1 := u32 (off + 32)
      if off1 / fat.byts_per_clus ≠ 0 then
        etrunc_mark fat fault cnt (read_fat fat d1 clus) (off1 % fat.byts_per_clus) d1
      else etrunc_mark fat fault cnt clus off1 d1
    | .panicked => .panicked
    | .nofuel => .nofuel

/-- The second loop of `etrunc`, which frees the chain.  This loop has no bound
in the code, so the budget `fuel` is a parameter. -/
def etrunc_free (fat : Fat) : Nat → Nat → Disk → Outcome Disk
  | 0, clus, d => if clus < FAT32_EOC then .nofuel else .done d
  | fuel + 1, clus, d =>
    if clus < FAT32_EOC then
      let next := read_fat fat d clus
      etrunc_free fat fuel next (free_clus fat d clus)
    else .done d

/-- The function `etrunc`: the volume and the handle afterwards.  `junk` is the
indeterminate initial value of the uninitialised local `entcnt`; the loop
`for (int i = 0; i <= entcnt; i++)` runs `entcnt + 1` times. -/
def etrunc (fat : Fat) (fault : Nat → Nat → Bool) (junk fuel : Nat) (d : Disk)
    (entry : DirEntry) : Outcome (Disk × DirEntry) :=
  let clus := u32 (entry.parent + entry.off / fat.byts_per_clus)
  let off := entry.off % fat.byts_per_clus
  match eread_clus fat fault d clus 0 (memOfU32 junk) 0 off 1 with
  | .done (_, m1) =>
    let entcnt := Nat.land (rd32 m1 0) (u32sub 4294967295 LAST_LONG_ENTRY)
    match etrunc_mark fat fault (entcnt + 1) clus off d with
    | .done d1 =>
      (etrunc_free fat fuel entry.first_clus d1).map
        (fun d2 => (d2, { entry with valid := 0 }))
    | .panicked => .panicked
    | .nofuel => .nofuel
  | .panicked => .panicked
  | .nofuel => .nofuel

/-! ## C strings -/

/-- A character array seen through a pointer: element `i`, 0 past the end of
the list. -/
def cstr (l : List Nat) : Nat → Nat := fun i => l.getD i 0

/-- Modelled from the spec: `strncmp` of the absent `string.c`, the C library
function.  `p` and `q` are read from index `i` on, `n` characters remain. -/
def strncmp (p q : Nat → Nat) : Nat → Nat → Int
  | 0, _ => 0
  | n + 1, i =>
    if p i ≠ 0 ∧ p i = q i then strncmp p q n (i + 1) else (p i : Int) - (q i : Int)

/-- The `n` characters that `strncpy` writes: the characters of `src` up to
its NUL, then zeros.  `i` is the index in `src`, `z` tells that the NUL was
passed. -/
def strncpy_chars (src : Nat → Nat) : Nat → Nat → Bool → List Nat
  | 0, _, _ => []
  | n + 1, i, z =>
    if z = true ∨ src i = 0 then 0 :: strncpy_chars src n (i + 1) true
    else src i :: strncpy_chars src n (i + 1) false

/-- Modelled from the spec: `strncpy` of the absent `string.c`, the C library
function: the destination array after `strncpy(dst, src, n)`.  It writes
exactly `n` characters and adds no NUL of its own. -/
def strncpy (dst : List Nat) (src : Nat → Nat) (n : Nat) : List Nat :=
  strncpy_chars src n 0 false ++ dst.drop n

/-- Modelled from the spec: `wnstr` of the absent `string.c`, which converts
the first `len` characters of a byte string (up to its NUL) to wide
characters; the array `wname` is zero after them. -/
def wnstr (src : Nat → Nat) (len : Nat) : List Nat :=
  ((List.range len).map src).takeWhile (fun ch => ch != 0)

/-- Modelled from the spec: `wcsncmp` of the absent `string.c`, the C library
comparison of at most `n` wide characters, which stops after a NUL. -/
def wcsncmp (s1 s2 : Nat → Nat) : Nat → Nat → Int
  | 0, _ => 0
  | n + 1, i =>
    if s1 i ≠ s2 i then (s1 i : Int) - (s2 i : Int)
    else if s1 i = 0 then 0
    else wcsncmp s1 s2 n (i + 1)

/-! ## Entry cache -/

/-- A handle of the zeroed cache (`memset(ecache.entries, 0, ..)`). -/
def zeroEntry : DirEntry :=
  { filename := List.replicate (FAT32_MAX_FILENAME + 1) 0, attr := 0, first_clus := 0,
    file_size := 0, dev := 0, valid := 0, ref := 0, off := 0, parent := 0, next := 0,
    prev := 0 }

/-- The static `root` and the array `ecache.entries`.  A pointer to a handle
is a number: 0 is `&root`, `i + 1` is `&ecache.entries[i]`. -/
structure Ecache where
  root : DirEntry
  entries : List DirEntry
deriving DecidableEq

/-- The handle a pointer points to. -/
def Ecache.get (c : Ecache) (p : Nat) : DirEntry :=
  if p = 0 then c.root else c.entries.getD (p - 1) zeroEntry

/-- A store through a pointer. -/
def Ecache.modify (c : Ecache) (p : Nat) (f : DirEntry → DirEntry) : Ecache :=
  if p = 0 then { c with root := f c.root }
  else { c with entries := c.entries.set (p - 1) (f (c.get p)) }

/-- The loop of `fat32_init` that links the entries into the ring: `i` is the
pointer of the next entry, `cnt` entries remain. -/
def ecache_link : Nat → Nat → Ecache → Ecache
  | 0, _, c => c
  | cnt + 1, i, c =>
    let c1 := c.modify i (fun e => { e with next := c.root.next })
    let c2 := c1.modify i (fun e => { e with prev := 0 })
    let c3 := c2.modify c2.root.next (fun e => { e with prev := i })
    let c4 := c3.modify 0 (fun e => { e with next := i })
    ecache_link cnt (i + 1) c4

/-- The cache part of `fat32_init`.  `num` is `ENTRY_CACHE_NUM`, a constant of
the absent `include/fat32.h`. -/
def ecache_init (fat : Fat) (num : Nat) : Ecache :=
  let root : DirEntry :=
    { zeroEntry with attr := ATTR_DIRECTORY, first_clus := fat.bpb.root_clus, prev := 0,
                     next := 0 }
  ecache_link num 1 { root := root, entries := List.replicate num zeroEntry }

/-- The first loop of `eget`, from `root.next` along `next`: the first handle
with the key `(dev, parent, name)`. -/
def eget_match (c : Ecache) (dev parent : Nat) (name : Nat → Nat) : Nat → Nat → Outcome (Option Nat)
  | 0, ep => if ep = 0 then .done none else .nofuel
  | fuel + 1, ep =>
    if ep = 0 then .done none
    else if (c.get ep).dev = dev ∧ (c.get ep).parent = parent
        ∧ strncmp (cstr (c.get ep).filename) name FAT32_MAX_FILENAME 0 = 0 then .done (some ep)
    else eget_match c dev parent name fuel (c.get ep).next

/-- The second loop of `eget`, from `root.prev` along `prev`: the first handle
with `ref == 0`. -/
def eget_free (c : Ecache) : Nat → Nat → Outcome (Option Nat)
  | 0, ep => if ep = 0 then .done none else .nofuel
  | fuel + 1, ep =>
    if ep = 0 then .done none
    else if (c.get ep).ref = 0 then .done (some ep)
    else eget_free c fuel (c.get ep).prev

/-- The function `eget`: the returned pointer and the cache afterwards.  Each
loop gets one unit of budget per cache entry, which a ring through all entries
does not exceed. -/
def eget (c : Ecache) (dev parent : Nat) (name : Nat → Nat) : Outcome (Nat × Ecache) :=
  match eget_match c dev parent name c.entries.length c.root.next with
  | .done (some ep) =>
    .done (ep, (c.modify ep (fun e => { e with ref := e.ref + 1 })).modify ep
      (fun e => { e with valid := 1 }))
  | .done none =>
    match eget_free c c.entries.length c.root.prev with
    | .done (some ep) =>
      .done (ep, ((c.modify ep (fun e => { e with ref := 1 })).modify ep
        (fun e => { e with dev := dev })).modify ep (fun e => { e with valid := 0 }))
    | .done none => .panicked
    | .panicked => .panicked
    | .nofuel => .nofuel
  | .panicked => .panicked
  | .nofuel => .nofuel

/-- The function `ealloc`: the returned pointer (`none` is the null pointer)
and the cache afterwards.  `dir` is the C truth value of the third argument. -/
def ealloc (c : Ecache) (dp : Nat) (name : Nat → Nat) (dir : Bool) :
    Outcome (Option Nat × Ecache) :=
  if (c.get dp).attr ≠ ATTR_DIRECTORY then .done (none, c)
  else
    (eget c (c.get dp).dev (c.get dp).parent name).bind (fun r =>
      let ep := r.1
      let c1 := r.2
      if (c1.get ep).valid ≠ 0 then .panicked
      else if (c1.get ep).ref < 1 then .panicked
      else
        let c2 := c1.modify ep (fun e => { e with attr := 0 })
        let c3 := c2.modify ep (fun e => { e with file_size := 0 })
        let c4 := c3.modify ep (fun e => { e with first_clus := 0 })
        let c5 := c4.modify ep
          (fun e => { e with filename := strncpy e.filename name FAT32_MAX_FILENAME })
        let c6 := c5.modify ep (fun e =>
          { e with attr := Nat.lor e.attr (if dir then ATTR_DIRECTORY else ATTR_LONG_NAME) })
        let c7 := c6.modify ep (fun e => { e with valid := 1 })
        .done (some ep, c7))

/-- The function `edup`. -/
def edup (c : Ecache) (entry : Nat) : Nat × Ecache :=
  (entry, c.modify entry (fun e => { e with ref := e.ref + 1 }))

/-- The function `eput`: the cache and the volume afterwards. -/
def eput (fat : Fat) (fault : Nat → Nat → Bool) (junk : Nat) (c : Ecache) (d : Disk)
    (entry : Nat) : Outcome (Ecache × Disk) :=
  if (c.get entry).valid ≠ 0 ∧ (c.get entry).ref = 1 then
    if entry ≠ 0 then
      let c1 := c.modify (c.get entry).next (fun e => { e with prev := (c.get entry).prev })
      let c2 := c1.modify (c1.get entry).prev (fun e => { e with next := (c1.get entry).next })
      let c3 := c2.modify entry (fun e => { e with next := c2.root.next })
      let c4 := c3.modify entry (fun e => { e with prev := 0 })
      let c5 := c4.modify c4.root.next (fun e => { e with prev := entry })
      let c6 := c5.modify 0 (fun e => { e with next := entry })
      (eupdate fat fault junk d (c6.get entry)).map
        (fun d1 => (c6.modify entry (fun e => { e with ref := e.ref - 1 }), d1))
    else .done (c.modify entry (fun e => { e with ref := e.ref - 1 }), d)
  else .done (c.modify entry (fun e => { e with ref := e.ref - 1 }), d)

/-! ## Directory decoder -/

/-- The index `i` that `read_entry_name` computes for a short name: one past
the last of the first `k` name bytes that is not a space. -/
def sfn_trim (raw : Nat → Nat) : Nat → Nat
  | 0 => 0
  | k + 1 => if raw k = 0x20 then sfn_trim raw k else k + 1

/-- The function `read_entry_name`: the 26 bytes of `buffer` afterwards.  `raw`
is the directory slot, `buffer` the array of 13 wide characters as bytes. -/
def read_entry_name (buffer : Nat → Nat) (raw : Nat → Nat) (longcnt : Nat) : Nat → Nat :=
  if longcnt ≠ 0 then
    fun i =>
      if i < 10 then raw (1 + i)
      else if i < 22 then raw (14 + (i - 10))
      else if i < 26 then raw (28 + (i - 22))
      else buffer i
  else
    let b0 : Nat → Nat := fun i => if i < 24 then 0 else buffer i
    let i := sfn_trim raw 8
    let b1 : Nat → Nat := fun k => if k < i then raw k else b0 k
    if raw 8 ≠ 0x20 then
      let b2 : Nat → Nat :=
        fun k => if 2 * (i + 1) ≤ k ∧ k < 2 * (i + 1) + 3 then raw (8 + (k - 2 * (i + 1))) else b1 k
      fun k => if k = 2 * i then 0x2e else if k = 2 * i + 1 then 0 else b2 k
    else b1

/-- The function `read_entry_info`. -/
def read_entry_info (entry : DirEntry) (raw : Nat → Byte) : DirEntry :=
  let e1 := { entry with attr := (raw 11).val }
  let e2 := { e1 with first_clus := u32 (rd16 raw 20 * 65536) }
  let e3 := { e2 with first_clus := u32 (e2.first_clus + rd16 raw 26) }
  { e3 with file_size := rd32 raw 28 }

/-- How the scan of one sector by `lookup_dir` ends: at the short-name slot
`ep` that is taken for the target, at the end-of-directory slot, or past the
end of the sector with the pointer `ep`, the flag `match` and `buffer`. -/
inductive ScanStep where
  | found (ep : Nat)
  | ended
  | next (ep : Nat) (mtch : Nat) (buffer : Nat → Nat)

/-- The inner loop of `lookup_dir` over the slots of the sector `s`.  Element
`i` of the wide array at `wname + offset` is 0 outside the array. -/
def lookup_scan (fat : Fat) (s : Sector) (filename : Nat → Nat) (wname : List Nat)
    (entcnt : Nat) : Nat → Nat → Nat → (Nat → Nat) → Outcome ScanStep
  | 0, ep, mtch, buffer =>
    if ep < fat.bpb.byts_per_sec then .nofuel else .done (.next ep mtch buffer)
  | fuel + 1, ep, mtch, buffer =>
    if ep < fat.bpb.byts_per_sec then
      if (s ep).val = EMPTY_ENTRY then lookup_scan fat s filename wname entcnt fuel (ep + 32) mtch buffer
      else if (s ep).val = END_OF_ENTRY then .done .ended
      else if (s (ep + 11)).val = ATTR_LONG_NAME then
        let count := Nat.land (s ep).val (u32sub 4294967295 LAST_LONG_ENTRY)
        if Nat.land (s ep).val LAST_LONG_ENTRY ≠ 0 ∧ count ≠ entcnt then
          lookup_scan fat s filename wname entcnt fuel (ep + (count + 1) * 32) mtch buffer
        else
          let buffer1 := read_entry_name buffer (fun i => (s (ep + i)).val) count
          let offset : Int := ((count : Int) - 1) * (CHAR_LONG_NAME : Int)
          let wbuf : Nat → Nat := fun i => buffer1 (2 * i) + 256 * buffer1 (2 * i + 1)
          let wslice : Nat → Nat := fun i =>
            if offset + (i : Int) < 0 then 0 else wname.getD (offset + (i : Int)).toNat 0
          if wcsncmp wbuf wslice CHAR_LONG_NAME 0 ≠ 0 then
            lookup_scan fat s filename wname entcnt fuel (ep + (count + 1) * 32) mtch buffer1
          else
            lookup_scan fat s filename wname entcnt fuel (ep + 32)
              (if count = 1 then 1 else mtch) buffer1
      else if mtch = 0 then
        let buffer1 := read_entry_name buffer (fun i => (s (ep + i)).val) 0
        if strncmp buffer1 filename 11 0 ≠ 0 then
          lookup_scan fat s filename wname entcnt fuel (ep + 32) mtch buffer1
        else .done (.found ep)
      else .done (.found ep)
    else .done (.next ep mtch buffer)

/-- The outer loop `while (cluster < FAT32_EOC)` of `lookup_dir`.  State:
`cluster`, `sec1`, `sec`, `clus_cnt`, `skip`, `match`, `buffer`.  The result is
the position of the slot taken for the target as `(clus_cnt, sec - sec1, ep,
sec)`, or `none` when the scan ends without one.  The code puts no bound on
this loop, so its budget is a parameter. -/
def lookup_walk (fat : Fat) (d : Disk) (filename : Nat → Nat) (wname : List Nat)
    (entcnt : Nat) :
    Nat → Nat → Nat → Nat → Nat → Nat → Nat → (Nat → Nat) →
      Outcome (Option (Nat × Nat × Nat × Nat))
  | 0, cluster, _, _, _, _, _, _ => if cluster < FAT32_EOC then .nofuel else .done none
  | fuel + 1, cluster, sec1, sec, clus_cnt, skip, mtch, buffer =>
    if cluster < FAT32_EOC then
      match lookup_scan fat (d sec) filename wname entcnt (fat.bpb.byts_per_sec / 32 + 1)
          skip mtch buffer with
      | .done (.found ep) => .done (some (clus_cnt, u32sub sec sec1, ep, sec))
      | .done .ended => .done none
      | .done (.next ep mtch1 buffer1) =>
        let skip1 := ep - fat.bpb.byts_per_sec
        if u32sub sec sec1 ≥ fat.bpb.sec_per_clus then
          let cluster1 := read_fat fat d cluster
          lookup_walk fat d filename wname entcnt fuel cluster1 (first_sec_of_clus fat cluster1)
            (first_sec_of_clus fat cluster1) (u32 (clus_cnt + 1)) skip1 mtch1 buffer1
        else
          lookup_walk fat d filename wname entcnt fuel cluster sec1 (u32 (sec + 1)) clus_cnt
            skip1 mtch1 buffer1
      | .panicked => .panicked
      | .nofuel => .nofuel
    else .done none

/-- The function `lookup_dir`: the returned pointer (`none` is the null
pointer), the cache and the volume afterwards.  `fuel` is the budget of the
outer loop. -/
def lookup_dir (fat : Fat) (fault : Nat → Nat → Bool) (junk fuel : Nat) (c : Ecache) (d : Disk)
    (entry : Nat) (filename : Nat → Nat) (len : Nat) : Outcome (Option Nat × Ecache × Disk) :=
  if (c.get entry).attr ≠ ATTR_DIRECTORY then .done (none, c, d)
  else
    (eget c (c.get entry).dev (c.get entry).first_clus filename).bind (fun r =>
      let de := r.1
      let c1 := r.2
      if (c1.get de).valid ≠ 0 then .done (some de, c1, d)
      else
        let cluster := (c1.get entry).first_clus
        let sec1 := first_sec_of_clus fat cluster
        let entcnt := (len + CHAR_LONG_NAME - 1) / CHAR_LONG_NAME
        let wname := wnstr filename len
        (lookup_walk fat d filename wname entcnt fuel cluster sec1 sec1 0 0 0 (fun _ => 0)).bind
          (fun w =>
            match w with
            | some (clus_cnt, secoff, ep, sec) =>
              let c2 := c1.modify de (fun e => { e with filename := strncpy e.filename filename len })
              let c3 := c2.modify de (fun e => { e with valid := 1 })
              let c4 := c3.modify de (fun e => { e with parent := (c3.get entry).first_clus })
              let pos : Int :=
                ((u32 (u32 (u32 (clus_cnt * fat.bpb.sec_per_clus) + secoff)
                  * fat.bpb.byts_per_sec) : Nat) : Int) + (ep : Int) - ((entcnt * 32 : Nat) : Int)
              let c5 := c4.modify de (fun e => { e with off := (pos % 4294967296).toNat })
              let c6 := c5.modify de (fun e => read_entry_info e (fun i => d sec (ep + i)))
              .done (some de, c6, d)
            | none =>
              (eput fat fault junk c1 d de).map (fun r => (none, r.1, r.2))))

/-- The caller that deletes a file and looks its name up again: `lookup_dir`
of `name` in the directory `dir`, `etrunc` of the handle found, `eput` of it,
and `lookup_dir` of `name` in `dir` once more.  The result is the pointer
returned by the first lookup, the pointer returned by the second one, and the
cache afterwards. -/
def delete_then_lookup (fat : Fat) (fault : Nat → Nat → Bool) (junk fuel : Nat) (c : Ecache)
    (d : Disk) (dir : Nat) (name : Nat → Nat) (len : Nat) :
    Outcome (Option Nat × Option Nat × Ecache) :=
  (lookup_dir fat fault junk fuel c d dir name len).bind (fun r1 =>
    match r1.1 with
    | none => .done (none, none, r1.2.1)
    | some e =>
      (etrunc fat fault junk fuel r1.2.2 (r1.2.1.get e)).bind (fun r2 =>
        (eput fat fault junk (r1.2.1.modify e (fun _ => r2.2)) r2.1 e).bind (fun r3 =>
          (lookup_dir fat fault junk fuel r3.1 r3.2 dir name len).map (fun r4 =>
            (some e, r4.1, r4.2.1)))))

/-! ## Mount geometry -/

/-- The geometry that `fat32_init` derives from the decoded BPB fields
(the four assignments to `fat.first_data_sec` .. `fat.byts_per_clus`). -/
def fat32_geometry (bpb : Bpb) : Fat :=
  let first_data_sec := u32 (bpb.rsvd_sec_cnt + u32 (bpb.fat_cnt * bpb.fat_sz))
  let data_sec_cnt := u32sub bpb.tot_sec first_data_sec
  { first_data_sec := first_data_sec
    data_sec_cnt := data_sec_cnt
    data_clus_cnt := data_sec_cnt / bpb.sec_per_clus
    byts_per_clus := u32 (bpb.sec_per_clus * bpb.byts_per_sec)
    bpb := bpb }

/-! ## Vocabulary of the statements -/

/-- A mounted volume: the geometry is the one `fat32_init` derives, the sector
size is the block size (otherwise `fat32_init` panics), and the `uint8`
number of sectors per cluster is not 0 (`fat32_init` divides by it). -/
def Mounted (fat : Fat) : Prop :=
  fat = fat32_geometry fat.bpb ∧ fat.bpb.byts_per_sec = BSIZE
    ∧ 1 ≤ fat.bpb.sec_per_clus ∧ fat.bpb.sec_per_clus < 256

instance (fat : Fat) : Decidable (Mounted fat) := by
  unfold Mounted; infer_instance

/-- A mounted volume whose regions fit on the device: in addition to
`Mounted` there is at least one FAT and one reserved sector (the boot sector),
and reserved sectors and FATs end at or before the last sector. -/
def MountedLayout (fat : Fat) : Prop :=
  fat = fat32_geometry fat.bpb ∧ fat.bpb.byts_per_sec = BSIZE
    ∧ 1 ≤ fat.bpb.sec_per_clus ∧ fat.bpb.sec_per_clus < 256
    ∧ 1 ≤ fat.bpb.fat_cnt ∧ 1 ≤ fat.bpb.rsvd_sec_cnt ∧ fat.bpb.rsvd_sec_cnt < 65536
    ∧ fat.bpb.rsvd_sec_cnt + fat.bpb.fat_cnt * fat.bpb.fat_sz ≤ fat.bpb.tot_sec
    ∧ fat.bpb.tot_sec < 4294967296

instance (fat : Fat) : Decidable (MountedLayout fat) := by
  unfold MountedLayout; infer_instance

/-- The 32-bit entry number `k` of FAT#1: FAT#1 starts at the first sector
after the reserved ones and a 512-byte sector holds 128 entries. -/
def fat1_entry (fat : Fat) (d : Disk) (k : Nat) : Nat :=
  rd32 (d (u32 (fat.bpb.rsvd_sec_cnt + k / 128))) (4 * (k % 128))

/-- A valid data cluster number: from 2 up to `data_clus_cnt + 1`, and below
the end-of-chain range. -/
def valid_clus (fat : Fat) (c : Nat) : Prop :=
  2 ≤ c ∧ c ≤ fat.data_clus_cnt + 1 ∧ c < FAT32_EOC

instance (fat : Fat) (c : Nat) : Decidable (valid_clus fat c) := by
  unfold valid_clus; infer_instance

/-- The cluster reached from `c` after `i` steps along FAT#1. -/
def chain_at (fat : Fat) (d : Disk) (c : Nat) : Nat → Nat
  | 0 => c
  | i + 1 => read_fat fat d (chain_at fat d c i)

/-- Byte `j` of cluster `c`, the cluster seen as the concatenation of its
`sec_per_clus` sectors starting at `first_sec_of_clus c` (sector numbers are
32-bit). -/
def clus_byte (fat : Fat) (d : Disk) (c j : Nat) : Byte :=
  d (u32 (first_sec_of_clus fat c + j / BSIZE)) (j % BSIZE)

/-- Byte `p` of the content of the file whose chain starts at `first`: the
concatenation of the chain's clusters in chain order. -/
def file_byte (fat : Fat) (d : Disk) (first p : Nat) : Byte :=
  clus_byte fat d (chain_at fat d first (p / fat.byts_per_clus)) (p % fat.byts_per_clus)

/-! ## Mount -/

/-- The function `fat32_init`, called with the volume `d`, the globals `fat`
and cache as they are before the call, and `num` = `ENTRY_CACHE_NUM` (a
constant of the absent `include/fat32.h`): the returned `int` and the globals
afterwards.  When `sec_per_clus` is 0 the C division is undefined; the model
takes the quotient to be 0. -/
def fat32_init (d : Disk) (fat0 : Fat) (c0 : Ecache) (num : Nat) : Outcome (Int × Fat × Ecache) :=
  let b := d 0
  if strncmp (fun i => (b (82 + i)).val) (cstr [0x46, 0x41, 0x54, 0x33, 0x32]) 5 0 ≠ 0 then
    .done (-1, fat0, c0)
  else
    let bpb : Bpb :=
      { byts_per_sec := rd16 b 11
        sec_per_clus := (b 13).val
        rsvd_sec_cnt := rd16 b 14
        fat_cnt := (b 16).val
        hidd_sec := rd32 b 28
        tot_sec := rd32 b 32
        fat_sz := rd32 b 36
        root_clus := rd32 b 44 }
    let fat := fat32_geometry bpb
    if BSIZE ≠ fat.bpb.byts_per_sec then .panicked
    else .done (0, fat, ecache_init fat num)

/-! ## Path resolver -/

/-- The number of leading `'/'` bytes of a string: the steps of the loop
`while (**path == '/') (*path)++`. -/
def lead_slashes : List Nat → Nat
  | [] => 0
  | b :: rest => if b = 0x2f then lead_slashes rest + 1 else 0

/-- The number of leading bytes that are neither `'/'` nor NUL: the steps of
the loop `while (**path != '/' && **path != 0) (*path)++`. -/
def name_run : List Nat → Nat
  | [] => 0
  | b :: rest => if b ≠ 0x2f ∧ b ≠ 0 then name_run rest + 1 else 0

/-- The function `skipelem`.  `path` is the string the cursor `*path` points
into (byte `i` is `cstr path i`, NUL past the end of the list), `i` the cursor
and `name` the memory at `name`.  The result is the returned `int`, the cursor
and the memory at `name` afterwards. -/
def skipelem (path : List Nat) (i : Nat) (name : Nat → Nat) : Int × Nat × (Nat → Nat) :=
  let i1 := i + lead_slashes (path.drop i)
  if cstr path i1 = 0 then (-1, i1, name)
  else
    let i2 := i1 + name_run (path.drop i1)
    let len0 : Int := int32 (i2 - i1)
    let len : Int := if len0 > (FAT32_MAX_FILENAME : Int) then (FAT32_MAX_FILENAME : Int) else len0
    let name1 : Nat → Nat :=
      if len0 > (FAT32_MAX_FILENAME : Int) then name
      else fun k => if k = len0.toNat then 0 else name k
    let name2 : Nat → Nat :=
      fun k => if k < len.toNat then cstr path (i1 + k) else name1 k
    let i3 := i2 + lead_slashes (path.drop i2)
    (len, i3, name2)

/-- What `lookup_path` leaves: the returned pointer (`none` is the null
pointer), the cache, the volume and the memory at `name`. -/
structure PathRes where
  ret : Option Nat
  cache : Ecache
  disk : Disk
  name : Nat → Nat

/-- The loop of `lookup_path`.  State: the cursor `i`, the pointer `entry`,
the cache, the volume and the memory at `name`.  `elock` and `eunlock` panic
when the handle's `ref` is below 1; sleep locks are not modelled otherwise.
`lfuel` is the budget given to each `lookup_dir`. -/
def lookup_path_loop (fat : Fat) (fault : Nat → Nat → Bool) (junk lfuel : Nat)
    (path : List Nat) (parent : Bool) :
    Nat → Nat → Nat → Ecache → Disk → (Nat → Nat) → Outcome PathRes
  | 0, i, entry, c, d, name =>
    if (skipelem path i name).1 ≠ -1 then .nofuel
    else if parent then
      (eput fat fault junk c d entry).map (fun r => ⟨none, r.1, r.2, (skipelem path i name).2.2⟩)
    else .done ⟨some entry, c, d, (skipelem path i name).2.2⟩
  | fuel + 1, i, entry, c, d, name =>
    let s := skipelem path i name
    if s.1 ≠ -1 then
      if (c.get entry).ref < 1 then .panicked
      else if (c.get entry).attr ≠ ATTR_DIRECTORY then
        (eput fat fault junk c d entry).map (fun r => ⟨none, r.1, r.2, s.2.2⟩)
      else if parent = true ∧ cstr path s.2.1 = 0 then .done ⟨some entry, c, d, s.2.2⟩
      else
        match lookup_dir fat fault junk lfuel c d entry s.2.2 s.1.toNat with
        | .done (none, c1, d1) =>
          if (c1.get entry).ref < 1 then .panicked
          else (eput fat fault junk c1 d1 entry).map (fun r => ⟨none, r.1, r.2, s.2.2⟩)
        | .done (some next, c1, d1) =>
          if (c1.get entry).ref < 1 then .panicked
          else
            match eput fat fault junk c1 d1 entry with
            | .done (c2, d2) =>
              lookup_path_loop fat fault junk lfuel path parent fuel s.2.1 next c2 d2 s.2.2
            | .panicked => .panicked
            | .nofuel => .nofuel
        | .panicked => .panicked
        | .nofuel => .nofuel
    else if parent then
      (eput fat fault junk c d entry).map (fun r => ⟨none, r.1, r.2, s.2.2⟩)
    else .done ⟨some entry, c, d, s.2.2⟩

/-- The function `lookup_path`.  `cwd` is the pointer `myproc()->cwd`.  The
loop runs at most once per byte of the path. -/
def lookup_path (fat : Fat) (fault : Nat → Nat → Bool) (junk lfuel : Nat) (c : Ecache) (d : Disk)
    (cwd : Nat) (path : List Nat) (parent : Bool) (name : Nat → Nat) : Outcome PathRes :=
  let e := if cstr path 0 = 0x2f then edup c 0 else edup c cwd
  lookup_path_loop fat fault junk lfuel path parent (path.length + 1) 0 e.1 e.2 d name

/-- The function `get_entry`; its local array `name` starts zeroed. -/
def get_entry (fat : Fat) (fault : Nat → Nat → Bool) (junk lfuel : Nat) (c : Ecache) (d : Disk)
    (cwd : Nat) (path : List Nat) : Outcome PathRes :=
  lookup_path fat fault junk lfuel c d cwd path false (fun _ => 0)

/-- The function `get_parent`. -/
def get_parent (fat : Fat) (fault : Nat → Nat → Bool) (junk lfuel : Nat) (c : Ecache) (d : Disk)
    (cwd : Nat) (path : List Nat) (name : Nat → Nat) : Outcome PathRes :=
  lookup_path fat fault junk lfuel c d cwd path true name

/-! ## Vocabulary of the statements, continued -/

/-- The five bytes at offset 82 of a sector are "FAT32". -/
def has_fat32_signature (s : Sector) : Prop :=
  (s 82).val = 0x46 ∧ (s 83).val = 0x41 ∧ (s 84).val = 0x54 ∧ (s 85).val = 0x33
    ∧ (s 86).val = 0x32

instance (s : Sector) : Decidable (has_fat32_signature s) := by
  unfold has_fat32_signature; infer_instance

/-! ## Vocabulary of the cache statements -/

/-- Adjacent nodes of a sequence are linked both ways: for neighbours `a`, `b`
the successor of `a` is `b` and the predecessor of `b` is `a`. -/
def Linked (nx pv : Nat → Nat) : List Nat → Prop
  | a :: b :: rest => nx a = b ∧ pv b = a ∧ Linked nx pv (b :: rest)
  | _ => True

/-- Decision procedure of `Linked`. -/
def decLinked (nx pv : Nat → Nat) : (l : List Nat) → Decidable (Linked nx pv l)
  | [] => isTrue (by unfold Linked; trivial)
  | [_] => isTrue (by unfold Linked; trivial)
  | a :: b :: rest =>
    match decLinked nx pv (b :: rest) with
    | isTrue h =>
      if h1 : nx a = b then
        if h2 : pv b = a then isTrue (by unfold Linked; exact ⟨h1, h2, h⟩)
        else isFalse (by unfold Linked; exact fun hh => h2 hh.2.1)
      else isFalse (by unfold Linked; exact fun hh => h1 hh.1)
    | isFalse h => isFalse (by unfold Linked; exact fun hh => h hh.2.2)

instance (nx pv : Nat → Nat) (l : List Nat) : Decidable (Linked nx pv l) := decLinked nx pv l

/-- The field `next` as a function of the pointer. -/
def ring_next (c : Ecache) : Nat → Nat := fun p => (c.get p).next

/-- The field `prev` as a function of the pointer. -/
def ring_prev (c : Ecache) : Nat → Nat := fun p => (c.get p).prev

/-- The ring of the cache in MRU order: `l` lists the pointers met from
`root.next` along `next` until `&root` is reached again, neighbours are linked
both ways, and `l` holds every pointer to a cache entry exactly once. -/
def Ring (c : Ecache) (l : List Nat) : Prop :=
  Linked (ring_next c) (ring_prev c) (0 :: l ++ [0])
  ∧ l.Nodup
  ∧ (∀ x ∈ l, 1 ≤ x ∧ x ≤ c.entries.length)
  ∧ (∀ x ∈ List.range' 1 c.entries.length, x ∈ l)

instance (c : Ecache) (l : List Nat) : Decidable (Ring c l) := by
  unfold Ring; infer_instance

/-- The nodes met from `p` along `next` before `&root`, `none` when `&root` is
not reached within `fuel` steps. -/
def ring_walk (c : Ecache) : Nat → Nat → Option (List Nat)
  | 0, p => if p = 0 then some [] else none
  | fuel + 1, p =>
    if p = 0 then some [] else (ring_walk c fuel (c.get p).next).map (fun l => p :: l)

/-- The test of the first loop of `eget`: the handle at `x` has the key
`(dev, parent, name)`. -/
def key_match (c : Ecache) (dev parent : Nat) (name : Nat → Nat) (x : Nat) : Prop :=
  (c.get x).dev = dev ∧ (c.get x).parent = parent
    ∧ strncmp (cstr (c.get x).filename) name FAT32_MAX_FILENAME 0 = 0

instance (c : Ecache) (dev parent : Nat) (name : Nat → Nat) (x : Nat) :
    Decidable (key_match c dev parent name x) := by
  unfold key_match; infer_instance

/-- One call of the cache interface. -/
inductive CacheCall where
  | eget (dev parent : Nat) (name : List Nat)
  | ealloc (dp : Nat) (name : List Nat) (dir : Bool)
  | edup (entry : Nat)
  | eput (entry : Nat)

/-- The cache and the volume after one call. -/
def cache_call (fat : Fat) (fault : Nat → Nat → Bool) (junk : Nat) (s : Ecache × Disk) :
    CacheCall → Outcome (Ecache × Disk)
  | .eget dev parent name => (eget s.1 dev parent (cstr name)).map (fun r => (r.2, s.2))
  | .ealloc dp name dir => (ealloc s.1 dp (cstr name) dir).map (fun r => (r.2, s.2))
  | .edup entry => .done ((edup s.1 entry).2, s.2)
  | .eput entry => eput fat fault junk s.1 s.2 entry

/-- The cache and the volume after a sequence of calls, one after the
other. -/
def cache_calls (fat : Fat) (fault : Nat → Nat → Bool) (junk : Nat) :
    List CacheCall → Ecache × Disk → Outcome (Ecache × Disk)
  | [], s => .done s
  | k :: rest, s => (cache_call fat fault junk s k).bind (cache_calls fat fault junk rest)

/-! ## Concrete volumes -/

/-- A sector holding the 32-bit little-endian values `f 0, f 1, ..`. -/
def entrySector (f : Nat → Nat) : Sector :=
  fun i => wr32 (fun _ => 0) (4 * (i / 4)) (f (i / 4)) i

/-- A FAT sector holding the given 32-bit entries, zero after them. -/
def fatSector (es : List Nat) : Sector :=
  entrySector (fun k => es.getD k 0)

/-- The copy oracle of a caller whose buffers never fault. -/
def nofault : Nat → Nat → Bool := fun _ _ => false

/-- Memory holding zeros. -/
def zeroMem : Mem := fun _ => 0

/-- BPB of a small volume: one reserved sector, one FAT of one sector, one
sector per cluster, 22 sectors.  Cluster `c` is sector `c`; "cluster 1" is the
FAT sector, "cluster 0" the boot sector. -/
def bpbA : Bpb :=
  { byts_per_sec := 512, sec_per_clus := 1, rsvd_sec_cnt := 1, fat_cnt := 1,
    hidd_sec := 0, tot_sec := 22, fat_sz := 1, root_clus := 2 }

/-- Geometry of the small volume as `fat32_init` derives it: first data
sector 2, 20 data clusters (numbers 2 .. 21), 512 bytes per cluster. -/
def fatA : Fat := fat32_geometry bpbA

/-- A small volume whose FAT has entry 0 in use and entry 1 equal to 0. -/
def diskReserved1Free : Disk :=
  fun sec => if sec = 1 then fatSector [0x0FFFFFF8, 0, 0x0FFFFFFF] else fun _ => 0

/-- A small volume with the reserved entries and cluster 2 (the root
directory) in use and every other cluster free. -/
def diskA : Disk :=
  fun sec => if sec = 1 then fatSector [0x0FFFFFF8, 0x0FFFFFFF, 0x0FFFFFFF] else fun _ => 0

/-- A full small volume: the reserved entries and all 20 data clusters
2 .. 21 are in use; the rest of the FAT sector (entries 22 .. 127, which
belong to no cluster) is zero as a formatter leaves it. -/
def diskFull : Disk :=
  fun sec =>
    if sec = 1 then fatSector (0x0FFFFFF8 :: 0x0FFFFFFF :: List.replicate 20 0x0FFFFFFF)
    else fun _ => 0

/-- BPB of a volume with 32768 clusters of 128 sectors (64 KiB). -/
def bpbHuge : Bpb :=
  { byts_per_sec := 512, sec_per_clus := 128, rsvd_sec_cnt := 32, fat_cnt := 1,
    hidd_sec := 0, tot_sec := 4194593, fat_sz := 257, root_clus := 2 }

/-- Geometry of that volume: first data sector 289, data clusters 2 .. 32769. -/
def fatHuge : Fat := fat32_geometry bpbHuge

/-- FAT entries of a volume holding one file that occupies all 32768 clusters
in ascending order: entry `k` is `k + 1` for `2 ≤ k ≤ 32768`, entry 32769 ends
the chain. -/
def hugeEntryVal (k : Nat) : Nat :=
  if k < 2 then 0x0FFFFFF8 else if k ≤ 32768 then k + 1
  else if k = 32769 then 0x0FFFFFFF else 0

/-- The volume holding that file; the data sectors are zero. -/
def diskHuge : Disk :=
  fun sec =>
    if 32 ≤ sec ∧ sec < 289 then entrySector (fun j => hugeEntryVal ((sec - 32) * 128 + j))
    else fun _ => 0

/-- Handle of the 2 GiB file on that volume. -/
def hugeFile : DirEntry :=
  { filename := [], attr := 0, first_clus := 2, file_size := 2147483648, dev := 0,
    valid := 1, ref := 1, off := 0, parent := 2, next := 0, prev := 0 }

/-- A sector holding the given bytes, zero after them. -/
def byteSector (l : List Nat) : Sector := fun i => toByte (l.getD i 0)

/-- The long-name slot of the name "f": ordinal 1 with `LAST_LONG_ENTRY`, the
UCS-2 characters "f", NUL and padding, attribute `0x0F`. -/
def lfnSlotF : List Nat :=
  [0x41, 0x66, 0, 0, 0, 0xFF, 0xFF, 0xFF, 0xFF, 0xFF, 0xFF, 0x0F, 0, 0x5A,
   0xFF, 0xFF, 0xFF, 0xFF, 0xFF, 0xFF, 0xFF, 0xFF, 0xFF, 0xFF, 0xFF, 0xFF, 0, 0,
   0xFF, 0xFF, 0xFF, 0xFF]

/-- The short-name slot "F" of a file with first cluster `clus` (below 256)
and size `size` (below 65536). -/
def sfnSlotF (clus size : Nat) : List Nat :=
  [0x46, 0x20, 0x20, 0x20, 0x20, 0x20, 0x20, 0x20, 0x20, 0x20, 0x20, 0x20, 0, 0, 0, 0,
   0, 0, 0, 0, 0, 0, 0, 0, 0, 0, clus, 0, size % 256, size / 256, 0, 0]

/-- The name "f" as a C string. -/
def nameF : Nat → Nat := cstr [0x66]

/-- A source buffer holding the bytes 1, 2, 3, .. . -/
def srcMem : Mem := fun a => toByte (a + 1)

/-- BPB of a volume with 8192-byte clusters: 190 reserved sectors, two FATs
of one sector, 16 sectors per cluster, 100 clusters.  With it the sectors that
`first_sec_of_clus` computes for cluster number 0 (160 ..) and for the
end-of-chain values `0x0FFFFFF8` (32 ..) and `0x0FFFFFFF` (144 ..) all lie on
the volume, in its reserved region. -/
def bpbD : Bpb :=
  { byts_per_sec := 512, sec_per_clus := 16, rsvd_sec_cnt := 190, fat_cnt := 2,
    hidd_sec := 0, tot_sec := 1792, fat_sz := 1, root_clus := 2 }

/-- Geometry of the volume with 8192-byte clusters: first data sector 192. -/
def fatD : Fat := fat32_geometry bpbD

/-- The volume with 8192-byte clusters, freshly formatted. -/
def diskD : Disk :=
  fun sec => if sec = 190 then fatSector [0x0FFFFFF8, 0x0FFFFFFF, 0x0FFFFFFF] else fun _ => 0

/-- The volume with 8192-byte clusters holding the file "f" in the root
directory: one cluster (cluster 3), 10 bytes. -/
def diskOne : Disk :=
  fun sec =>
    if sec = 190 then fatSector [0x0FFFFFF8, 0x0FFFFFFF, 0x0FFFFFFF, 0x0FFFFFFF]
    else if sec = 192 then byteSector (lfnSlotF ++ sfnSlotF 3 10)
    else fun _ => 0

/-- Handle of the one-cluster file. -/
def fileOne : DirEntry :=
  { zeroEntry with first_clus := 3, file_size := 10, valid := 1, ref := 1, off := 0,
                   parent := 2 }

/-- A small volume with the file "f" in the root directory: two clusters
(3, then 4), `size` bytes (below 65536). -/
def diskTwoOf (size : Nat) : Disk :=
  fun sec =>
    if sec = 1 then fatSector [0x0FFFFFF8, 0x0FFFFFFF, 0x0FFFFFFF, 4, 0x0FFFFFFF]
    else if sec = 2 then byteSector (lfnSlotF ++ sfnSlotF 3 size)
    else if sec = 3 then byteSector [10, 11, 12]
    else if sec = 4 then byteSector [20, 21, 22]
    else fun _ => 0

/-- The two-cluster file with 512 bytes. -/
def diskTwo : Disk := diskTwoOf 512

/-- The two-cluster file with 600 bytes. -/
def diskTwoLong : Disk := diskTwoOf 600

/-- Handle of the two-cluster file with 512 bytes. -/
def fileTwo : DirEntry :=
  { zeroEntry with first_clus := 3, file_size := 512, valid := 1, ref := 1, off := 0,
                   parent := 2 }

/-- Handle of a two-cluster file with 600 bytes on the same chain. -/
def fileTwoLong : DirEntry :=
  { zeroEntry with first_clus := 3, file_size := 600, valid := 1, ref := 1, off := 0,
                   parent := 2 }

/-- BPB of a volume with 4096-byte clusters: 32 reserved sectors, two FATs of
one sector, 8 sectors per cluster, 100 clusters. -/
def bpbC : Bpb :=
  { byts_per_sec := 512, sec_per_clus := 8, rsvd_sec_cnt := 32, fat_cnt := 2,
    hidd_sec := 0, tot_sec := 834, fat_sz := 1, root_clus := 2 }

/-- Geometry of the volume with 4096-byte clusters. -/
def fatC : Fat := fat32_geometry bpbC

/-- The volume with 4096-byte clusters, freshly formatted: the reserved FAT
entries and the root directory (cluster 2) in use. -/
def diskC : Disk :=
  fun sec => if sec = 32 then fatSector [0x0FFFFFF8, 0x0FFFFFFF, 0x0FFFFFFF] else fun _ => 0

/-- The handle that `ealloc(root, "f", 0)` produces in a fresh cache of two
entries (it is entry 1, whose ring neighbours are entry 2 and `root`). -/
def fileFresh : DirEntry :=
  { zeroEntry with attr := ATTR_LONG_NAME, valid := 1, ref := 1, prev := 2,
                   filename := strncpy zeroEntry.filename nameF FAT32_MAX_FILENAME }

/-- A small volume whose root directory has two clusters (2, then 4).  The
16 slots of the first directory cluster are deleted ones; the record of the
file "f" (clusters 5, then 6; 1024 bytes) is at the start of the second
directory cluster, that is at byte 512 of the directory.  Cluster 3 belongs to
another file, whose 512 bytes are all the letter "A". -/
def diskDir2 : Disk :=
  fun sec =>
    if sec = 1 then
      fatSector [0x0FFFFFF8, 0x0FFFFFFF, 4, 0x0FFFFFFF, 0x0FFFFFFF, 6, 0x0FFFFFFF]
    else if sec = 2 then (fun i => if i % 32 = 0 then 0xE5 else 0)
    else if sec = 3 then (fun _ => 0x41)
    else if sec = 4 then byteSector (lfnSlotF ++ sfnSlotF 5 1024)
    else fun _ => 0

/-- Handle of the file "f" whose record is at byte 512 of the directory. -/
def fileInDir2 : DirEntry :=
  { zeroEntry with first_clus := 5, file_size := 1024, valid := 1, ref := 1, off := 512,
                   parent := 2, filename := strncpy zeroEntry.filename nameF 1 }

/-- A small volume with the two-cluster file "f" (clusters 5, then 6; 1024
bytes) in the one-cluster root directory. -/
def diskDel : Disk :=
  fun sec =>
    if sec = 1 then fatSector [0x0FFFFFF8, 0x0FFFFFFF, 0x0FFFFFFF, 0, 0, 6, 0x0FFFFFFF]
    else if sec = 2 then byteSector (lfnSlotF ++ sfnSlotF 5 1024)
    else fun _ => 0

/-- The fields of a handle that the file operations read: `first_clus`,
`file_size`, `parent`, `off`, `valid`. -/
def handle_key (e : DirEntry) : Nat × Nat × Nat × Nat × Nat :=
  (e.first_clus, e.file_size, e.parent, e.off, e.valid)

/-- The long-name slot of a one-character name `ch`: ordinal 1 with
`LAST_LONG_ENTRY`, the UCS-2 characters `ch`, NUL and padding, attribute
`0x0F`. -/
def lfnSlot1 (ch : Nat) : List Nat :=
  [0x41, ch, 0, 0, 0, 0xFF, 0xFF, 0xFF, 0xFF, 0xFF, 0xFF, 0x0F, 0, 0x5A,
   0xFF, 0xFF, 0xFF, 0xFF, 0xFF, 0xFF, 0xFF, 0xFF, 0xFF, 0xFF, 0xFF, 0xFF, 0, 0,
   0xFF, 0xFF, 0xFF, 0xFF]

/-- The long-name slot of a two-character name. -/
def lfnSlot2 (ch1 ch2 : Nat) : List Nat :=
  [0x41, ch1, 0, ch2, 0, 0, 0, 0xFF, 0xFF, 0xFF, 0xFF, 0x0F, 0, 0x5A,
   0xFF, 0xFF, 0xFF, 0xFF, 0xFF, 0xFF, 0xFF, 0xFF, 0xFF, 0xFF, 0xFF, 0xFF, 0, 0,
   0xFF, 0xFF, 0xFF, 0xFF]

/-- A short-name slot with first name byte `ch`, attribute `attr`, first
cluster `clus` (below 256) and size `size` (below 65536). -/
def sfnSlot1 (ch attr clus size : Nat) : List Nat :=
  [ch, 0x20, 0x20, 0x20, 0x20, 0x20, 0x20, 0x20, 0x20, 0x20, 0x20, attr, 0, 0, 0, 0,
   0, 0, 0, 0, 0, 0, 0, 0, 0, 0, clus, 0, size % 256, size / 256, 0, 0]

/-- A small volume with the directory "a" (cluster 3) in the root directory
and the directory "b" (cluster 4) in "a"; "b" is empty. -/
def diskTree : Disk :=
  fun sec =>
    if sec = 1 then fatSector [0x0FFFFFF8, 0x0FFFFFFF, 0x0FFFFFFF, 0x0FFFFFFF, 0x0FFFFFFF]
    else if sec = 2 then byteSector (lfnSlot1 0x61 ++ sfnSlot1 0x41 0x10 3 0)
    else if sec = 3 then byteSector (lfnSlot1 0x62 ++ sfnSlot1 0x42 0x10 4 0)
    else fun _ => 0

/-- A small volume whose root directory holds the files "ab" (cluster 3),
"cb" (cluster 4) and "c" (cluster 5), of 5 bytes each. -/
def diskNames : Disk :=
  fun sec =>
    if sec = 1 then
      fatSector [0x0FFFFFF8, 0x0FFFFFFF, 0x0FFFFFFF, 0x0FFFFFFF, 0x0FFFFFFF, 0x0FFFFFFF]
    else if sec = 2 then
      byteSector (lfnSlot2 0x61 0x62 ++ sfnSlot1 0x41 0x20 3 5
        ++ lfnSlot2 0x63 0x62 ++ sfnSlot1 0x43 0x20 4 5
        ++ lfnSlot1 0x63 ++ sfnSlot1 0x44 0x20 5 5)
    else fun _ => 0

/-- The first bytes of a character array, up to the first NUL and at most
`n` of them. -/
def cstr_take (s : Nat → Nat) : Nat → Nat → List Nat
  | 0, _ => []
  | n + 1, i => if s i = 0 then [] else s i :: cstr_take s n (i + 1)

/-- A boot sector with the given signature bytes at offset 82 and the BPB
fields of `bpb` (each within its field width). -/
def bootSector (sig : List Nat) (bpb : Bpb) : Sector :=
  fun i =>
    if 82 ≤ i ∧ i < 87 then toByte (sig.getD (i - 82) 0)
    else if i = 11 then toByte bpb.byts_per_sec
    else if i = 12 then toByte (bpb.byts_per_sec / 256)
    else if i = 13 then toByte bpb.sec_per_clus
    else if i = 14 then toByte bpb.rsvd_sec_cnt
    else if i = 15 then toByte (bpb.rsvd_sec_cnt / 256)
    else if i = 16 then toByte bpb.fat_cnt
    else if 28 ≤ i ∧ i < 32 then wr32 (fun _ => 0) 28 bpb.hidd_sec i
    else if 32 ≤ i ∧ i < 36 then wr32 (fun _ => 0) 32 bpb.tot_sec i
    else if 36 ≤ i ∧ i < 40 then wr32 (fun _ => 0) 36 bpb.fat_sz i
    else if 44 ≤ i ∧ i < 48 then wr32 (fun _ => 0) 44 bpb.root_clus i
    else 0

/-- The geometry of a volume that is not mounted. -/
def fatNone : Fat :=
  { first_data_sec := 0, data_sec_cnt := 0, data_clus_cnt := 0, byts_per_clus := 0,
    bpb := { byts_per_sec := 0, sec_per_clus := 0, rsvd_sec_cnt := 0, fat_cnt := 0,
             hidd_sec := 0, tot_sec := 0, fat_sz := 0, root_clus := 0 } }

/-- An entry cache before `fat32_init`. -/
def cacheNone : Ecache := { root := zeroEntry, entries := [] }

/-- BPB whose total sector count (10) is below the end of its FATs (34). -/
def bpbShort : Bpb :=
  { byts_per_sec := 512, sec_per_clus := 1, rsvd_sec_cnt := 32, fat_cnt := 2,
    hidd_sec := 0, tot_sec := 10, fat_sz := 1, root_clus := 2 }

/-- A volume whose sector 0 is the given sector. -/
def diskBoot (b : Sector) : Disk := fun sec => if sec = 0 then b else fun _ => 0

/-- The signature "FAT32". -/
def sigFat32 : List Nat := [0x46, 0x41, 0x54, 0x33, 0x32]

/-- The signature "FAT16". -/
def sigFat16 : List Nat := [0x46, 0x41, 0x54, 0x31, 0x36]

/-- The caller that opens a path and releases the handle at once:
`e = get_entry(path); if (e) eput(e);`.  The result is the cache and the
volume afterwards. -/
def open_close (fat : Fat) (fault : Nat → Nat → Bool) (junk lfuel cwd : Nat) (path : List Nat)
    (s : Ecache × Disk) : Outcome (Ecache × Disk) :=
  (get_entry fat fault junk lfuel s.1 s.2 cwd path).bind (fun r =>
    match r.ret with
    | some e => eput fat fault junk r.cache r.disk e
    | none => .done (r.cache, r.disk))

/-- The state after the mount of `diskNames` with a cache of two entries and
the calls `get_entry("/ab")`, `eput`, `get_entry("/cb")`, `eput`. -/
def namesOpened : Outcome (Ecache × Disk) :=
  (open_close fatA nofault 0 8 0 [0x2f, 0x61, 0x62] (ecache_init fatA 2, diskNames)).bind
    (open_close fatA nofault 0 8 0 [0x2f, 0x63, 0x62])

/-- The call `get_entry("/c")` in the state `namesOpened`. -/
def namesRun : Outcome PathRes :=
  namesOpened.bind (fun s => get_entry fatA nofault 0 8 s.1 s.2 0 [0x2f, 0x63])

/-- The state after the mount of `diskNames` with a cache of one entry, the
call `lookup_dir(&root, "cb", 2)` and the `eput` of the handle it returns. -/
def namesLooked : Outcome (Ecache × Disk) :=
  (lookup_dir fatA nofault 0 8 (ecache_init fatA 1) diskNames 0 (cstr [0x63, 0x62]) 2).bind
    (fun r =>
      match r.1 with
      | some e => eput fatA nofault 0 r.2.1 r.2.2 e
      | none => .done (r.2.1, r.2.2))

/-- The key `(dev, parent, filename)` of a handle, the file name as the
NUL-terminated string in the array. -/
def cache_key (e : DirEntry) : Nat × Nat × List Nat :=
  (e.dev, e.parent, cstr_take (cstr e.filename) (FAT32_MAX_FILENAME + 1) 0)

/-- The volume `diskNames` with a boot sector for the geometry `fatA`. -/
def diskNamesBoot : Disk :=
  fun sec => if sec = 0 then bootSector sigFat32 bpbA else diskNames sec

/-- A sequence of cache calls: two `ealloc` in the root directory, `edup` and
`eput` of the second handle, `eput` of the first, an `eget` that reclaims the
third entry, and two more `eput`. -/
def ringCalls : List CacheCall :=
  [.ealloc 0 [0x78] false, .ealloc 0 [0x79] true, .edup 2, .eput 2, .eput 1,
   .eget 0 2 [0x61], .eput 2, .eput 3]

/-- The volume `diskTree` without the directory "b" and with the attribute
byte 0x30 (directory and archive) in the record of the directory "a". -/
def diskTreeArch : Disk :=
  fun sec =>
    if sec = 1 then fatSector [0x0FFFFFF8, 0x0FFFFFFF, 0x0FFFFFFF, 0x0FFFFFFF, 0x0FFFFFFF]
    else if sec = 2 then byteSector (lfnSlot1 0x61 ++ sfnSlot1 0x41 0x30 3 0)
    else fun _ => 0

/-- A small volume whose root directory is the single cluster 2 and is full:
the record of the file "x" (cluster 3, 64 bytes) and 14 deleted slots, no end
mark.  The 64 data bytes of "x", in cluster 3, are the bytes of a directory
record of a name "f" with first cluster 7 and size 100. -/
def diskSpillA : Disk :=
  fun sec =>
    if sec = 1 then fatSector [0x0FFFFFF8, 0x0FFFFFFF, 0x0FFFFFFF, 0x0FFFFFFF]
    else if sec = 2 then
      (fun i => if i < 64 then byteSector (lfnSlot1 0x78 ++ sfnSlot1 0x58 0x20 3 64) i
        else if i % 32 = 0 then 0xE5 else 0)
    else if sec = 3 then byteSector (lfnSlotF ++ sfnSlotF 7 100)
    else fun _ => 0

/-- The volume `diskSpillA` with other data in the file "x": cluster 3 holds
zeros. -/
def diskSpillB : Disk := fun sec => if sec = 3 then (fun _ => 0) else diskSpillA sec

/-- A small volume whose root directory holds the empty file "f": first
cluster 0, size 0. -/
def diskEmptyFile : Disk :=
  fun sec =>
    if sec = 1 then fatSector [0x0FFFFFF8, 0x0FFFFFFF, 0x0FFFFFFF]
    else if sec = 2 then byteSector (lfnSlotF ++ sfnSlotF 0 0)
    else fun _ => 0

/-- The caller that deletes a file: `lookup_dir` of `name` in the directory
`dir` and `etrunc` of the handle found.  The result is the handle that
`lookup_dir` returned and the volume after `etrunc`. -/
def lookup_then_etrunc (fat : Fat) (fault : Nat → Nat → Bool) (junk fuel : Nat) (c : Ecache)
    (d : Disk) (dir : Nat) (name : Nat → Nat) (len : Nat) : Outcome (DirEntry × Disk) :=
  (lookup_dir fat fault junk fuel c d dir name len).bind (fun r =>
    match r.1 with
    | none => .panicked
    | some e =>
      (etrunc fat fault junk fuel r.2.2 (r.2.1.get e)).map (fun t => (r.2.1.get e, t.1)))

/-! ## Lemmas -/

theorem rd32_lt (s : Nat → Byte) (off : Nat) : rd32 s off < 4294967296 := by
  unfold rd32; omega

theorem rd32_wr32_same (s : Nat → Byte) (off v : Nat) :
    rd32 (wr32 s off v) off = v % 4294967296 := by
  simp [rd32, wr32, toByte]; omega

theorem wr32_other (s : Nat → Byte) (off v i : Nat) (h : i < off ∨ off + 4 ≤ i) :
    wr32 s off v i = s i := by
  unfold wr32
  have h0 : i ≠ off := by omega
  have h1 : i ≠ off + 1 := by omega
  have h2 : i ≠ off + 2 := by omega
  have h3 : i ≠ off + 3 := by omega
  simp [h0, h1, h2, h3]

theorem rd32_wr32_other (s : Nat → Byte) (off v o : Nat) (h : o + 4 ≤ off ∨ off + 4 ≤ o) :
    rd32 (wr32 s off v) o = rd32 s o := by
  unfold rd32
  rw [wr32_other s off v o (by omega), wr32_other s off v (o + 1) (by omega),
    wr32_other s off v (o + 2) (by omega), wr32_other s off v (o + 3) (by omega)]

theorem bwrite_same (d : Disk) (sec : Nat) (s : Sector) : bwrite d sec s sec = s := by
  simp [bwrite]

theorem bwrite_other (d : Disk) (sec k : Nat) (s : Sector) (h : k ≠ sec) :
    bwrite d sec s k = d k := by
  simp [bwrite, h]

/-- With 512-byte sectors the FAT#1 sector of a cluster below `2^30`. -/
theorem fat_sec_of_clus_one (fat : Fat) (c : Nat) (hbps : fat.bpb.byts_per_sec = BSIZE)
    (hrs : fat.bpb.rsvd_sec_cnt < 65536) (hc : c < 1073741824) :
    fat_sec_of_clus fat c 1 = fat.bpb.rsvd_sec_cnt + c / 128 := by
  simp only [fat_sec_of_clus, u32, u32sub, hbps, BSIZE]
  norm_num
  omega

theorem fat_offset_of_clus_eq (fat : Fat) (c : Nat) (hbps : fat.bpb.byts_per_sec = BSIZE) :
    fat_offset_of_clus fat c = 4 * (c % 128) := by
  simp only [fat_offset_of_clus, u32, hbps, BSIZE]
  omega

/-- What `write_fat` returns and changes on a volume with 512-byte sectors
whose cluster numbers stay below the end-of-chain range. -/
theorem write_fat_effect (fat : Fat) (d : Disk) (c v : Nat)
    (hbps : fat.bpb.byts_per_sec = BSIZE) (hrs : fat.bpb.rsvd_sec_cnt < 65536)
    (hv : v < 4294967296) (hdc : fat.data_clus_cnt + 1 < FAT32_EOC) :
    (((write_fat fat d c v).1 = -1 ∧ (write_fat fat d c v).2 = d) ↔ c > fat.data_clus_cnt + 1)
    ∧ (c ≤ fat.data_clus_cnt + 1 →
        (write_fat fat d c v).1 = 0
        ∧ read_fat fat (write_fat fat d c v).2 c = v
        ∧ (∀ x, x ≠ c → read_fat fat (write_fat fat d c v).2 x = read_fat fat d x)
        ∧ (∀ sec i, ¬ (sec = fat.bpb.rsvd_sec_cnt + c / 128 ∧ 4 * (c % 128) ≤ i
              ∧ i < 4 * (c % 128) + 4) →
            (write_fat fat d c v).2 sec i = d sec i)) := by
  have hE : FAT32_EOC = 268435448 := rfl
  have hu : u32 (fat.data_clus_cnt + 1) = fat.data_clus_cnt + 1 := by
    unfold u32; omega
  constructor
  · constructor
    · intro h
      by_contra hc
      have hw0 : (write_fat fat d c v).1 = 0 := by
        simp [write_fat, hu, hc]
      rw [hw0] at h
      exact absurd h.1 (by decide)
    · intro h
      simp [write_fat, hu, h]
  · intro hc
    have hc30 : c < 1073741824 := by omega
    have hsec := fat_sec_of_clus_one fat c hbps hrs hc30
    have hoff := fat_offset_of_clus_eq fat c hbps
    have hw : write_fat fat d c v = (0, bwrite d (fat.bpb.rsvd_sec_cnt + c / 128)
        (wr32 (d (fat.bpb.rsvd_sec_cnt + c / 128)) (4 * (c % 128)) v)) := by
      have hle : ¬ c > fat.data_clus_cnt + 1 := by omega
      simp [write_fat, hu, hsec, hoff, hle]
    rw [hw]
    refine ⟨rfl, ?_, ?_, ?_⟩
    · simp only [read_fat, hu, hsec, hoff]
      rw [if_neg (by omega), if_neg (by omega), bwrite_same, rd32_wr32_same]
      omega
    · intro x hx
      simp only [read_fat, hu]
      by_cases h1 : x ≥ FAT32_EOC
      · simp [h1]
      · by_cases h2 : x > fat.data_clus_cnt + 1
        · simp [h1, h2]
        · rw [if_neg h1, if_neg h2, if_neg h1, if_neg h2]
          have hx30 : x < 1073741824 := by omega
          rw [fat_sec_of_clus_one fat x hbps hrs hx30, fat_offset_of_clus_eq fat x hbps]
          by_cases hs : x / 128 = c / 128
          · rw [hs, bwrite_same]
            apply rd32_wr32_other
            omega
          · rw [bwrite_other]
            omega
    · intro sec i hn
      by_cases hs : sec = fat.bpb.rsvd_sec_cnt + c / 128
      · subst hs
        show bwrite d _ _ _ i = _
        rw [bwrite_same]
        apply wr32_other
        by_contra hh
        apply hn
        exact ⟨rfl, by omega, by omega⟩
      · show bwrite d _ _ sec i = _
        rw [bwrite_other _ _ _ _ hs]

theorem alloc_scan_none_iff (s : Sector) (cnt j0 : Nat) :
    alloc_scan s cnt j0 = none ↔ ∀ j, j0 ≤ j → j < j0 + cnt → rd32 s (4 * j) ≠ 0 := by
  induction cnt generalizing j0 with
  | zero =>
    simp only [alloc_scan, true_iff]
    intro j h1 h2; omega
  | succ cnt ih =>
    simp only [alloc_scan]
    by_cases hz : rd32 s (4 * j0) = 0
    · simp only [hz, if_true]
      constructor
      · intro h; cases h
      · intro h; exact absurd hz (h j0 (le_refl _) (by omega))
    · rw [if_neg hz, ih]
      constructor
      · intro h j h1 h2
        by_cases hj : j = j0
        · subst hj; exact hz
        · exact h j (by omega) (by omega)
      · intro h j h1 h2
        exact h j (by omega) (by omega)

theorem alloc_scan_first (s : Sector) (cnt j0 j : Nat) (h1 : j0 ≤ j) (h2 : j < j0 + cnt)
    (hz : rd32 s (4 * j) = 0) (hf : ∀ j', j0 ≤ j' → j' < j → rd32 s (4 * j') ≠ 0) :
    alloc_scan s cnt j0 = some j := by
  induction cnt generalizing j0 with
  | zero => omega
  | succ cnt ih =>
    simp only [alloc_scan]
    by_cases hj : j = j0
    · subst hj; simp [hz]
    · rw [if_neg (hf j0 (le_refl _) (by omega))]
      exact ih (j0 + 1) (by omega) (by omega) (fun j' a b => hf j' (by omega) b)

theorem alloc_clus_loop_none_iff (fat : Fat) (d : Disk) (eps cnt i sec : Nat)
    (hsec : sec < 4294967296) :
    alloc_clus_loop fat d eps cnt i sec = none ↔
      ∀ t, t < cnt → ∀ j, j < eps → rd32 (d (u32 (sec + t))) (4 * j) ≠ 0 := by
  induction cnt generalizing i sec with
  | zero => simp [alloc_clus_loop]
  | succ cnt ih =>
    simp only [alloc_clus_loop]
    have hs0 : u32 (sec + 0) = sec := by unfold u32; omega
    cases hsc : alloc_scan (d sec) eps 0 with
    | some j =>
      simp only []
      constructor
      · intro h; cases h
      · intro h
        exfalso
        have hn : alloc_scan (d sec) eps 0 = none := by
          rw [alloc_scan_none_iff]
          intro j h1 h2
          have := h 0 (by omega) j (by omega)
          rwa [hs0] at this
        rw [hn] at hsc; cases hsc
    | none =>
      simp only []
      rw [ih (i + 1) (u32 (sec + 1)) (by unfold u32; omega)]
      rw [alloc_scan_none_iff] at hsc
      constructor
      · intro h t ht j hj
        by_cases h0 : t = 0
        · subst h0; rw [hs0]; exact hsc j (by omega) (by omega)
        · have := h (t - 1) (by omega) j hj
          have he : u32 (u32 (sec + 1) + (t - 1)) = u32 (sec + t) := by unfold u32; omega
          rwa [he] at this
      · intro h t ht j hj
        have := h (t + 1) (by omega) j hj
        have he : u32 (u32 (sec + 1) + t) = u32 (sec + (t + 1)) := by unfold u32; omega
        rwa [he]

theorem alloc_clus_loop_first (fat : Fat) (d : Disk) (eps cnt i sec t j : Nat)
    (hsec : sec < 4294967296) (ht : t < cnt) (hj : j < eps)
    (hz : rd32 (d (u32 (sec + t))) (4 * j) = 0)
    (hf : ∀ t' j', j' < eps → (t' < t ∨ (t' = t ∧ j' < j)) →
      rd32 (d (u32 (sec + t'))) (4 * j') ≠ 0) :
    alloc_clus_loop fat d eps cnt i sec =
      some (u32 ((i + t) * eps + j),
        zero_clus fat (bwrite d (u32 (sec + t))
          (wr32 (d (u32 (sec + t))) (4 * j) (FAT32_EOC + 7))) (u32 ((i + t) * eps + j))) := by
  induction cnt generalizing i sec t with
  | zero => omega
  | succ cnt ih =>
    simp only [alloc_clus_loop]
    have hs0 : u32 (sec + 0) = sec := by unfold u32; omega
    by_cases h0 : t = 0
    · subst h0
      rw [hs0] at hz
      have hsc : alloc_scan (d sec) eps 0 = some j := by
        apply alloc_scan_first _ _ _ _ (by omega) (by omega) hz
        intro j' _ h2
        have := hf 0 j' (by omega) (Or.inr ⟨rfl, h2⟩)
        rwa [hs0] at this
      rw [hsc]
      have hs1 : u32 sec = sec := by unfold u32; omega
      simp only [Nat.add_zero, hs1]
    · have hsc : alloc_scan (d sec) eps 0 = none := by
        rw [alloc_scan_none_iff]
        intro j' _ h2
        have := hf 0 j' (by omega) (Or.inl (by omega))
        rwa [hs0] at this
      rw [hsc]
      simp only []
      have he : u32 (u32 (sec + 1) + (t - 1)) = u32 (sec + t) := by unfold u32; omega
      have := ih (i + 1) (u32 (sec + 1)) (t - 1) (by unfold u32; omega) (by omega)
        (by rw [he]; exact hz)
        (by
          intro t' j' hj' hlt
          have he' : u32 (u32 (sec + 1) + t') = u32 (sec + (t' + 1)) := by unfold u32; omega
          rw [he']
          apply hf (t' + 1) j' hj'
          omega)
      rw [this, he]
      have hi : i + 1 + (t - 1) = i + t := by omega
      rw [hi]

theorem zero_clus_loop_other (d : Disk) (cnt sec x : Nat) (hsec : sec < 4294967296)
    (h : ∀ t, t < cnt → x ≠ u32 (sec + t)) : zero_clus_loop d cnt sec x = d x := by
  induction cnt generalizing d sec with
  | zero => rfl
  | succ cnt ih =>
    simp only [zero_clus_loop]
    rw [ih _ _ (by unfold u32; omega)]
    · apply bwrite_other
      have := h 0 (by omega)
      have hs0 : u32 (sec + 0) = sec := by unfold u32; omega
      rwa [hs0] at this
    · intro t ht
      have := h (t + 1) (by omega)
      have he : u32 (u32 (sec + 1) + t) = u32 (sec + (t + 1)) := by unfold u32; omega
      rwa [he]

theorem zero_clus_loop_zero (d : Disk) (cnt sec x i : Nat) (hsec : sec < 4294967296)
    (hi : i < BSIZE) (h : d x i = 0 ∨ ∃ t, t < cnt ∧ x = u32 (sec + t)) :
    zero_clus_loop d cnt sec x i = 0 := by
  induction cnt generalizing d sec with
  | zero =>
    rcases h with h | ⟨t, ht, _⟩
    · exact h
    · omega
  | succ cnt ih =>
    simp only [zero_clus_loop]
    apply ih _ _ (by unfold u32; omega)
    have hs0 : u32 (sec + 0) = sec := by unfold u32; omega
    by_cases hx : x = sec
    · left
      subst hx
      rw [bwrite_same]
      simp [memset, hi, toByte]
    · rcases h with h | ⟨t, ht, hxt⟩
      · left; rw [bwrite_other _ _ _ _ hx]; exact h
      · right
        refine ⟨t - 1, ?_, ?_⟩
        · have : t ≠ 0 := by
            intro h0; subst h0; rw [hs0] at hxt; exact hx hxt
          omega
        · have : t ≠ 0 := by
            intro h0; subst h0; rw [hs0] at hxt; exact hx hxt
          have he : u32 (u32 (sec + 1) + (t - 1)) = u32 (sec + t) := by unfold u32; omega
          rw [he]; exact hxt

theorem layout_facts (fat : Fat) (hlay : MountedLayout fat) :
    fat.first_data_sec = fat.bpb.rsvd_sec_cnt + fat.bpb.fat_cnt * fat.bpb.fat_sz
    ∧ fat.first_data_sec + fat.data_clus_cnt * fat.bpb.sec_per_clus ≤ fat.bpb.tot_sec
    ∧ fat.byts_per_clus = fat.bpb.sec_per_clus * 512 := by
  obtain ⟨hg, hbps, hs1, hs2, hf1, hr1, hr, hfit, htot⟩ := hlay
  have h1 : fat.first_data_sec = (fat32_geometry fat.bpb).first_data_sec := by rw [← hg]
  have h2 : fat.data_clus_cnt = (fat32_geometry fat.bpb).data_clus_cnt := by rw [← hg]
  have h3 : fat.byts_per_clus = (fat32_geometry fat.bpb).byts_per_clus := by rw [← hg]
  simp only [fat32_geometry, u32, u32sub] at h1 h2 h3
  generalize hp : fat.bpb.fat_cnt * fat.bpb.fat_sz = p at *
  have hfds : fat.first_data_sec = fat.bpb.rsvd_sec_cnt + p := by
    rw [h1]; omega
  refine ⟨hfds, ?_, ?_⟩
  · have hd : fat.data_clus_cnt = (fat.bpb.tot_sec - fat.first_data_sec) / fat.bpb.sec_per_clus := by
      rw [h2, ← h1]
      congr 1
      omega
    have := Nat.div_mul_le_self (fat.bpb.tot_sec - fat.first_data_sec) fat.bpb.sec_per_clus
    rw [← hd] at this
    omega
  · rw [h3, hbps]
    have : fat.bpb.sec_per_clus * BSIZE < 4294967296 := by
      simp only [BSIZE]; omega
    simp only [BSIZE] at this ⊢
    omega

/-- The first sector of a valid data cluster on a mounted volume: no wrap. -/
theorem first_sec_of_clus_valid (fat : Fat) (hlay : MountedLayout fat) (c : Nat)
    (h2 : 2 ≤ c) (hc : c ≤ fat.data_clus_cnt + 1) :
    first_sec_of_clus fat c = fat.first_data_sec + (c - 2) * fat.bpb.sec_per_clus
    ∧ fat.first_data_sec + (c - 2) * fat.bpb.sec_per_clus + fat.bpb.sec_per_clus
        ≤ fat.bpb.tot_sec := by
  obtain ⟨hfds, hfit, _⟩ := layout_facts fat hlay
  obtain ⟨hg, hbps, hs1, hs2, hf1, hr1, hr, hfit2, htot⟩ := hlay
  have hm : (c - 2) * fat.bpb.sec_per_clus + fat.bpb.sec_per_clus
      ≤ fat.data_clus_cnt * fat.bpb.sec_per_clus := by
    have : (c - 2 + 1) * fat.bpb.sec_per_clus ≤ fat.data_clus_cnt * fat.bpb.sec_per_clus :=
      Nat.mul_le_mul_right _ (by omega)
    rw [Nat.add_mul, Nat.one_mul] at this
    exact this
  refine ⟨?_, by omega⟩
  have hsub : u32sub c 2 = c - 2 := by
    have : c < 4294967296 := by
      have := Nat.le_mul_of_pos_right fat.data_clus_cnt hs1
      omega
    unfold u32sub; omega
  simp only [first_sec_of_clus, hsub, u32]
  generalize (c - 2) * fat.bpb.sec_per_clus = q at *
  omega

/-- What `alloc_clus` does on a volume with 512-byte sectors: it panics
exactly when FAT#1 has no zero entry, and otherwise returns the index of the
first zero entry and leaves the sectors of that cluster number zeroed. -/
theorem alloc_clus_scan (fat : Fat) (d : Disk) (hbps : fat.bpb.byts_per_sec = BSIZE)
    (hrs : fat.bpb.rsvd_sec_cnt < 65536) :
    (alloc_clus fat d = none ↔ ∀ k, k < fat.bpb.fat_sz * 128 → fat1_entry fat d k ≠ 0)
    ∧ (∀ k, k < fat.bpb.fat_sz * 128 → fat1_entry fat d k = 0 →
        (∀ k', k' < k → fat1_entry fat d k' ≠ 0) →
        alloc_clus fat d = some (u32 k,
            zero_clus fat (bwrite d (u32 (fat.bpb.rsvd_sec_cnt + k / 128))
              (wr32 (d (u32 (fat.bpb.rsvd_sec_cnt + k / 128))) (4 * (k % 128))
                (FAT32_EOC + 7))) (u32 k))
          ∧ (∀ t, t < fat.bpb.sec_per_clus → ∀ i, i < BSIZE →
              zero_clus fat (bwrite d (u32 (fat.bpb.rsvd_sec_cnt + k / 128))
                (wr32 (d (u32 (fat.bpb.rsvd_sec_cnt + k / 128))) (4 * (k % 128))
                  (FAT32_EOC + 7))) (u32 k) (u32 (first_sec_of_clus fat (u32 k) + t)) i = 0)) := by
  have heps : u32 (fat.bpb.byts_per_sec / 4) = 128 := by rw [hbps]; rfl
  have hrs' : fat.bpb.rsvd_sec_cnt < 4294967296 := by omega
  constructor
  · unfold alloc_clus
    rw [heps, alloc_clus_loop_none_iff _ _ _ _ _ _ hrs']
    constructor
    · intro h k hk
      unfold fat1_entry
      exact h (k / 128) (by omega) (k % 128) (by omega)
    · intro h t ht j hj
      have := h (t * 128 + j) (by omega)
      unfold fat1_entry at this
      have e1 : (t * 128 + j) / 128 = t := by omega
      have e2 : (t * 128 + j) % 128 = j := by omega
      rwa [e1, e2] at this
  · intro k hk hz hfirst
    unfold fat1_entry at hz
    have hloop := alloc_clus_loop_first fat d 128 fat.bpb.fat_sz 0 fat.bpb.rsvd_sec_cnt
      (k / 128) (k % 128) hrs' (by omega) (by omega) hz
      (by
        intro t' j' hj' hlt
        have := hfirst (t' * 128 + j') (by omega)
        unfold fat1_entry at this
        have e1 : (t' * 128 + j') / 128 = t' := by omega
        have e2 : (t' * 128 + j') % 128 = j' := by omega
        rwa [e1, e2] at this)
    have hk' : (0 + k / 128) * 128 + k % 128 = k := by omega
    rw [hk'] at hloop
    refine ⟨by unfold alloc_clus; rw [heps]; exact hloop, ?_⟩
    intro t ht i hi
    unfold zero_clus
    apply zero_clus_loop_zero _ _ _ _ _ (by unfold first_sec_of_clus u32; omega) hi
    right
    exact ⟨t, ht, rfl⟩

/-- The mark that `alloc_clus` wrote survives `zero_clus` when the index is a
valid data cluster number of a volume whose regions fit on the device. -/
theorem alloc_clus_mark_kept (fat : Fat) (d : Disk) (hlay : MountedLayout fat) (k : Nat)
    (hk : k < fat.bpb.fat_sz * 128) (hk2 : 2 ≤ k) (hkv : k ≤ fat.data_clus_cnt + 1) :
    fat1_entry fat (zero_clus fat (bwrite d (u32 (fat.bpb.rsvd_sec_cnt + k / 128))
      (wr32 (d (u32 (fat.bpb.rsvd_sec_cnt + k / 128))) (4 * (k % 128))
        (FAT32_EOC + 7))) (u32 k)) k = FAT32_EOC + 7 := by
  obtain ⟨hfs, hfs2⟩ := first_sec_of_clus_valid fat hlay k hk2 hkv
  obtain ⟨hfds, _, _⟩ := layout_facts fat hlay
  obtain ⟨hg, hbps, hs1, hs2, hf1, hr1, hr, hfit, htot⟩ := hlay
  have hku : u32 k = k := by
    have := Nat.le_mul_of_pos_right fat.data_clus_cnt hs1
    unfold u32; omega
  have hfz : fat.bpb.fat_sz ≤ fat.bpb.fat_cnt * fat.bpb.fat_sz :=
    Nat.le_mul_of_pos_left _ hf1
  have hS : u32 (fat.bpb.rsvd_sec_cnt + k / 128) = fat.bpb.rsvd_sec_cnt + k / 128 := by
    unfold u32; omega
  unfold fat1_entry
  rw [hku, hS]
  unfold zero_clus
  rw [zero_clus_loop_other _ _ _ _ (by unfold first_sec_of_clus u32; omega)]
  · rw [bwrite_same, rd32_wr32_same]
    simp [FAT32_EOC]
  · intro t ht
    rw [hfs]
    generalize (k - 2) * fat.bpb.sec_per_clus = q at *
    generalize fat.bpb.fat_cnt * fat.bpb.fat_sz = p at *
    unfold u32
    omega
theorem either_copyout_ok (fault : Nat → Nat → Bool) (u : Nat) (mem : Mem) (dst : Nat)
    (src : Nat → Byte) (len : Nat) (hcp : u = 0 ∨ ∀ a l, fault a l = false) :
    either_copyout fault u mem dst src len = some (blit mem dst src len) := by
  unfold either_copyout
  rcases hcp with h | h
  · simp [h]
  · simp [h]

theorem blit_blit (mem : Nat → Byte) (dst m r : Nat) (f g h : Nat → Byte)
    (h1 : ∀ k, k < m → f k = h k) (h2 : ∀ k, k < r → g k = h (m + k)) :
    blit (blit mem dst f m) (dst + m) g r = blit mem dst h (m + r) := by
  funext a
  unfold blit
  by_cases ha : dst + m ≤ a ∧ a < dst + m + r
  · rw [if_pos ha, if_pos (by omega), h2 _ (by omega)]
    congr 1; omega
  · rw [if_neg ha]
    by_cases hb : dst ≤ a ∧ a < dst + m
    · rw [if_pos hb, if_pos (by omega), h1 _ (by omega)]
    · rw [if_neg hb, if_neg (by omega)]

theorem blit_zero (mem : Nat → Byte) (dst : Nat) (f : Nat → Byte) : blit mem dst f 0 = mem := by
  funext a
  unfold blit
  rw [if_neg (by omega)]

/-- The loop of `eread_clus` from a state at byte position `p` of the sectors
starting at `S`: it returns `n` and has copied the `n - tot` bytes from `p` on. -/
theorem eread_clus_loop_spec (fault : Nat → Nat → Bool) (d : Disk) (u n S : Nat)
    (hcp : u = 0 ∨ ∀ a l, fault a l = false) (hn : n < 4294967296) :
    ∀ (fuel tot off dst sec p : Nat) (mem : Mem),
      tot ≤ n → n - tot ≤ fuel → off % 512 = p % 512 → (tot < n → sec = u32 (S + p / 512)) →
      eread_clus_loop fault d u n fuel tot off dst sec mem =
        .done (n, blit mem dst (fun k => d (u32 (S + (p + k) / 512)) ((p + k) % 512))
          (n - tot)) := by
  intro fuel
  induction fuel with
  | zero =>
    intro tot off dst sec p mem h1 h2 h3 h4
    have : tot = n := by omega
    subst this
    simp [eread_clus_loop, blit_zero]
  | succ fuel ih =>
    intro tot off dst sec p mem h1 h2 h3 h4
    unfold eread_clus_loop
    by_cases hlt : tot < n
    · rw [if_pos hlt]
      have hsub : u32sub n tot = n - tot := by unfold u32sub; omega
      simp only [hsub, BSIZE]
      rw [either_copyout_ok _ _ _ _ _ _ hcp]
      simp only []
      have hsec := h4 hlt
      generalize hm : (if n - tot < 512 - off % 512 then n - tot else 512 - off % 512) = m
      have hm1 : m ≤ n - tot := by rw [← hm]; split <;> omega
      have hm2 : m ≤ 512 - p % 512 := by rw [← hm]; split <;> omega
      have hm3 : 1 ≤ m := by rw [← hm]; split <;> omega
      have hm4 : m < n - tot → m = 512 - p % 512 := by rw [← hm]; split <;> omega
      have hu : u32 (tot + m) = tot + m := by unfold u32; omega
      rw [hu]
      rw [ih (tot + m) (u32 (off + m)) (dst + m) (u32 (sec + 1)) (p + m) _ (by omega) (by omega)
        (by unfold u32; omega)
        (by
          intro hlt2
          have := hm4 (by omega)
          rw [hsec]
          unfold u32; omega)]
      congr 1
      congr 1
      have hr : n - tot = m + (n - (tot + m)) := by omega
      rw [hr]
      apply blit_blit
      · intro k hk
        have e1 : (p + k) / 512 = p / 512 := by omega
        have e2 : (p + k) % 512 = off % 512 + k := by omega
        rw [e1, e2, hsec]
      · intro k hk
        have e1 : p + m + k = p + (m + k) := by omega
        rw [e1]
    · have : tot = n := by omega
      subst this
      simp [blit_zero]

theorem mounted_facts (fat : Fat) (hm : Mounted fat) :
    fat.byts_per_clus = fat.bpb.sec_per_clus * 512 ∧ 512 ≤ fat.byts_per_clus
    ∧ fat.byts_per_clus < 4294967296 := by
  obtain ⟨hg, hbps, hs1, hs2⟩ := hm
  have h3 : fat.byts_per_clus = (fat32_geometry fat.bpb).byts_per_clus := by rw [← hg]
  simp only [fat32_geometry, u32, hbps, BSIZE] at h3
  omega

theorem mounted_of_layout (fat : Fat) (hlay : MountedLayout fat) : Mounted fat :=
  ⟨hlay.1, hlay.2.1, hlay.2.2.1, hlay.2.2.2.1⟩

/-- On a mounted volume `eread_clus` of a range inside a cluster returns `n`
and copies the `n` bytes from byte `off` of the cluster on. -/
theorem eread_clus_spec (fat : Fat) (fault : Nat → Nat → Bool) (d : Disk) (c u : Nat)
    (mem : Mem) (dst off n : Nat) (hm : Mounted fat)
    (hcp : u = 0 ∨ ∀ a l, fault a l = false) (hr : off + n ≤ fat.byts_per_clus) :
    eread_clus fat fault d c u mem dst off n =
      .done (n, blit mem dst (fun k => clus_byte fat d c (off + k)) n) := by
  obtain ⟨hbpc, _, hb⟩ := mounted_facts fat hm
  obtain ⟨hg, hbps, hs1, hs2⟩ := hm
  unfold eread_clus
  have hu : u32 (off + n) = off + n := by unfold u32; omega
  rw [hu, if_neg (by omega), hbps]
  simp only [BSIZE]
  have := eread_clus_loop_spec fault d u n (first_sec_of_clus fat c) hcp (by omega) n 0
    (off % 512) dst (u32 (first_sec_of_clus fat c + off / 512)) off mem (by omega) (by omega)
    (by omega) (fun _ => rfl)
  rw [this]
  simp only [Nat.sub_zero, clus_byte, BSIZE]

theorem read_fat_eoc (fat : Fat) (d : Disk) (c : Nat) (h : FAT32_EOC ≤ c) :
    read_fat fat d c = c := by
  unfold read_fat
  rw [if_pos h]

theorem chain_at_eoc (fat : Fat) (d : Disk) (c i : Nat) (h : FAT32_EOC ≤ c) :
    chain_at fat d c i = c := by
  induction i with
  | zero => rfl
  | succ i ih => simp only [chain_at, ih, read_fat_eoc fat d c h]

theorem chain_at_succ (fat : Fat) (d : Disk) (c i : Nat) :
    chain_at fat d c (i + 1) = chain_at fat d (read_fat fat d c) i := by
  induction i with
  | zero => rfl
  | succ i ih =>
    show read_fat fat d (chain_at fat d c (i + 1)) = read_fat fat d (chain_at fat d _ i)
    rw [ih]

theorem eread_walk_eq (fat : Fat) (d : Disk) (k c : Nat) :
    eread_walk fat d k c = chain_at fat d c k := by
  induction k generalizing c with
  | zero => rfl
  | succ k ih =>
    unfold eread_walk
    by_cases h : c < FAT32_EOC
    · rw [if_pos h, ih, chain_at_succ]
    · rw [if_neg h, chain_at_eoc _ _ _ _ (by omega)]

theorem div_mod_add_lt (P k b : Nat) (hb : 0 < b) (h : P % b + k < b) :
    (P + k) / b = P / b ∧ (P + k) % b = P % b + k := by
  have hP := Nat.div_add_mod P b
  have e : P + k = (P % b + k) + b * (P / b) := by omega
  constructor
  · rw [e, Nat.add_mul_div_left _ _ hb, Nat.div_eq_of_lt h, Nat.zero_add]
  · rw [e, Nat.add_mul_mod_self_left, Nat.mod_eq_of_lt h]

theorem div_add_rest (P b : Nat) (hb : 0 < b) : (P + (b - P % b)) / b = P / b + 1 := by
  have hP := Nat.div_add_mod P b
  have hlt := Nat.mod_lt P hb
  have e : P + (b - P % b) = b * (P / b + 1) := by
    rw [Nat.mul_add, Nat.mul_one]; omega
  rw [e, Nat.mul_div_cancel_left _ hb]

/-- The transfer loop of `eread` from a state at file position `off0 + tot`: it
returns `n` and has copied the `n - tot` bytes of the file content from there. -/
theorem eread_loop_spec (fat : Fat) (fault : Nat → Nat → Bool) (d : Disk) (u n first off0 : Nat)
    (hmt : Mounted fat) (hcp : u = 0 ∨ ∀ a l, fault a l = false)
    (hn : off0 + n < 4294967296)
    (hchain : ∀ i, i * fat.byts_per_clus < off0 + n → chain_at fat d first i < FAT32_EOC) :
    ∀ (fuel tot dst cluster : Nat) (mem : Mem),
      tot ≤ n → n - tot ≤ fuel →
      (tot < n → cluster = chain_at fat d first ((off0 + tot) / fat.byts_per_clus)) →
      eread_loop fat fault d u n fuel tot (off0 % fat.byts_per_clus + tot) dst cluster mem =
        .done (n, blit mem dst (fun k => file_byte fat d first (off0 + tot + k)) (n - tot)) := by
  obtain ⟨hbpc, hb512, hb1⟩ := mounted_facts fat hmt
  have hb0 : 0 < fat.byts_per_clus := by omega
  clear hbpc hb512
  generalize hbdef : fat.byts_per_clus = b at *
  intro fuel
  induction fuel with
  | zero =>
    intro tot dst cluster mem h1 h2 h3
    have : tot = n := by omega
    subst this
    simp [eread_loop, blit_zero]
  | succ fuel ih =>
    intro tot dst cluster mem h1 h2 h3
    unfold eread_loop
    by_cases hlt : tot < n
    · have hcl := h3 hlt
      have hmodlt := Nat.mod_lt (off0 + tot) hb0
      have hmod0 := Nat.mod_lt off0 hb0
      have hmodle := Nat.mod_le off0 b
      have hv : cluster < FAT32_EOC := by
        rw [hcl]
        apply hchain
        have := Nat.div_mul_le_self (off0 + tot) b
        omega
      have hr : (off0 % b + tot) % b = (off0 + tot) % b := Nat.mod_add_mod _ _ _
      rw [if_pos ⟨hv, hlt⟩]
      simp only [hbdef, hr]
      have hs1 : u32sub b ((off0 + tot) % b) = b - (off0 + tot) % b := by unfold u32sub; omega
      have hs2 : u32sub n tot = n - tot := by unfold u32sub; omega
      rw [hs1, hs2]
      generalize hm : (if n - tot < b - (off0 + tot) % b then n - tot
        else b - (off0 + tot) % b) = m
      have hm1 : m ≤ n - tot := by rw [← hm]; split <;> omega
      have hm2 : m ≤ b - (off0 + tot) % b := by rw [← hm]; split <;> omega
      have hm4 : m < n - tot → m = b - (off0 + tot) % b := by rw [← hm]; split <;> omega
      rw [eread_clus_spec fat fault d cluster u mem dst _ m hmt hcp (by rw [hbdef]; omega)]
      simp only [ne_eq, not_true_eq_false, if_false]
      have hu1 : u32 (tot + m) = tot + m := by unfold u32; omega
      have hu2 : u32 (off0 % b + tot + m) = off0 % b + (tot + m) := by unfold u32; omega
      rw [hu1, hu2]
      rw [ih (tot + m) (dst + m) (read_fat fat d cluster) _ (by omega) (by omega)
        (by
          intro hlt2
          have hmeq := hm4 (by omega)
          have e : off0 + (tot + m) = off0 + tot + (b - (off0 + tot) % b) := by omega
          rw [e, div_add_rest _ _ hb0, hcl]
          rfl)]
      congr 1
      congr 1
      have hre : n - tot = m + (n - (tot + m)) := by omega
      rw [hre]
      apply blit_blit
      · intro k hk
        obtain ⟨e1, e2⟩ := div_mod_add_lt (off0 + tot) k b hb0 (by omega)
        simp only [file_byte, hbdef, e1, e2, hcl]
      · intro k hk
        have e1 : off0 + (tot + m) + k = off0 + tot + (m + k) := by omega
        rw [e1]
    · have : tot = n := by omega
      subst this
      simp [blit_zero]

theorem int32_small (x : Nat) (h : x < 2147483648) : int32 x = (x : Int) := by
  unfold int32
  have : x % 4294967296 = x := by omega
  rw [this, if_pos h]

/-- What `eread` returns and delivers when the first `⌈file_size / bpc⌉`
clusters of the chain are below the end-of-chain range. -/
theorem eread_returns (fat : Fat) (fault : Nat → Nat → Bool) (d : Disk) (e : DirEntry)
    (u : Nat) (mem : Mem) (dst off n : Nat)
    (hm : Mounted fat) (hcp : ∀ a l, fault a l = false)
    (hfs : e.file_size < 4294967296) (hoff : off ≤ e.file_size) (hn : off + n < 4294967296)
    (hchain : ∀ i, i * fat.byts_per_clus < e.file_size →
      chain_at fat d e.first_clus i < FAT32_EOC) :
    eread fat fault d e u mem dst off n =
      .done (int32 (min n (e.file_size - off)),
        blit mem dst (fun k => file_byte fat d e.first_clus (off + k))
          (min n (e.file_size - off))) := by
  obtain ⟨hbpc, hb512, hb1⟩ := mounted_facts fat hm
  unfold eread
  have hu : u32 (off + n) = off + n := by unfold u32; omega
  rw [hu, if_neg (by omega)]
  have hn1 : (if off + n > e.file_size then u32sub e.file_size off else n)
      = min n (e.file_size - off) := by
    split
    · unfold u32sub; omega
    · omega
  simp only [hn1]
  have hq : off / fat.byts_per_clus < 2147483648 := by
    have h512 : off / fat.byts_per_clus ≤ off / 512 :=
      Nat.div_le_div_left hb512 (by decide)
    omega
  rw [int32_small _ hq, Int.toNat_ofNat, eread_walk_eq]
  have := eread_loop_spec fat fault d u (min n (e.file_size - off)) e.first_clus off hm
    (Or.inr hcp) (by omega) (fun i hi => hchain i (by omega))
    (min n (e.file_size - off)) 0 dst
    (chain_at fat d e.first_clus (off / fat.byts_per_clus)) mem (by omega) (by omega)
    (fun _ => rfl)
  simp only [Nat.add_zero, Nat.sub_zero] at this
  rw [this]
  rfl
theorem rd32_entrySector (f : Nat → Nat) (j : Nat) :
    rd32 (entrySector f) (4 * j) = f j % 4294967296 := by
  have e0 : (4 * j) / 4 = j := by omega
  have e1 : (4 * j + 1) / 4 = j := by omega
  have e2 : (4 * j + 2) / 4 = j := by omega
  have e3 : (4 * j + 3) / 4 = j := by omega
  have h : rd32 (entrySector f) (4 * j) = rd32 (wr32 (fun _ => 0) (4 * j) (f j)) (4 * j) := by
    simp only [rd32, entrySector, e0, e1, e2, e3]
  rw [h, rd32_wr32_same]

theorem read_fat_diskHuge (c : Nat) (h2 : 2 ≤ c) (hc : c ≤ 32769) :
    read_fat fatHuge diskHuge c = hugeEntryVal c := by
  have hd : fatHuge.data_clus_cnt = 32768 := by decide
  have hr : fatHuge.bpb.rsvd_sec_cnt = 32 := rfl
  unfold read_fat
  have hE : FAT32_EOC = 268435448 := rfl
  rw [if_neg (by omega), if_neg (by rw [hd]; unfold u32; omega)]
  rw [fat_sec_of_clus_one fatHuge c rfl (by decide) (by omega),
    fat_offset_of_clus_eq fatHuge c rfl, hr]
  unfold diskHuge
  rw [if_pos (by omega), rd32_entrySector]
  have e : (32 + c / 128 - 32) * 128 + c % 128 = c := by omega
  rw [e]
  unfold hugeEntryVal
  split
  · rfl
  · split
    · omega
    · split
      · rfl
      · rfl

theorem chain_at_diskHuge (i : Nat) (hi : i ≤ 32767) :
    chain_at fatHuge diskHuge 2 i = 2 + i := by
  induction i with
  | zero => rfl
  | succ i ih =>
    show read_fat fatHuge diskHuge (chain_at fatHuge diskHuge 2 i) = _
    rw [ih (by omega), read_fat_diskHuge _ (by omega) (by omega)]
    unfold hugeEntryVal
    rw [if_neg (by omega), if_pos (by omega)]
    omega


/-! ## The claims -/

/-- C1, as amended.  On a mounted volume, for a handle whose chain holds
`⌈file_size / bytes_per_cluster⌉` valid clusters, `off ≤ file_size`,
`off + n < 2^32` and a copy helper that never faults, `eread` returns and
delivers the `min n (file_size - off)` bytes of the file content from `off`
on; the returned `int` is that count converted from `uint`, which is the count
itself when it is below `2^31`. -/
theorem eread_spec (fat : Fat) (fault : Nat → Nat → Bool) (d : Disk) (e : DirEntry)
    (user_dst : Nat) (mem : Mem) (dst off n : Nat)
    (hm : Mounted fat) (hcp : ∀ a l, fault a l = false)
    (hfs : e.file_size < 4294967296) (hoff : off ≤ e.file_size) (hn : off + n < 4294967296)
    (hchain : ∀ i, i * fat.byts_per_clus < e.file_size →
      valid_clus fat (chain_at fat d e.first_clus i)) :
    eread fat fault d e user_dst mem dst off n =
      .done (int32 (min n (e.file_size - off)),
        blit mem dst (fun k => file_byte fat d e.first_clus (off + k))
          (min n (e.file_size - off)))
    ∧ (min n (e.file_size - off) < 2147483648 →
        int32 (min n (e.file_size - off)) = ((min n (e.file_size - off) : Nat) : Int)) :=
  ⟨eread_returns fat fault d e user_dst mem dst off n hm hcp hfs hoff hn
    (fun i hi => (hchain i hi).2.2), int32_small _⟩

/-- C1, witness: reading 1000 bytes at offset 100 of a 600-byte file of two
clusters. -/
theorem eread_spec_witness :
    eread fatA nofault diskTwoLong fileTwoLong 1 zeroMem 16 100 1000 =
      .done (int32 (min 1000 (fileTwoLong.file_size - 100)),
        blit zeroMem 16 (fun k => file_byte fatA diskTwoLong fileTwoLong.first_clus (100 + k))
          (min 1000 (fileTwoLong.file_size - 100)))
    ∧ (min 1000 (fileTwoLong.file_size - 100) < 2147483648 →
        int32 (min 1000 (fileTwoLong.file_size - 100))
          = ((min 1000 (fileTwoLong.file_size - 100) : Nat) : Int)) :=
  eread_spec fatA nofault diskTwoLong fileTwoLong 1 zeroMem 16 100 1000 (by decide)
    (fun _ _ => rfl) (by decide) (by decide) (by decide)
    (by
      intro i hi
      have hb : fatA.byts_per_clus = 512 := by decide
      have hs : fileTwoLong.file_size = 600 := rfl
      rw [hb, hs] at hi
      have h01 : i = 0 ∨ i = 1 := by omega
      rcases h01 with h | h <;> subst h <;> decide)

/-- C1, counterexample: a 2 GiB file on a mounted volume whose chain is 32768
valid clusters followed by the end-of-chain marker; `eread` of `2^31` bytes at
offset 0 returns `-2^31`, not `min n (file_size - off) = 2^31`. -/
theorem eread_int_return_counterexample :
    Mounted fatHuge
    ∧ (∀ i, i * fatHuge.byts_per_clus < hugeFile.file_size →
        valid_clus fatHuge (chain_at fatHuge diskHuge hugeFile.first_clus i))
    ∧ FAT32_EOC ≤ chain_at fatHuge diskHuge hugeFile.first_clus 32768
    ∧ (0 : Nat) ≤ hugeFile.file_size ∧ 0 + 2147483648 < 4294967296
    ∧ (eread fatHuge nofault diskHuge hugeFile 1 zeroMem 0 0 2147483648).map (fun r => r.1)
        = .done (-2147483648)
    ∧ ((min 2147483648 (hugeFile.file_size - 0) : Nat) : Int) = 2147483648 := by
  have hb : fatHuge.byts_per_clus = 65536 := by decide
  have hfs : hugeFile.file_size = 2147483648 := rfl
  have hfc : hugeFile.first_clus = 2 := rfl
  have hd : fatHuge.data_clus_cnt = 32768 := by decide
  have hchain : ∀ i, i * fatHuge.byts_per_clus < hugeFile.file_size →
      valid_clus fatHuge (chain_at fatHuge diskHuge hugeFile.first_clus i) := by
    intro i hi
    rw [hb, hfs] at hi
    rw [hfc, chain_at_diskHuge i (by omega)]
    unfold valid_clus
    rw [hd]
    have hE : FAT32_EOC = 268435448 := rfl
    omega
  refine ⟨by decide, hchain, ?_, by decide, by decide, ?_, by decide⟩
  · rw [hfc]
    show FAT32_EOC ≤ read_fat fatHuge diskHuge (chain_at fatHuge diskHuge 2 32767)
    rw [chain_at_diskHuge _ (by omega), read_fat_diskHuge _ (by omega) (by omega)]
    decide
  · rw [eread_returns fatHuge nofault diskHuge hugeFile 1 _ 0 0 2147483648 (by decide)
      (fun _ _ => rfl) (by decide) (by decide) (by decide) (fun i hi => (hchain i hi).2.2)]
    decide

/-- C2, at a failing input: on a volume with 8192-byte clusters a file of one
cluster and 10 bytes, with the handle that `lookup_dir` returns for it;
`ewrite` of 8292 bytes at offset 0 returns 8292, and the `eread` of 8292 bytes
at offset 0 that follows returns 8192. -/
theorem ewrite_then_eread_short :
    MountedLayout fatD ∧ 0 + 8292 ≤ 2147483648
    ∧ (lookup_dir fatD nofault 0 10 (ecache_init fatD 2) diskOne 0 nameF 1).map
        (fun r => (r.1, handle_key (r.2.1.get 1))) = .done (some 1, handle_key fileOne)
    ∧ (ewrite fatD nofault 0 diskOne fileOne 1 srcMem 0 0 8292).map
        (fun w => (w.ret, w.entry.file_size,
          (eread fatD nofault w.disk w.entry 1 zeroMem 0 0 8292).map (fun r => r.1)))
      = .done (8292, 8292, .done 8192) := by
  decide!

/-- C3, at a failing input: on a small volume a file of two clusters and 512
bytes, with the handle that `lookup_dir` returns for it; `ewrite` of 5 bytes at
offset 512 returns 5 and leaves `file_size` at 512, not at
`max 512 (512 + 5) = 517`. -/
theorem ewrite_size_not_extended :
    Mounted fatA ∧ fatA.byts_per_clus = 512 ∧ 512 ≤ fileTwo.file_size
    ∧ (lookup_dir fatA nofault 0 10 (ecache_init fatA 2) diskTwo 0 nameF 1).map
        (fun r => (r.1, handle_key (r.2.1.get 1))) = .done (some 1, handle_key fileTwo)
    ∧ (ewrite fatA nofault 0 diskTwo fileTwo 1 srcMem 0 512 5).map
        (fun w => (w.ret, w.entry.file_size)) = .done (5, 512) := by
  decide!

set_option maxRecDepth 100000 in
/-- C4, at failing inputs.  On a freshly formatted volume with 8192-byte
clusters, `ewrite` of 16384 bytes at offset 0 into the handle that `ealloc`
produced returns 16384 after one call of `alloc_clus` (cluster 3), not two;
afterwards the handle's `first_clus` is still 0, FAT entry 0 is unchanged and
no FAT entry holds 3.  The same happens at the input the claim names, 8192
bytes on a volume with 4096-byte clusters. -/
theorem ewrite_fresh_file_chain :
    MountedLayout fatD ∧ fatD.byts_per_clus = 8192
    ∧ (ealloc (ecache_init fatD 2) 0 nameF false).map (fun r => (r.1, r.2.get 1))
        = .done (some 1, fileFresh)
    ∧ (ewrite fatD nofault 0 diskD fileFresh 1 srcMem 0 0 16384).map
        (fun w => (w.ret, w.allocated, w.entry.first_clus, read_fat fatD w.disk 0,
          (List.range 128).filter (fun k => decide (fat1_entry fatD w.disk k = 3))))
      = .done (16384, [3], 0, 0x0FFFFFF8, [])
    ∧ MountedLayout fatC ∧ fatC.byts_per_clus = 4096
    ∧ (ealloc (ecache_init fatC 2) 0 nameF false).map (fun r => (r.1, r.2.get 1))
        = .done (some 1, fileFresh)
    ∧ (ewrite fatC nofault 0 diskC fileFresh 1 srcMem 0 0 8192).map
        (fun w => (w.ret, w.allocated, w.entry.first_clus, read_fat fatC w.disk 0,
          (List.range 128).filter (fun k => decide (fat1_entry fatC w.disk k = 3))))
      = .done (8192, [3], 0, 0x0FFFFFF8, []) :=
  ⟨by decide!, by decide!, by decide!, by decide!, by decide!, by decide!, by decide!,
    by decide!⟩

/-- C5, at a failing input: the record of the file (one long-name slot and
the short-name slot) is at byte 512 of a directory whose chain is cluster 2,
then cluster 4; the handle is the one that `lookup_dir` returns for it.  After
`etrunc` the directory bytes at 512 and 544 are unchanged (`0x41` and `0x46`),
and the bytes 0 and 32 of cluster 3, which is not part of the directory, are
`0xE5`. -/
theorem etrunc_second_dir_cluster :
    Mounted fatA ∧ chain_at fatA diskDir2 2 1 = 4 ∧ FAT32_EOC ≤ chain_at fatA diskDir2 2 2
    ∧ (lookup_dir fatA nofault 0 10 (ecache_init fatA 2) diskDir2 0 nameF 1).map
        (fun r => (r.1, handle_key (r.2.1.get 1))) = .done (some 1, handle_key fileInDir2)
    ∧ chain_at fatA diskDir2 5 1 = 6 ∧ FAT32_EOC ≤ chain_at fatA diskDir2 5 2
    ∧ file_byte fatA diskDir2 2 512 = 0x41
    ∧ (etrunc fatA nofault 0 10 diskDir2 fileInDir2).map
        (fun r => (file_byte fatA r.1 2 512, file_byte fatA r.1 2 544, r.1 3 0, r.1 3 32))
      = .done (0x41, 0x46, 0xE5, 0xE5)
    ∧ (etrunc fatA nofault 0 10 diskDir2 fileInDir2).map
        (fun r => (r.2.valid, read_fat fatA r.1 5, read_fat fatA r.1 6))
      = .done (0, 0, 0) := by
  decide!

/-- C6, at a failing input: in a fresh cache of two entries, `lookup_dir` of
"f" in the root directory finds the file (entry 1); after `etrunc` and `eput`
of that handle, `lookup_dir` of "f" returns entry 1 again, not the null
pointer, and the entry has `valid = 1`. -/
theorem lookup_after_etrunc_finds_deleted :
    Mounted fatA
    ∧ (delete_then_lookup fatA nofault 0 10 (ecache_init fatA 2) diskDel 0 nameF 1).map
        (fun r => (r.1, r.2.1, (r.2.2.get 1).valid)) = .done (some 1, some 1, 1) := by
  decide!

/-- The scan of `alloc_clus` on a mounted volume.  It panics exactly when
FAT#1 has no zero entry.  Otherwise, with `k` the index of the first zero
entry scanning sector by sector, it returns `k` (as `uint32`) and every byte of
the `sec_per_clus` sectors from `first_sec_of_clus k` on is zero on return;
and when `k` is a valid data cluster number (`2 ≤ k ≤ data_clus_cnt + 1`) of a
volume whose regions fit on the device, FAT#1 entry `k` holds `EOC + 7` on
return. -/
theorem alloc_clus_first_zero (fat : Fat) (d : Disk) (hm : Mounted fat)
    (hrs : fat.bpb.rsvd_sec_cnt < 65536) :
    (alloc_clus fat d = none ↔ ∀ k, k < fat.bpb.fat_sz * 128 → fat1_entry fat d k ≠ 0)
    ∧ (∀ k, k < fat.bpb.fat_sz * 128 → fat1_entry fat d k = 0 →
        (∀ k', k' < k → fat1_entry fat d k' ≠ 0) →
        ∃ d', alloc_clus fat d = some (u32 k, d')
          ∧ (∀ t, t < fat.bpb.sec_per_clus → ∀ i, i < BSIZE →
              d' (u32 (first_sec_of_clus fat (u32 k) + t)) i = 0)
          ∧ (MountedLayout fat → 2 ≤ k → k ≤ fat.data_clus_cnt + 1 →
              fat1_entry fat d' k = FAT32_EOC + 7 ∧ FAT32_EOC ≤ fat1_entry fat d' k)) := by
  obtain ⟨hnone, hsome⟩ := alloc_clus_scan fat d hm.2.1 hrs
  refine ⟨hnone, ?_⟩
  intro k hk hz hfirst
  obtain ⟨h1, h2⟩ := hsome k hk hz hfirst
  refine ⟨_, h1, h2, ?_⟩
  intro hlay hk2 hkv
  have := alloc_clus_mark_kept fat d hlay k hk hk2 hkv
  rw [this]
  exact ⟨rfl, by omega⟩

/-- On the small volume with clusters 3 .. 21 free, the first zero entry is
entry 3, which `alloc_clus` returns marked and zeroed. -/
theorem alloc_clus_first_zero_example :
    Mounted fatA ∧ MountedLayout fatA
    ∧ ∃ d', alloc_clus fatA diskA = some (u32 3, d')
        ∧ (∀ t, t < fatA.bpb.sec_per_clus → ∀ i, i < BSIZE →
            d' (u32 (first_sec_of_clus fatA (u32 3) + t)) i = 0)
        ∧ (MountedLayout fatA → 2 ≤ 3 → 3 ≤ fatA.data_clus_cnt + 1 →
            fat1_entry fatA d' 3 = FAT32_EOC + 7 ∧ FAT32_EOC ≤ fat1_entry fatA d' 3) :=
  ⟨by decide, by decide,
    (alloc_clus_first_zero fatA diskA (by decide) (by decide)).2 3 (by decide) (by decide)
      (by decide)⟩

/-- C7, at a failing input: a mounted small volume whose first zero FAT entry
is the reserved entry 1.  `alloc_clus` returns 1, and on return FAT entry 1
holds 0, not a value `≥ EOC`: the sectors that `zero_clus` takes for
"cluster 1" start at the FAT#1 sector, so the mark just written and the
entries 0 and 2 are wiped. -/
theorem alloc_clus_wipes_fat_mark :
    MountedLayout fatA
    ∧ fat1_entry fatA diskReserved1Free 0 ≠ 0 ∧ fat1_entry fatA diskReserved1Free 1 = 0
    ∧ first_sec_of_clus fatA 1 = fat_sec_of_clus fatA 1 1
    ∧ (alloc_clus fatA diskReserved1Free).map
        (fun r => (r.1, fat1_entry fatA r.2 r.1, decide (FAT32_EOC ≤ fat1_entry fatA r.2 r.1)))
        = some (1, 0, false)
    ∧ (List.range 3).map (fat1_entry fatA diskReserved1Free) = [0x0FFFFFF8, 0, 0x0FFFFFFF]
    ∧ (alloc_clus fatA diskReserved1Free).map
        (fun r => (List.range 3).map (fat1_entry fatA r.2)) = some [0, 0, 0] :=
  ⟨by decide, by decide!, by decide!, by decide!, by decide!, by decide!, by decide!⟩

/-- C8, at a failing input: on the mounted small volume whose FAT entry 1 is
0, three successive calls of `alloc_clus` return 1, 0 and 1. -/
theorem alloc_clus_seq_repeats :
    MountedLayout fatA
    ∧ (alloc_clus_seq fatA 3 diskReserved1Free).map (fun r => r.1) = some [1, 0, 1] := by
  decide!

/-- C9, at failing inputs: on the full small volume (valid clusters 2 .. 21
all in use) `alloc_clus` returns 22 and `read_fat` of 22 afterwards is 0; on
the small volume whose FAT entry 1 is 0 it returns 1. -/
theorem alloc_clus_returns_invalid_cluster :
    MountedLayout fatA ∧ fatA.data_clus_cnt + 1 = 21
    ∧ (alloc_clus fatA diskFull).map (fun r => (r.1, read_fat fatA r.2 r.1)) = some (22, 0)
    ∧ (alloc_clus fatA diskReserved1Free).map (fun r => r.1) = some 1 := by
  decide!

/-- An `eread` at or past the end of the file, or of a range that wraps,
returns 0 and leaves the destination as it was. -/
theorem eread_empty (fat : Fat) (fault : Nat → Nat → Bool) (d : Disk) (e : DirEntry)
    (u : Nat) (mem : Mem) (dst off n : Nat) (ho : off < 4294967296) (hn : n < 4294967296)
    (h : e.file_size ≤ off ∨ 4294967296 ≤ off + n) :
    eread fat fault d e u mem dst off n = .done (0, mem) := by
  unfold eread
  by_cases hg : off > e.file_size ∨ u32 (off + n) < off
  · rw [if_pos hg]
  · rw [if_neg hg]
    have h1 : ¬ off > e.file_size := fun hh => hg (Or.inl hh)
    have h2 : ¬ u32 (off + n) < off := fun hh => hg (Or.inr hh)
    have hnw : off + n < 4294967296 := by
      by_contra hc
      apply h2
      unfold u32; omega
    have hfs : e.file_size = off := by omega
    have hn1 : (if u32 (off + n) > e.file_size then u32sub e.file_size off else n) = 0 := by
      have hu : u32 (off + n) = off + n := by unfold u32; omega
      rw [hu, hfs]
      split
      · unfold u32sub; omega
      · omega
    simp only [hn1]
    simp [eread_loop, Outcome.map, int32]

theorem strncmp_signature (b : Sector) :
    strncmp (fun i => (b (82 + i)).val) (cstr [0x46, 0x41, 0x54, 0x33, 0x32]) 5 0 = 0
      ↔ has_fat32_signature b := by
  unfold has_fat32_signature
  simp only [strncmp, cstr, List.getD_cons_zero, List.getD_cons_succ, Nat.add_zero]
  constructor
  · intro h
    by_cases h0 : (b 82).val = 70
    · by_cases h1 : (b 83).val = 65
      · by_cases h2 : (b 84).val = 84
        · by_cases h3 : (b 85).val = 51
          · by_cases h4 : (b 86).val = 50
            · exact ⟨h0, h1, h2, h3, h4⟩
            · exfalso; simp [h0, h1, h2, h3] at h; omega
          · exfalso; simp [h0, h1, h2] at h; omega
        · exfalso; simp [h0, h1] at h; omega
      · exfalso; simp [h0] at h; omega
    · exfalso; simp at h; omega
  · rintro ⟨h0, h1, h2, h3, h4⟩
    simp [h0, h1, h2, h3, h4]

theorem fat32_init_bad_signature (d : Disk) (fat0 : Fat) (c0 : Ecache) (num : Nat)
    (h : ¬ has_fat32_signature (d 0)) :
    fat32_init d fat0 c0 num = .done (-1, fat0, c0) := by
  unfold fat32_init
  have := strncmp_signature (d 0)
  simp only []
  rw [if_pos (by rw [ne_eq, this]; exact h)]

theorem rd16_lt (s : Nat → Byte) (off : Nat) : rd16 s off < 65536 := by
  unfold rd16; omega

/-- The BPB fields that `fat32_init` decodes from sector 0. -/
theorem fat32_init_good (d : Disk) (fat0 : Fat) (c0 : Ecache) (num : Nat)
    (hsig : has_fat32_signature (d 0)) (hbps : rd16 (d 0) 11 = BSIZE) :
    ∃ fat, fat32_init d fat0 c0 num = .done (0, fat, ecache_init fat num)
      ∧ fat.bpb.byts_per_sec = rd16 (d 0) 11 ∧ fat.bpb.sec_per_clus = (d 0 13).val
      ∧ fat.bpb.rsvd_sec_cnt = rd16 (d 0) 14 ∧ fat.bpb.fat_cnt = (d 0 16).val
      ∧ fat.bpb.hidd_sec = rd32 (d 0) 28 ∧ fat.bpb.tot_sec = rd32 (d 0) 32
      ∧ fat.bpb.fat_sz = rd32 (d 0) 36 ∧ fat.bpb.root_clus = rd32 (d 0) 44
      ∧ fat = fat32_geometry fat.bpb
      ∧ fat.byts_per_clus = fat.bpb.sec_per_clus * fat.bpb.byts_per_sec
      ∧ (fat.bpb.rsvd_sec_cnt + fat.bpb.fat_cnt * fat.bpb.fat_sz ≤ fat.bpb.tot_sec →
          fat.first_data_sec = fat.bpb.rsvd_sec_cnt + fat.bpb.fat_cnt * fat.bpb.fat_sz
          ∧ fat.data_clus_cnt
              = (fat.bpb.tot_sec - fat.first_data_sec) / fat.bpb.sec_per_clus) := by
  have hs := (strncmp_signature (d 0)).2 hsig
  refine ⟨fat32_geometry
      { byts_per_sec := rd16 (d 0) 11, sec_per_clus := (d 0 13).val,
        rsvd_sec_cnt := rd16 (d 0) 14, fat_cnt := (d 0 16).val, hidd_sec := rd32 (d 0) 28,
        tot_sec := rd32 (d 0) 32, fat_sz := rd32 (d 0) 36, root_clus := rd32 (d 0) 44 },
    ?_, rfl, rfl, rfl, rfl, rfl, rfl, rfl, rfl, rfl, ?_, ?_⟩
  · unfold fat32_init
    simp only []
    rw [if_neg (by rw [ne_eq, not_not]; exact hs)]
    rw [if_neg (by simp only [fat32_geometry, ne_eq, not_not]; exact hbps.symm)]
  · simp only [fat32_geometry, u32]
    have h1 := (d 0 13).isLt
    have h2 := rd16_lt (d 0) 11
    have : (d 0 13).val * rd16 (d 0) 11 < 4294967296 := by
      calc (d 0 13).val * rd16 (d 0) 11 ≤ 255 * 65535 :=
            Nat.mul_le_mul (by omega) (by omega)
        _ < 4294967296 := by norm_num
    omega
  · intro hfit
    simp only [fat32_geometry] at hfit ⊢
    have ht := rd32_lt (d 0) 32
    generalize (d 0 16).val * rd32 (d 0) 36 = p at *
    have hf : u32 (rd16 (d 0) 14 + u32 p) = rd16 (d 0) 14 + p := by
      unfold u32; omega
    rw [hf]
    refine ⟨rfl, ?_⟩
    congr 1
    unfold u32sub; omega

theorem modify_root (c : Ecache) (p : Nat) (f : DirEntry → DirEntry) :
    (c.modify p f).root = if p = 0 then f c.root else c.root := by
  unfold Ecache.modify
  split <;> rfl

theorem modify_length (c : Ecache) (p : Nat) (f : DirEntry → DirEntry) :
    (c.modify p f).entries.length = c.entries.length := by
  unfold Ecache.modify
  split
  · rfl
  · simp

theorem get_zero (c : Ecache) : c.get 0 = c.root := by
  simp [Ecache.get]

/-- The loop of `fat32_init` over the entries leaves `attribute`, `first_clus`
and `ref` of `root` as they are. -/
theorem ecache_link_root (cnt i : Nat) (c : Ecache) :
    (ecache_link cnt i c).root.attr = c.root.attr
    ∧ (ecache_link cnt i c).root.first_clus = c.root.first_clus
    ∧ (ecache_link cnt i c).root.ref = c.root.ref := by
  induction cnt generalizing i c with
  | zero => exact ⟨rfl, rfl, rfl⟩
  | succ cnt ih =>
    simp only [ecache_link]
    obtain ⟨h1, h2, h3⟩ := ih (i + 1)
      ((((c.modify i fun e => { e with next := c.root.next }).modify i fun e =>
        { e with prev := 0 }).modify
          ((c.modify i fun e => { e with next := c.root.next }).modify i fun e =>
            { e with prev := 0 }).root.next fun e => { e with prev := i }).modify 0
        fun e => { e with next := i })
    rw [h1, h2, h3]
    simp only [modify_root]
    refine ⟨?_, ?_, ?_⟩ <;> (repeat' split) <;> rfl

theorem ecache_init_root (fat : Fat) (num : Nat) :
    (ecache_init fat num).root.attr = ATTR_DIRECTORY
    ∧ (ecache_init fat num).root.first_clus = fat.bpb.root_clus
    ∧ (ecache_init fat num).root.ref = 0 := by
  unfold ecache_init
  obtain ⟨h1, h2, h3⟩ := ecache_link_root num 1
    { root := { zeroEntry with attr := ATTR_DIRECTORY, first_clus := fat.bpb.root_clus,
                               prev := 0, next := 0 },
      entries := List.replicate num zeroEntry }
  exact ⟨h1, h2, h3⟩

theorem lead_slashes_replicate (k : Nat) (rest : List Nat) (h : rest.head? ≠ some 0x2f) :
    lead_slashes (List.replicate k 0x2f ++ rest) = k := by
  induction k with
  | zero =>
    cases rest with
    | nil => rfl
    | cons b r =>
      simp only [List.replicate_zero, List.nil_append, lead_slashes]
      rw [if_neg]
      intro hb
      apply h
      simp [hb]
  | succ k ih =>
    show lead_slashes (0x2f :: (List.replicate k 0x2f ++ rest)) = k + 1
    simp only [lead_slashes, if_true]
    rw [ih]

theorem cstr_length (l : List Nat) : cstr l l.length = 0 := by
  simp [cstr]

/-- The function `get_entry` on a path of `k ≥ 1` slashes: it returns `&root`
after one `edup`, and touches neither the rest of the cache nor the volume. -/
theorem get_entry_slashes_eq (fat : Fat) (fault : Nat → Nat → Bool) (junk lfuel : Nat)
    (c : Ecache) (d : Disk) (cwd k : Nat) (hk : 1 ≤ k) :
    get_entry fat fault junk lfuel c d cwd (List.replicate k 0x2f) =
      .done ⟨some 0, c.modify 0 (fun e => { e with ref := e.ref + 1 }), d, fun _ => 0⟩ := by
  unfold get_entry lookup_path
  have h0 : cstr (List.replicate k 0x2f) 0 = 0x2f := by
    cases k with
    | zero => omega
    | succ k => simp [cstr, List.replicate_succ]
  rw [if_pos h0]
  have hsk : skipelem (List.replicate k 0x2f) 0 (fun _ => 0) = (-1, k, fun _ => 0) := by
    unfold skipelem
    have hl : lead_slashes (List.replicate k 0x2f) = k := by
      have := lead_slashes_replicate k [] (by simp)
      simpa using this
    simp only [List.drop_zero, hl, Nat.zero_add]
    have hc : cstr (List.replicate k 0x2f) k = 0 := by
      have := cstr_length (List.replicate k 0x2f)
      simpa using this
    rw [if_pos hc]
  simp only [List.length_replicate, lookup_path_loop, hsk, edup]
  simp

theorem either_copyin_ok (fault : Nat → Nat → Bool) (s : Sector) (off u : Nat) (mem : Mem)
    (src len : Nat) (hcp : u = 0 ∨ ∀ a l, fault a l = false) :
    either_copyin fault s off u mem src len = some (blit s off (fun k => mem (src + k)) len) := by
  unfold either_copyin
  rcases hcp with h | h
  · simp [h]
  · simp [h]

/-- The loop of `ewrite_clus` from a state at byte position `p` of the sectors
starting at `S`: it returns `n`, has stored the `n - tot` source bytes from
position `p` on, and has changed nothing else. -/
theorem ewrite_clus_loop_spec (fault : Nat → Nat → Bool) (u : Nat) (mem : Mem) (n S : Nat)
    (hcp : u = 0 ∨ ∀ a l, fault a l = false) (hn : n < 4294967296) :
    ∀ (fuel tot off src sec p : Nat) (d : Disk),
      tot ≤ n → n - tot ≤ fuel → off % 512 = p % 512 → (tot < n → sec = u32 (S + p / 512)) →
      p + (n - tot) < 4294967296 →
      ∃ d', ewrite_clus_loop fault u mem n fuel tot off src sec d = .done (n, d')
        ∧ (∀ j, p ≤ j → j < p + (n - tot) →
            d' (u32 (S + j / 512)) (j % 512) = mem (src + (j - p)))
        ∧ (∀ s i, (∀ j, p ≤ j → j < p + (n - tot) → ¬ (s = u32 (S + j / 512) ∧ i = j % 512)) →
            d' s i = d s i) := by
  intro fuel
  induction fuel with
  | zero =>
    intro tot off src sec p d h1 h2 h3 h4 h5
    have : tot = n := by omega
    subst this
    refine ⟨d, by simp [ewrite_clus_loop], ?_, fun _ _ _ => rfl⟩
    intro j hj1 hj2; omega
  | succ fuel ih =>
    intro tot off src sec p d h1 h2 h3 h4 h5
    unfold ewrite_clus_loop
    by_cases hlt : tot < n
    · rw [if_pos hlt]
      have hsub : u32sub n tot = n - tot := by unfold u32sub; omega
      simp only [hsub, BSIZE]
      rw [either_copyin_ok _ _ _ _ _ _ _ hcp]
      simp only []
      have hsec := h4 hlt
      generalize hm : (if n - tot < 512 - off % 512 then n - tot else 512 - off % 512) = m
      have hm1 : m ≤ n - tot := by rw [← hm]; split <;> omega
      have hm2 : m ≤ 512 - p % 512 := by rw [← hm]; split <;> omega
      have hm3 : 1 ≤ m := by rw [← hm]; split <;> omega
      have hm4 : m < n - tot → m = 512 - p % 512 := by rw [← hm]; split <;> omega
      have hu : u32 (tot + m) = tot + m := by unfold u32; omega
      rw [hu]
      obtain ⟨d', hd1, hd2, hd3⟩ := ih (tot + m) (u32 (off + m)) (src + m) (u32 (sec + 1)) (p + m)
        (bwrite d sec (blit (d sec) (off % 512) (fun k => mem (src + k)) m))
        (by omega) (by omega) (by unfold u32; omega)
        (by
          intro hlt2
          have := hm4 (by omega)
          rw [hsec]
          unfold u32; omega)
        (by omega)
      refine ⟨d', hd1, ?_, ?_⟩
      · intro j hj1 hj2
        by_cases hjm : p + m ≤ j
        · have := hd2 j hjm (by omega)
          rw [this]
          congr 1; omega
        · have e1 : j / 512 = p / 512 := by omega
          have e2 : j % 512 = off % 512 + (j - p) := by omega
          rw [hd3]
          · rw [e1, ← hsec, bwrite_same]
            unfold blit
            rw [if_pos (by omega)]
            congr 1; omega
          · intro j' hj1' hj2'
            rintro ⟨hs, hi⟩
            rw [e1] at hs
            have hm5 := hm4 (by omega)
            unfold u32 at hs
            omega
      · intro s i hout
        rw [hd3]
        · by_cases hs : s = sec
          · subst hs
            rw [bwrite_same]
            unfold blit
            rw [if_neg]
            intro hin
            apply hout (p + (i - off % 512)) (by omega) (by omega)
            constructor
            · rw [hsec]
              congr 2
              omega
            · omega
          · rw [bwrite_other _ _ _ _ hs]
        · intro j hj1 hj2
          exact hout j (by omega) (by omega)
    · have : tot = n := by omega
      subst this
      refine ⟨d, by simp, ?_, fun _ _ _ => rfl⟩
      intro j hj1 hj2; omega

theorem blit_congr (mem : Nat → Byte) (dst n : Nat) (f g : Nat → Byte)
    (h : ∀ k, k < n → f k = g k) : blit mem dst f n = blit mem dst g n := by
  funext a
  unfold blit
  split
  · apply h; omega
  · rfl

/-- On a mounted volume `ewrite_clus` of a range inside a cluster returns `n`,
stores the `n` source bytes at the bytes `off ..` of the cluster and changes
no other byte of the volume. -/
theorem ewrite_clus_spec (fat : Fat) (fault : Nat → Nat → Bool) (d : Disk) (c u : Nat)
    (mem : Mem) (src off n : Nat) (hm : Mounted fat)
    (hcp : u = 0 ∨ ∀ a l, fault a l = false) (hr : off + n ≤ fat.byts_per_clus) :
    ∃ d', ewrite_clus fat fault d c u mem src off n = .done (n, d')
      ∧ (∀ j, off ≤ j → j < off + n → clus_byte fat d' c j = mem (src + (j - off)))
      ∧ (∀ s i, (∀ j, off ≤ j → j < off + n →
            ¬ (s = u32 (first_sec_of_clus fat c + j / BSIZE) ∧ i = j % BSIZE)) →
          d' s i = d s i) := by
  obtain ⟨hbpc, _, hb⟩ := mounted_facts fat hm
  obtain ⟨hg, hbps, hs1, hs2⟩ := hm
  unfold ewrite_clus
  have hu : u32 (off + n) = off + n := by unfold u32; omega
  rw [hu, if_neg (by omega), hbps]
  simp only [BSIZE, clus_byte]
  have := ewrite_clus_loop_spec fault u mem n (first_sec_of_clus fat c) hcp (by omega) n 0
    (off % 512) src (u32 (first_sec_of_clus fat c + off / 512)) off d (by omega) (by omega)
    (by omega) (fun _ => rfl) (by omega)
  simp only [Nat.sub_zero] at this
  exact this

/-- A successful `fat32_init` leaves the geometry derived from the decoded BPB
and the cache that `ecache_init` builds for it. -/
theorem fat32_init_done (d : Disk) (fat0 : Fat) (c0 : Ecache) (num : Nat) (fat : Fat)
    (cm : Ecache) (h : fat32_init d fat0 c0 num = .done (0, fat, cm)) :
    cm = ecache_init fat num ∧ fat.bpb.byts_per_sec = BSIZE ∧ fat = fat32_geometry fat.bpb := by
  unfold fat32_init at h
  simp only [] at h
  split at h
  · simp at h
  · split at h
    · simp at h
    · rename_i h1 h2
      simp only [Outcome.done.injEq, Prod.mk.injEq, true_and] at h
      obtain ⟨hf, hc⟩ := h
      subst hf
      refine ⟨hc.symm, ?_, rfl⟩
      simp only [ne_eq, not_not] at h2
      exact h2.symm

/-- The derived geometry in 32-bit arithmetic. -/
theorem fat32_geometry_mod (bpb : Bpb) (ht : bpb.tot_sec < 4294967296) :
    (fat32_geometry bpb).first_data_sec
        = (bpb.rsvd_sec_cnt + bpb.fat_cnt * bpb.fat_sz) % 4294967296
    ∧ (fat32_geometry bpb).data_clus_cnt
        = ((bpb.tot_sec + 4294967296 - (fat32_geometry bpb).first_data_sec) % 4294967296)
            / bpb.sec_per_clus := by
  simp only [fat32_geometry, u32, u32sub]
  constructor
  · omega
  · congr 1
    omega

theorem cstr_append_right (l r : List Nat) (k : Nat) : cstr (l ++ r) (l.length + k) = cstr r k := by
  simp [cstr, List.getD_eq_getElem?_getD, List.getElem?_append_right (Nat.le_add_right _ _)]

theorem cstr_append_left (l r : List Nat) (k : Nat) (h : k < l.length) :
    cstr (l ++ r) k = cstr l k := by
  simp [cstr, List.getD_eq_getElem?_getD, List.getElem?_append_left h]

theorem drop_append_length (l r : List Nat) (n : Nat) (h : n = l.length) :
    (l ++ r).drop n = r := by
  subst h; simp

theorem name_run_append (s rest : List Nat) (hs : ∀ x ∈ s, x ≠ 0x2f ∧ x ≠ 0)
    (hr : rest.head? = none ∨ rest.head? = some 0 ∨ rest.head? = some 0x2f) :
    name_run (s ++ rest) = s.length := by
  induction s with
  | nil =>
    cases rest with
    | nil => rfl
    | cons x r =>
      simp only [List.nil_append, name_run, List.length_nil]
      rw [if_neg]
      simp only [List.head?_cons, Option.some.injEq] at hr
      rcases hr with h | h | h
      · cases h
      · omega
      · omega
  | cons x s ih =>
    show name_run (x :: (s ++ rest)) = (x :: s).length
    simp only [name_run, List.length_cons]
    rw [if_pos (hs x (List.mem_cons_self _ _)), ih (fun y hy => hs y (List.mem_cons_of_mem _ hy))]

/-- The function `skipelem` at a cursor behind which only slashes precede the
end of the string. -/
theorem skipelem_none (pre : List Nat) (a : Nat) (post : List Nat) (name : Nat → Nat)
    (hp : post.head? = none ∨ post.head? = some 0) :
    skipelem (pre ++ (List.replicate a 0x2f ++ post)) pre.length name
      = (-1, pre.length + a, name) := by
  unfold skipelem
  have hd : (pre ++ (List.replicate a 0x2f ++ post)).drop pre.length
      = List.replicate a 0x2f ++ post := drop_append_length _ _ _ rfl
  have hl : lead_slashes (List.replicate a 0x2f ++ post) = a :=
    lead_slashes_replicate a post (by rcases hp with h | h <;> rw [h] <;> simp)
  have hc : cstr (pre ++ (List.replicate a 0x2f ++ post)) (pre.length + a) = 0 := by
    rw [cstr_append_right]
    have := cstr_append_right (List.replicate a 0x2f) post 0
    simp only [List.length_replicate, Nat.add_zero] at this
    rw [this]
    cases post with
    | nil => rfl
    | cons x r =>
      simp only [List.head?_cons, Option.some.injEq] at hp
      rcases hp with h | h
      · cases h
      · simp [cstr, h]
  simp only [hd, hl]
  rw [if_pos hc]

/-- The function `skipelem` at a cursor in front of `a` slashes, the component
`s`, `b` slashes and the rest of the string. -/
theorem skipelem_some (pre : List Nat) (a : Nat) (s : List Nat) (b : Nat) (post : List Nat)
    (name : Nat → Nat) (hne : s ≠ []) (hs : ∀ x ∈ s, x ≠ 0x2f ∧ x ≠ 0)
    (hlen : s.length < 2147483648) (hpost : post.head? ≠ some 0x2f)
    (hmax : b = 0 → post.head? = none ∨ post.head? = some 0) :
    skipelem (pre ++ (List.replicate a 0x2f ++ (s ++ (List.replicate b 0x2f ++ post))))
        pre.length name
      = (((min s.length 255 : Nat) : Int), pre.length + a + s.length + b,
          fun k => if k < min s.length 255 then s.getD k 0
            else if s.length ≤ 255 ∧ k = s.length then 0 else name k) := by
  unfold skipelem
  have hd : (pre ++ (List.replicate a 0x2f ++ (s ++ (List.replicate b 0x2f ++ post)))).drop
      pre.length = List.replicate a 0x2f ++ (s ++ (List.replicate b 0x2f ++ post)) :=
    drop_append_length _ _ _ rfl
  obtain ⟨x, s1, rfl⟩ := List.exists_cons_of_ne_nil hne
  have hx := hs x (List.mem_cons_self _ _)
  have hl : lead_slashes (List.replicate a 0x2f ++ (x :: s1 ++ (List.replicate b 0x2f ++ post)))
      = a := lead_slashes_replicate a _ (by simp; exact hx.1)
  have hc : ∀ k, cstr (pre ++ (List.replicate a 0x2f ++ (x :: s1 ++ (List.replicate b 0x2f ++ post))))
      (pre.length + a + k) = cstr (x :: s1 ++ (List.replicate b 0x2f ++ post)) k := by
    intro k
    rw [Nat.add_assoc, cstr_append_right]
    have := cstr_append_right (List.replicate a 0x2f)
      (x :: s1 ++ (List.replicate b 0x2f ++ post)) k
    simp only [List.length_replicate] at this
    exact this
  have hc0 : cstr (pre ++ (List.replicate a 0x2f ++ (x :: s1 ++ (List.replicate b 0x2f ++ post))))
      (pre.length + a) ≠ 0 := by
    have := hc 0
    rw [Nat.add_zero] at this
    rw [this]
    simp [cstr]
    exact hx.2
  have hd1 : (pre ++ (List.replicate a 0x2f ++ (x :: s1 ++ (List.replicate b 0x2f ++ post)))).drop
      (pre.length + a) = x :: s1 ++ (List.replicate b 0x2f ++ post) := by
    rw [← List.append_assoc]
    exact drop_append_length _ _ _ (by simp)
  have hr : name_run (x :: s1 ++ (List.replicate b 0x2f ++ post)) = (x :: s1).length := by
    apply name_run_append _ _ hs
    cases b with
    | zero =>
      rcases hmax rfl with h | h
      · left; simpa using h
      · right; left; simpa using h
    | succ b => right; right; simp [List.replicate_succ]
  have hd2 : (pre ++ (List.replicate a 0x2f ++ (x :: s1 ++ (List.replicate b 0x2f ++ post)))).drop
      (pre.length + a + (x :: s1).length) = List.replicate b 0x2f ++ post := by
    rw [← List.append_assoc, ← List.append_assoc]
    exact drop_append_length _ _ _ (by simp; omega)
  have hl2 : lead_slashes (List.replicate b 0x2f ++ post) = b :=
    lead_slashes_replicate b post hpost
  simp only [hd, hl]
  rw [if_neg hc0]
  simp only [hd1, hr, hd2, hl2, Nat.add_sub_cancel_left, int32_small _ hlen]
  generalize hL : (x :: s1).length = L at *
  have hcs : ∀ k, k < L → cstr (x :: s1 ++ (List.replicate b 0x2f ++ post)) k
      = (x :: s1).getD k 0 := by
    intro k hk
    have := cstr_append_left (x :: s1) (List.replicate b 0x2f ++ post) k (by omega)
    rw [this]; rfl
  simp only [show FAT32_MAX_FILENAME = 255 from rfl]
  by_cases h255 : L ≤ 255
  · have hm : min L 255 = L := by omega
    have hnot : ¬ ((L : Int) > ((255 : Nat) : Int)) := by omega
    simp only [if_neg hnot, hm, Int.toNat_ofNat]
    refine Prod.ext rfl (Prod.ext rfl ?_)
    funext k
    simp only []
    by_cases hk : k < L
    · rw [if_pos hk, if_pos hk, hc, hcs k hk]
    · rw [if_neg hk, if_neg hk]
      by_cases hkL : k = L
      · rw [if_pos hkL, if_pos ⟨h255, hkL⟩]
      · rw [if_neg hkL, if_neg (fun h => hkL h.2)]
  · have hm : min L 255 = 255 := by omega
    have hyes : (L : Int) > ((255 : Nat) : Int) := by omega
    simp only [if_pos hyes, hm]
    refine Prod.ext rfl (Prod.ext rfl ?_)
    funext k
    simp only [Int.toNat_ofNat]
    by_cases hk : k < 255
    · rw [if_pos hk, if_pos hk, hc, hcs k (by omega)]
    · rw [if_neg hk, if_neg hk, if_neg (fun h => h255 h.1)]

/-! ## Lemmas on the entry cache -/

theorem linked_cons (nx pv : Nat → Nat) (a b : Nat) (rest : List Nat) :
    Linked nx pv (a :: b :: rest) ↔ nx a = b ∧ pv b = a ∧ Linked nx pv (b :: rest) := by
  constructor
  · intro h; unfold Linked at h; exact h
  · intro h; unfold Linked; exact h

theorem linked_single (nx pv : Nat → Nat) (a : Nat) : Linked nx pv [a] := by
  unfold Linked; trivial

theorem linked_nil (nx pv : Nat → Nat) : Linked nx pv [] := by
  unfold Linked; trivial

/-- A linked sequence splits at any of its nodes. -/
theorem linked_append (nx pv : Nat → Nat) (A : List Nat) (b : Nat) (B : List Nat) :
    Linked nx pv (A ++ b :: B) ↔ Linked nx pv (A ++ [b]) ∧ Linked nx pv (b :: B) := by
  induction A with
  | nil => simp [linked_single]
  | cons a A ih =>
    cases A with
    | nil =>
      simp only [List.cons_append, List.nil_append, linked_cons]
      constructor
      · rintro ⟨h1, h2, h3⟩; exact ⟨⟨h1, h2, linked_single _ _ _⟩, h3⟩
      · rintro ⟨⟨h1, h2, _⟩, h3⟩; exact ⟨h1, h2, h3⟩
    | cons a2 A =>
      simp only [List.cons_append, linked_cons] at ih ⊢
      rw [ih]
      constructor
      · rintro ⟨h1, h2, h3, h4⟩; exact ⟨⟨h1, h2, h3⟩, h4⟩
      · rintro ⟨⟨h1, h2, h3⟩, h4⟩; exact ⟨h1, h2, h3, h4⟩

/-- Links that are not read by a sequence may change. -/
theorem linked_congr (nx pv nx1 pv1 : Nat → Nat) (seq : List Nat)
    (hn : ∀ a ∈ seq.dropLast, nx1 a = nx a) (hp : ∀ b ∈ seq.tail, pv1 b = pv b)
    (h : Linked nx pv seq) : Linked nx1 pv1 seq := by
  induction seq with
  | nil => exact linked_nil _ _
  | cons a seq ih =>
    cases seq with
    | nil => exact linked_single _ _ _
    | cons b rest =>
      rw [linked_cons] at h ⊢
      obtain ⟨h1, h2, h3⟩ := h
      refine ⟨?_, ?_, ?_⟩
      · rw [hn a (by simp [List.dropLast])]; exact h1
      · rw [hp b (by simp)]; exact h2
      · apply ih _ _ h3
        · intro x hx
          apply hn
          simp only [List.dropLast_cons₂, List.mem_cons]
          right; exact hx
        · intro x hx
          apply hp
          simp only [List.tail_cons, List.mem_cons]
          right
          simp only [List.tail_cons] at hx
          exact hx

/-- In a linked sequence every node but the last is the predecessor of its
successor, and every node but the first the successor of its predecessor. -/
theorem linked_inverse (nx pv : Nat → Nat) (seq : List Nat) (h : Linked nx pv seq) :
    (∀ x ∈ seq.dropLast, pv (nx x) = x) ∧ (∀ x ∈ seq.tail, nx (pv x) = x) := by
  induction seq with
  | nil => simp
  | cons a seq ih =>
    cases seq with
    | nil => simp
    | cons b rest =>
      rw [linked_cons] at h
      obtain ⟨h1, h2, h3⟩ := h
      obtain ⟨i1, i2⟩ := ih h3
      constructor
      · intro x hx
        simp only [List.dropLast_cons₂, List.mem_cons] at hx
        rcases hx with hx | hx
        · subst hx; rw [h1, h2]
        · exact i1 x hx
      · intro x hx
        simp only [List.tail_cons, List.mem_cons] at hx
        rcases hx with hx | hx
        · subst hx; rw [h2, h1]
        · apply i2; simpa using hx

/-- A linked sequence read backwards is linked with the two links swapped. -/
theorem linked_reverse (nx pv : Nat → Nat) (seq : List Nat) (h : Linked nx pv seq) :
    Linked pv nx seq.reverse := by
  induction seq with
  | nil => exact linked_nil _ _
  | cons a seq ih =>
    cases seq with
    | nil => exact linked_single _ _ _
    | cons b rest =>
      rw [linked_cons] at h
      obtain ⟨h1, h2, h3⟩ := h
      have i := ih h3
      rw [List.reverse_cons] at i ⊢
      rw [List.reverse_cons, List.append_assoc]
      show Linked pv nx (rest.reverse ++ b :: [a])
      rw [linked_append]
      refine ⟨i, ?_⟩
      rw [linked_cons]
      exact ⟨h2, h1, linked_single _ _ _⟩

theorem get_modify (c : Ecache) (p q : Nat) (f : DirEntry → DirEntry)
    (hp : p ≤ c.entries.length) :
    (c.modify p f).get q = if q = p then f (c.get p) else c.get q := by
  unfold Ecache.modify
  by_cases h0 : p = 0
  · subst h0
    simp only [if_true, Ecache.get]
    by_cases hq : q = 0
    · simp [hq]
    · simp [hq]
  · rw [if_neg h0]
    unfold Ecache.get
    simp only [if_neg h0]
    by_cases hq0 : q = 0
    · subst hq0
      rw [if_pos rfl, if_neg (fun h => h0 h.symm), if_pos rfl]
    · rw [if_neg hq0]
      by_cases hqp : q = p
      · subst hqp
        rw [if_pos rfl]
        simp only [List.getD_eq_getElem?_getD]
        rw [List.getElem?_set_self (by omega)]
        rfl
      · rw [if_neg hqp]
        simp only [List.getD_eq_getElem?_getD]
        rw [List.getElem?_set_ne (by omega), if_neg hq0]

theorem modify_big (c : Ecache) (p : Nat) (f : DirEntry → DirEntry)
    (hp : c.entries.length < p) : c.modify p f = c := by
  unfold Ecache.modify
  rw [if_neg (by omega)]
  rw [List.set_eq_of_length_le (by omega)]

theorem ring_next_keep (c : Ecache) (p : Nat) (f : DirEntry → DirEntry)
    (hf : ∀ e, (f e).next = e.next) : ring_next (c.modify p f) = ring_next c := by
  funext q
  unfold ring_next
  by_cases hp : p ≤ c.entries.length
  · rw [get_modify c p q f hp]
    split
    · rename_i h; subst h; exact hf _
    · rfl
  · rw [modify_big c p f (by omega)]

theorem ring_prev_keep (c : Ecache) (p : Nat) (f : DirEntry → DirEntry)
    (hf : ∀ e, (f e).prev = e.prev) : ring_prev (c.modify p f) = ring_prev c := by
  funext q
  unfold ring_prev
  by_cases hp : p ≤ c.entries.length
  · rw [get_modify c p q f hp]
    split
    · rename_i h; subst h; exact hf _
    · rfl
  · rw [modify_big c p f (by omega)]

theorem ring_next_set (c : Ecache) (p v : Nat) (hp : p ≤ c.entries.length) :
    ring_next (c.modify p (fun e => { e with next := v }))
      = fun q => if q = p then v else ring_next c q := by
  funext q
  unfold ring_next
  rw [get_modify c p q _ hp]
  split <;> rfl

theorem ring_prev_set (c : Ecache) (p v : Nat) (hp : p ≤ c.entries.length) :
    ring_prev (c.modify p (fun e => { e with prev := v }))
      = fun q => if q = p then v else ring_prev c q := by
  funext q
  unfold ring_prev
  rw [get_modify c p q _ hp]
  split <;> rfl

theorem dropLast_concat_cons (b : Nat) (rest : List Nat) (z : Nat) :
    (b :: rest ++ [z]).dropLast = b :: rest := by
  exact List.dropLast_concat

/-- Insertion of a node behind the head of a linked ring. -/
theorem linked_insert_head (nx pv : Nat → Nat) (e : Nat) (l : List Nat)
    (h : Linked nx pv (0 :: l ++ [0])) (he0 : e ≠ 0) (hel : e ∉ l) (h0l : 0 ∉ l)
    (hnd : l.Nodup) :
    Linked (fun q => if q = 0 then e else if q = e then nx 0 else nx q)
      (fun q => if q = nx 0 then e else if q = e then 0 else pv q) (0 :: e :: l ++ [0]) := by
  cases l with
  | nil =>
    simp only [List.nil_append, List.cons_append, linked_cons] at h ⊢
    obtain ⟨h1, h2, _⟩ := h
    rw [h1]
    refine ⟨by simp, ?_, ?_, ?_, linked_single _ _ _⟩
    · simp
    · simp
    · simp
  | cons b rest =>
    simp only [List.cons_append, linked_cons] at h ⊢
    obtain ⟨h1, h2, h3⟩ := h
    rw [h1]
    have hb0 : b ≠ 0 := fun hb => h0l (by simp [hb])
    have heb : e ≠ b := fun hb => hel (by simp [hb])
    refine ⟨by simp, ?_, ?_, ?_, ?_⟩
    · simp [heb]
    · simp [he0]
    · simp
    · apply linked_congr nx pv _ _ _ _ _ h3
      · intro x hx
        have hx1 : x ∈ b :: rest := by
          have := dropLast_concat_cons b rest 0
          simp only [List.cons_append] at this
          rw [this] at hx
          exact hx
        have : x ≠ 0 := fun h => h0l (h ▸ hx1)
        have : x ≠ e := fun h => hel (h ▸ hx1)
        simp [*]
      · intro x hx
        simp only [List.tail_cons, List.mem_append, List.mem_singleton] at hx
        have hxb : x ≠ b := by
          rcases hx with hx | hx
          · intro hh; subst hh; exact (List.nodup_cons.1 hnd).1 hx
          · omega
        have hxe : x ≠ e := by
          rcases hx with hx | hx
          · intro hh; subst hh; exact hel (List.mem_cons_of_mem _ hx)
          · omega
        simp [hxb, hxe]

theorem linked_pred_mem (nx pv : Nat → Nat) (a : Nat) (l1 : List Nat) (e : Nat) (R : List Nat)
    (h : Linked nx pv (a :: l1 ++ e :: R)) : pv e ∈ a :: l1 := by
  induction l1 generalizing a with
  | nil =>
    simp only [List.cons_append, List.nil_append, linked_cons] at h
    simp [h.2.1]
  | cons b l1 ih =>
    simp only [List.cons_append, linked_cons] at h
    have := ih b (by simpa using h.2.2)
    exact List.mem_cons_of_mem _ this

theorem linked_succ_eq (nx pv : Nat → Nat) (A : List Nat) (e n : Nat) (R : List Nat)
    (h : Linked nx pv (A ++ e :: n :: R)) : nx e = n ∧ pv n = e := by
  rw [linked_append, linked_cons] at h
  exact ⟨h.2.1, h.2.2.1⟩

/-- Removal of a node from a linked sequence. -/
theorem linked_unlink (nx pv : Nat → Nat) (a : Nat) (l1 : List Nat) (e n : Nat) (B : List Nat)
    (h : Linked nx pv (a :: l1 ++ e :: n :: B)) (hnd : (a :: l1).Nodup)
    (hdis : ∀ x ∈ a :: l1, x ∉ (n :: B).dropLast) (hn1 : n ∉ l1) (hnB : n ∉ B) :
    Linked (fun q => if q = pv e then nx e else nx q)
      (fun q => if q = nx e then pv e else pv q) (a :: l1 ++ n :: B) := by
  have hne := (linked_succ_eq nx pv (a :: l1) e n B h).1
  induction l1 generalizing a with
  | nil =>
    simp only [List.cons_append, List.nil_append, linked_cons] at h ⊢
    obtain ⟨h1, h2, h3, h4, h5⟩ := h
    rw [h2, h3]
    refine ⟨by simp, by simp, ?_⟩
    apply linked_congr nx pv _ _ _ _ _ h5
    · intro x hx
      have : x ≠ a := fun hh => hdis a (by simp) (hh ▸ hx)
      simp [this]
    · intro x hx
      simp only [List.tail_cons] at hx
      have : x ≠ n := fun hh => hnB (hh ▸ hx)
      simp [this]
  | cons b l1 ih =>
    have hp := linked_pred_mem nx pv b l1 e (n :: B) (by
      simp only [List.cons_append, linked_cons] at h
      simpa using h.2.2)
    simp only [List.cons_append, linked_cons] at h ⊢
    obtain ⟨h1, h2, h3⟩ := h
    have hab : a ∉ b :: l1 := (List.nodup_cons.1 hnd).1
    refine ⟨?_, ?_, ?_⟩
    · rw [if_neg (fun hh => hab (by rw [hh]; exact hp))]; exact h1
    · rw [hne, if_neg (fun hh => hn1 (by simp [hh])), h2]
    · have := ih b (by simpa using h3) (List.nodup_cons.1 hnd).2
        (fun x hx => hdis x (List.mem_cons_of_mem _ hx))
        (fun hh => hn1 (List.mem_cons_of_mem _ hh))
      simpa using this

theorem ring_next_set_prev (c : Ecache) (p v : Nat) :
    ring_next (c.modify p (fun e => { e with prev := v })) = ring_next c :=
  ring_next_keep c p (fun e => { e with prev := v }) (fun _ => rfl)

theorem ring_prev_set_next (c : Ecache) (p v : Nat) :
    ring_prev (c.modify p (fun e => { e with next := v })) = ring_prev c :=
  ring_prev_keep c p (fun e => { e with next := v }) (fun _ => rfl)

theorem linked_head_mem (nx pv : Nat → Nat) (a b : Nat) (R : List Nat)
    (h : Linked nx pv (a :: b :: R)) : nx a = b := by
  rw [linked_cons] at h; exact h.1

/-- The successor of the sentinel is a cache entry or the sentinel. -/
theorem ring_head_le (c : Ecache) (l : List Nat)
    (h : Linked (ring_next c) (ring_prev c) (0 :: l ++ [0]))
    (hl : ∀ x ∈ l, 1 ≤ x ∧ x ≤ c.entries.length) : ring_next c 0 ≤ c.entries.length := by
  cases l with
  | nil =>
    have := linked_head_mem _ _ 0 0 [] h
    omega
  | cons b rest =>
    have := linked_head_mem _ _ 0 b (rest ++ [0]) (by simpa using h)
    rw [this]
    exact (hl b (by simp)).2

theorem root_next_eq (c : Ecache) : c.root.next = ring_next c 0 := by
  simp [ring_next, Ecache.get]

/-- The four stores that put the entry `e` behind the sentinel. -/
theorem cache_insert_head (c c4 : Ecache) (e : Nat) (l : List Nat)
    (h : Linked (ring_next c) (ring_prev c) (0 :: l ++ [0]))
    (he : 1 ≤ e ∧ e ≤ c.entries.length) (hel : e ∉ l)
    (hl : ∀ x ∈ l, 1 ≤ x ∧ x ≤ c.entries.length) (hnd : l.Nodup)
    (hc4 : c4 = (((c.modify e (fun x => { x with next := c.root.next })).modify e
        (fun x => { x with prev := 0 })).modify
          ((c.modify e (fun x => { x with next := c.root.next })).modify e
            (fun x => { x with prev := 0 })).root.next
          (fun x => { x with prev := e })).modify 0 (fun x => { x with next := e })) :
    Linked (ring_next c4) (ring_prev c4) (0 :: e :: l ++ [0])
    ∧ c4.entries.length = c.entries.length := by
  have hh := ring_head_le c l h hl
  have hn1 : ring_next (c.modify e (fun x => { x with next := c.root.next }))
      = fun q => if q = e then ring_next c 0 else ring_next c q := by
    rw [ring_next_set c e _ he.2, root_next_eq]
  have hr2 : ((c.modify e (fun x => { x with next := c.root.next })).modify e
      (fun x => { x with prev := 0 })).root.next = ring_next c 0 := by
    rw [root_next_eq, ring_next_set_prev, hn1]
    simp only []
    rw [if_neg (by omega)]
  subst hc4
  rw [hr2]
  refine ⟨?_, by simp only [modify_length]⟩
  have e1 : ring_next ((((c.modify e (fun x => { x with next := c.root.next })).modify e
        (fun x => { x with prev := 0 })).modify (ring_next c 0)
          (fun x => { x with prev := e })).modify 0 (fun x => { x with next := e }))
      = fun q => if q = 0 then e else if q = e then ring_next c 0 else ring_next c q := by
    rw [ring_next_set _ 0 _ (Nat.zero_le _), ring_next_set_prev, ring_next_set_prev, hn1]
  have e2 : ring_prev ((((c.modify e (fun x => { x with next := c.root.next })).modify e
        (fun x => { x with prev := 0 })).modify (ring_next c 0)
          (fun x => { x with prev := e })).modify 0 (fun x => { x with next := e }))
      = fun q => if q = ring_next c 0 then e else if q = e then 0 else ring_prev c q := by
    rw [ring_prev_set_next,
      ring_prev_set _ _ _ (by simp only [modify_length]; exact hh),
      ring_prev_set _ _ _ (by simp only [modify_length]; exact he.2),
      ring_prev_set_next]
  rw [e1, e2]
  exact linked_insert_head _ _ e l h (by omega) hel (fun h0 => by have := hl 0 h0; omega) hnd

/-- The loop of `fat32_init` builds the ring. -/
theorem ecache_link_ring (cnt : Nat) : ∀ (i : Nat) (c : Ecache) (l : List Nat),
    Linked (ring_next c) (ring_prev c) (0 :: l ++ [0]) → l.Nodup →
    (∀ x, x ∈ l ↔ 1 ≤ x ∧ x < i) → 1 ≤ i → i + cnt = c.entries.length + 1 →
    ∃ l1, Linked (ring_next (ecache_link cnt i c)) (ring_prev (ecache_link cnt i c))
          (0 :: l1 ++ [0])
      ∧ l1.Nodup ∧ (∀ x, x ∈ l1 ↔ 1 ≤ x ∧ x ≤ c.entries.length)
      ∧ (ecache_link cnt i c).entries.length = c.entries.length := by
  induction cnt with
  | zero =>
    intro i c l h hnd hl hi hN
    refine ⟨l, h, hnd, ?_, rfl⟩
    intro x
    rw [hl x]
    omega
  | succ cnt ih =>
    intro i c l h hnd hl hi hN
    simp only [ecache_link]
    obtain ⟨k1, k2⟩ := cache_insert_head c _ i l h (by omega)
      (fun hx => by have := (hl i).1 hx; omega)
      (fun x hx => by have := (hl x).1 hx; omega) hnd rfl
    obtain ⟨l1, g1, g2, g3, g4⟩ := ih (i + 1) _ (i :: l) k1
      (List.nodup_cons.2 ⟨fun hx => by have := (hl i).1 hx; omega, hnd⟩)
      (by
        intro x
        simp only [List.mem_cons, hl x]
        omega)
      (by omega) (by rw [k2]; omega)
    rw [k2] at g3 g4
    exact ⟨l1, g1, g2, g3, g4⟩

theorem ring_of_mem_iff (c : Ecache) (l : List Nat)
    (h : Linked (ring_next c) (ring_prev c) (0 :: l ++ [0])) (hnd : l.Nodup)
    (hl : ∀ x, x ∈ l ↔ 1 ≤ x ∧ x ≤ c.entries.length) : Ring c l := by
  refine ⟨h, hnd, fun x hx => (hl x).1 hx, ?_⟩
  intro x hx
  rw [List.mem_range'] at hx
  obtain ⟨i, hi, rfl⟩ := hx
  exact (hl _).2 (by omega)

theorem ring_mem_iff (c : Ecache) (l : List Nat) (h : Ring c l) (x : Nat) :
    x ∈ l ↔ 1 ≤ x ∧ x ≤ c.entries.length := by
  obtain ⟨_, _, h3, h4⟩ := h
  constructor
  · exact h3 x
  · intro hx
    apply h4
    rw [List.mem_range']
    exact ⟨x - 1, by omega, by omega⟩

/-- After `fat32_init` the cache entries form a ring through the sentinel. -/
theorem ecache_init_ring (fat : Fat) (num : Nat) :
    ∃ l, Ring (ecache_init fat num) l ∧ (ecache_init fat num).entries.length = num := by
  unfold ecache_init
  obtain ⟨l1, g1, g2, g3, g4⟩ := ecache_link_ring num 1
    { root := { zeroEntry with attr := ATTR_DIRECTORY, first_clus := fat.bpb.root_clus,
                               prev := 0, next := 0 },
      entries := List.replicate num zeroEntry } []
    (by
      simp only [List.nil_append, linked_cons]
      exact ⟨rfl, rfl, linked_single _ _ _⟩)
    List.nodup_nil (by intro x; simp; omega) (by omega) (by simp; omega)
  simp only [List.length_replicate] at g3 g4
  refine ⟨l1, ring_of_mem_iff _ _ g1 g2 ?_, g4⟩
  intro x
  rw [g4]
  exact g3 x

theorem map_done {α β : Type} (o : Outcome α) (f : α → β) (y : β) (h : o.map f = .done y) :
    ∃ x, o = .done x ∧ f x = y := by
  cases o with
  | done a => exact ⟨a, rfl, by simpa [Outcome.map] using h⟩
  | panicked => simp [Outcome.map] at h
  | nofuel => simp [Outcome.map] at h

theorem bind_done {α β : Type} (o : Outcome α) (f : α → Outcome β) (y : β)
    (h : o.bind f = .done y) : ∃ x, o = .done x ∧ f x = .done y := by
  cases o with
  | done a => exact ⟨a, rfl, by simpa [Outcome.bind] using h⟩
  | panicked => simp [Outcome.bind] at h
  | nofuel => simp [Outcome.bind] at h

/-- A store that changes neither `next` nor `prev` keeps the ring. -/
theorem ring_keep (c : Ecache) (l : List Nat) (p : Nat) (f : DirEntry → DirEntry)
    (hn : ∀ e, (f e).next = e.next) (hp : ∀ e, (f e).prev = e.prev) (h : Ring c l) :
    Ring (c.modify p f) l := by
  unfold Ring at h ⊢
  rw [ring_next_keep c p f hn, ring_prev_keep c p f hp, modify_length]
  exact h

/-- The two stores of `eput` that take the entry `e` out of the ring. -/
theorem cache_unlink (c c2 : Ecache) (e : Nat) (l1 l2 : List Nat)
    (hr : Ring c (l1 ++ e :: l2))
    (hc2 : c2 = (c.modify (c.get e).next (fun x => { x with prev := (c.get e).prev })).modify
        ((c.modify (c.get e).next (fun x => { x with prev := (c.get e).prev })).get e).prev
        (fun x => { x with next :=
          ((c.modify (c.get e).next (fun x => { x with prev := (c.get e).prev })).get e).next })) :
    Linked (ring_next c2) (ring_prev c2) (0 :: (l1 ++ l2) ++ [0])
    ∧ c2.entries.length = c.entries.length := by
  obtain ⟨h, hnd, hl, _⟩ := hr
  have hnd1 : (l1 ++ e :: l2).Nodup := hnd
  rw [List.nodup_append] at hnd
  obtain ⟨nd1, nd2, ndd⟩ := hnd
  have nd2c := List.nodup_cons.1 nd2
  have h0 : ∀ x ∈ l1 ++ e :: l2, x ≠ 0 := fun x hx => by have := hl x hx; omega
  have he0 : e ≠ 0 := h0 e (by simp)
  have hel1 : e ∉ l1 := fun hx => ndd hx (by simp)
  have hel2 : e ∉ l2 := nd2c.1
  -- shape of the sequence
  obtain ⟨n, B, hB, hnN, hne, hnl1, hnB, hdl⟩ : ∃ n B, l2 ++ [0] = n :: B ∧ n ≤ c.entries.length
      ∧ n ≠ e ∧ n ∉ l1 ∧ n ∉ B ∧ (n :: B).dropLast = l2 := by
    cases l2 with
    | nil =>
      exact ⟨0, [], rfl, Nat.zero_le _, fun hh => he0 hh.symm,
        fun hx => h0 0 (by simp [hx]) rfl, by simp, rfl⟩
    | cons n l2r =>
      refine ⟨n, l2r ++ [0], by simp, (hl n (by simp)).2, ?_, ?_, ?_, ?_⟩
      · intro hh; apply hel2; simp [hh]
      · intro hx; exact ndd hx (by simp)
      · intro hx
        simp only [List.mem_append, List.mem_singleton] at hx
        rcases hx with hx | hx
        · exact (List.nodup_cons.1 nd2c.2).1 hx
        · exact h0 n (by simp) hx
      · exact dropLast_concat_cons n l2r 0
  have hseq : (0 :: (l1 ++ e :: l2) ++ [0]) = 0 :: l1 ++ e :: n :: B := by
    simp [hB]
  rw [hseq] at h
  have hsn := linked_succ_eq _ _ (0 :: l1) e n B h
  have hpm := linked_pred_mem _ _ 0 l1 e (n :: B) h
  have hpN : ring_prev c e ≤ c.entries.length := by
    simp only [List.mem_cons] at hpm
    rcases hpm with hp | hp
    · omega
    · exact (hl _ (by simp [hp])).2
  have g1 : (c.get e).next = n := hsn.1
  have g2 : (c.get e).prev = ring_prev c e := rfl
  have k1 : ((c.modify n (fun x => { x with prev := ring_prev c e })).get e).prev
      = ring_prev c e := by
    rw [get_modify _ _ _ _ hnN, if_neg (fun hh => hne hh.symm)]; rfl
  have k2 : ((c.modify n (fun x => { x with prev := ring_prev c e })).get e).next = n := by
    rw [get_modify _ _ _ _ hnN, if_neg (fun hh => hne hh.symm)]; exact g1
  subst hc2
  rw [g1, g2, k1, k2]
  refine ⟨?_, by simp only [modify_length]⟩
  rw [ring_next_set _ _ _ (by simp only [modify_length]; exact hpN), ring_next_set_prev,
    ring_prev_set_next, ring_prev_set _ _ _ hnN]
  have hres : (0 :: (l1 ++ l2) ++ [0]) = 0 :: l1 ++ n :: B := by
    simp [hB]
  rw [hres]
  have := linked_unlink (ring_next c) (ring_prev c) 0 l1 e n B h
    (List.nodup_cons.2 ⟨fun hx => h0 0 (by simp [hx]) rfl, nd1⟩)
    (by
      intro x hx
      rw [hdl]
      simp only [List.mem_cons] at hx
      rcases hx with hx | hx
      · subst hx; exact fun hh => h0 0 (by simp [hh]) rfl
      · exact fun hh => ndd hx (List.mem_cons_of_mem _ hh))
    hnl1 hnB
  rw [hsn.1] at this
  exact this

theorem get_big (c : Ecache) (p : Nat) (hp : c.entries.length < p) : c.get p = zeroEntry := by
  unfold Ecache.get
  rw [if_neg (by omega)]
  simp only [List.getD_eq_getElem?_getD]
  rw [List.getElem?_eq_none (by omega)]
  rfl

/-- The function `eput` keeps the ring: when it relinks the entry, the entry
moves to the place behind the sentinel. -/
theorem eput_ring (fat : Fat) (fault : Nat → Nat → Bool) (junk : Nat) (c : Ecache) (d : Disk)
    (entry : Nat) (l : List Nat) (c1 : Ecache) (d1 : Disk) (hr : Ring c l)
    (h : eput fat fault junk c d entry = .done (c1, d1)) :
    (∃ l1, Ring c1 l1) ∧ c1.entries.length = c.entries.length := by
  unfold eput at h
  by_cases hcond : (c.get entry).valid ≠ 0 ∧ (c.get entry).ref = 1
  · rw [if_pos hcond] at h
    by_cases he0 : entry ≠ 0
    · rw [if_pos he0] at h
      simp only [] at h
      obtain ⟨x, _, hx⟩ := map_done _ _ _ h
      simp only [Prod.mk.injEq] at hx
      obtain ⟨hc, _⟩ := hx
      have heN : entry ≤ c.entries.length := by
        by_contra hh
        apply hcond.1
        rw [get_big c entry (by omega)]
        rfl
      have hmem : entry ∈ l := (ring_mem_iff c l hr entry).2 ⟨by omega, heN⟩
      obtain ⟨l1, l2, rfl⟩ := List.append_of_mem hmem
      obtain ⟨u1, u2⟩ := cache_unlink c _ entry l1 l2 hr rfl
      have hnd := hr.2.1
      rw [List.nodup_append] at hnd
      obtain ⟨nd1, nd2, ndd⟩ := hnd
      have nd2c := List.nodup_cons.1 nd2
      have hl12 : ∀ x, x ∈ l1 ++ l2 → x ∈ l1 ++ entry :: l2 := by
        intro x hx
        simp only [List.mem_append, List.mem_cons] at hx ⊢
        tauto
      obtain ⟨v1, v2⟩ := cache_insert_head _ _ entry (l1 ++ l2) u1 (by rw [u2]; omega)
        (by
          intro hx
          simp only [List.mem_append] at hx
          rcases hx with hx | hx
          · exact ndd hx (by simp)
          · exact nd2c.1 hx)
        (by
          intro x hx
          rw [u2]
          exact hr.2.2.1 x (hl12 x hx))
        (by
          rw [List.nodup_append]
          exact ⟨nd1, nd2c.2, fun a h1 h2 => ndd h1 (List.mem_cons_of_mem _ h2)⟩)
        rfl
      subst hc
      refine ⟨⟨entry :: (l1 ++ l2), ring_keep _ _ _ _ (fun _ => rfl) (fun _ => rfl) ?_⟩, ?_⟩
      · apply ring_of_mem_iff _ _ v1
        · rw [List.nodup_cons]
          refine ⟨?_, ?_⟩
          · intro hx
            simp only [List.mem_append] at hx
            rcases hx with hx | hx
            · exact ndd hx (by simp)
            · exact nd2c.1 hx
          · rw [List.nodup_append]
            exact ⟨nd1, nd2c.2, fun a h1 h2 => ndd h1 (List.mem_cons_of_mem _ h2)⟩
        · intro x
          rw [v2, u2, ← ring_mem_iff c _ hr x]
          simp only [List.mem_append, List.mem_cons]
          tauto
      · rw [modify_length, v2, u2]
    · rw [if_neg he0] at h
      simp only [Outcome.done.injEq, Prod.mk.injEq] at h
      obtain ⟨hc, _⟩ := h
      subst hc
      exact ⟨⟨l, ring_keep _ _ _ _ (fun _ => rfl) (fun _ => rfl) hr⟩, modify_length _ _ _⟩
  · rw [if_neg hcond] at h
    simp only [Outcome.done.injEq, Prod.mk.injEq] at h
    obtain ⟨hc, _⟩ := h
    subst hc
    exact ⟨⟨l, ring_keep _ _ _ _ (fun _ => rfl) (fun _ => rfl) hr⟩, modify_length _ _ _⟩

/-- The function `eget` keeps the ring and its order. -/
theorem eget_ring (c : Ecache) (dev parent : Nat) (name : Nat → Nat) (ep : Nat) (c1 : Ecache)
    (l : List Nat) (hr : Ring c l) (h : eget c dev parent name = .done (ep, c1)) :
    Ring c1 l ∧ c1.entries.length = c.entries.length := by
  unfold eget at h
  split at h
  · simp only [Outcome.done.injEq, Prod.mk.injEq] at h
    obtain ⟨_, hc⟩ := h
    subst hc
    exact ⟨ring_keep _ _ _ _ (fun _ => rfl) (fun _ => rfl)
      (ring_keep _ _ _ _ (fun _ => rfl) (fun _ => rfl) hr), by simp only [modify_length]⟩
  · split at h
    · simp only [Outcome.done.injEq, Prod.mk.injEq] at h
      obtain ⟨_, hc⟩ := h
      subst hc
      exact ⟨ring_keep _ _ _ _ (fun _ => rfl) (fun _ => rfl)
        (ring_keep _ _ _ _ (fun _ => rfl) (fun _ => rfl)
          (ring_keep _ _ _ _ (fun _ => rfl) (fun _ => rfl) hr)), by simp only [modify_length]⟩
    all_goals simp at h
  all_goals simp at h

/-- The function `ealloc` keeps the ring and its order. -/
theorem ealloc_ring (c : Ecache) (dp : Nat) (name : Nat → Nat) (dir : Bool) (r : Option Nat)
    (c1 : Ecache) (l : List Nat) (hr : Ring c l)
    (h : ealloc c dp name dir = .done (r, c1)) :
    Ring c1 l ∧ c1.entries.length = c.entries.length := by
  unfold ealloc at h
  split at h
  · simp only [Outcome.done.injEq, Prod.mk.injEq] at h
    obtain ⟨_, hc⟩ := h
    subst hc
    exact ⟨hr, rfl⟩
  · obtain ⟨x, hx1, hx2⟩ := bind_done _ _ _ h
    obtain ⟨g1, g2⟩ := eget_ring c _ _ name x.1 x.2 l hr hx1
    simp only [] at hx2
    split at hx2
    · simp at hx2
    · split at hx2
      · simp at hx2
      · simp only [Outcome.done.injEq, Prod.mk.injEq] at hx2
        obtain ⟨_, hc⟩ := hx2
        subst hc
        refine ⟨?_, by simp only [modify_length]; exact g2⟩
        exact ring_keep _ _ _ _ (fun _ => rfl) (fun _ => rfl)
          (ring_keep _ _ _ _ (fun _ => rfl) (fun _ => rfl)
            (ring_keep _ _ _ _ (fun _ => rfl) (fun _ => rfl)
              (ring_keep _ _ _ _ (fun _ => rfl) (fun _ => rfl)
                (ring_keep _ _ _ _ (fun _ => rfl) (fun _ => rfl)
                  (ring_keep _ _ _ _ (fun _ => rfl) (fun _ => rfl) g1)))))

/-- The function `edup` keeps the ring and its order. -/
theorem edup_ring (c : Ecache) (entry : Nat) (l : List Nat) (hr : Ring c l) :
    Ring (edup c entry).2 l ∧ (edup c entry).2.entries.length = c.entries.length :=
  ⟨ring_keep _ _ _ _ (fun _ => rfl) (fun _ => rfl) hr, modify_length _ _ _⟩

/-- Every call of the cache interface keeps the ring. -/
theorem cache_call_ring (fat : Fat) (fault : Nat → Nat → Bool) (junk : Nat) (s : Ecache × Disk)
    (k : CacheCall) (s1 : Ecache × Disk) (hr : ∃ l, Ring s.1 l)
    (h : cache_call fat fault junk s k = .done s1) :
    (∃ l, Ring s1.1 l) ∧ s1.1.entries.length = s.1.entries.length := by
  obtain ⟨l, hl⟩ := hr
  cases k with
  | eget dev parent name =>
    simp only [cache_call] at h
    obtain ⟨x, hx1, hx2⟩ := map_done _ _ _ h
    subst hx2
    obtain ⟨g1, g2⟩ := eget_ring s.1 dev parent (cstr name) x.1 x.2 l hl hx1
    exact ⟨⟨l, g1⟩, g2⟩
  | ealloc dp name dir =>
    simp only [cache_call] at h
    obtain ⟨x, hx1, hx2⟩ := map_done _ _ _ h
    subst hx2
    obtain ⟨g1, g2⟩ := ealloc_ring s.1 dp (cstr name) dir x.1 x.2 l hl hx1
    exact ⟨⟨l, g1⟩, g2⟩
  | edup entry =>
    simp only [cache_call, Outcome.done.injEq] at h
    subst h
    obtain ⟨g1, g2⟩ := edup_ring s.1 entry l hl
    exact ⟨⟨l, g1⟩, g2⟩
  | eput entry =>
    simp only [cache_call] at h
    exact eput_ring fat fault junk s.1 s.2 entry l s1.1 s1.2 hl h

/-- Every sequence of calls of the cache interface keeps the ring. -/
theorem cache_calls_ring (fat : Fat) (fault : Nat → Nat → Bool) (junk : Nat)
    (calls : List CacheCall) : ∀ (s s1 : Ecache × Disk), (∃ l, Ring s.1 l) →
    cache_calls fat fault junk calls s = .done s1 →
    (∃ l, Ring s1.1 l) ∧ s1.1.entries.length = s.1.entries.length := by
  induction calls with
  | nil =>
    intro s s1 hr h
    simp only [cache_calls, Outcome.done.injEq] at h
    subst h
    exact ⟨hr, rfl⟩
  | cons k rest ih =>
    intro s s1 hr h
    simp only [cache_calls] at h
    obtain ⟨x, hx1, hx2⟩ := bind_done _ _ _ h
    obtain ⟨g1, g2⟩ := cache_call_ring fat fault junk s k x hr hx1
    obtain ⟨i1, i2⟩ := ih x s1 g1 hx2
    exact ⟨i1, by rw [i2, g2]⟩

/-- The walk from the sentinel along `next` meets the nodes of the ring in
order. -/
theorem ring_walk_eq (c : Ecache) : ∀ (l : List Nat) (a fuel : Nat),
    Linked (ring_next c) (ring_prev c) (a :: l ++ [0]) → 0 ∉ l → l.length ≤ fuel →
    ring_walk c fuel (ring_next c a) = some l := by
  intro l
  induction l with
  | nil =>
    intro a fuel h _ _
    have := linked_head_mem _ _ a 0 [] h
    rw [this]
    cases fuel <;> simp [ring_walk]
  | cons b l ih =>
    intro a fuel h h0 hf
    have hb := linked_head_mem _ _ a b (l ++ [0]) (by simpa using h)
    have hb0 : b ≠ 0 := fun hh => h0 (by simp [hh])
    rw [hb]
    cases fuel with
    | zero => simp at hf
    | succ fuel =>
      simp only [ring_walk, if_neg hb0]
      have h2 : Linked (ring_next c) (ring_prev c) (b :: l ++ [0]) := by
        have h1 : Linked (ring_next c) (ring_prev c) (a :: b :: (l ++ [0])) := by simpa using h
        rw [linked_cons] at h1
        simpa using h1.2.2
      have := ih b fuel h2 (fun hh => h0 (List.mem_cons_of_mem _ hh))
        (by simp at hf; omega)
      show Option.map (fun l => b :: l) (ring_walk c fuel (ring_next c b)) = some (b :: l)
      rw [this]
      rfl

theorem ring_not_zero (c : Ecache) (l : List Nat) (hr : Ring c l) : 0 ∉ l := by
  intro h
  have := hr.2.2.1 0 h
  omega

theorem ring_length (c : Ecache) (l : List Nat) (hr : Ring c l) :
    l.length = c.entries.length := by
  have hp : List.Perm l (List.range' 1 c.entries.length) := by
    rw [List.perm_ext_iff_of_nodup hr.2.1 (List.nodup_range' 1 c.entries.length)]
    intro x
    rw [ring_mem_iff c l hr x, List.mem_range']
    constructor
    · intro hx; exact ⟨x - 1, by omega, by omega⟩
    · rintro ⟨i, hi, rfl⟩; omega
  rw [hp.length_eq, List.length_range']

/-- What the ring says in terms of the fields: every node is the predecessor
of its successor and the successor of its predecessor, and the walk from
`root.next` along `next` meets every cache entry exactly once before it is
back at the sentinel. -/
theorem ring_facts (c : Ecache) (l : List Nat) (hr : Ring c l) :
    (∀ x, x ≤ c.entries.length →
      (c.get (c.get x).next).prev = x ∧ (c.get (c.get x).prev).next = x)
    ∧ ring_walk c c.entries.length c.root.next = some l
    ∧ l.Nodup ∧ l.length = c.entries.length
    ∧ (∀ x, x ∈ l ↔ 1 ≤ x ∧ x ≤ c.entries.length) := by
  have h0 := ring_not_zero c l hr
  have hlen := ring_length c l hr
  refine ⟨?_, ?_, hr.2.1, hlen, ring_mem_iff c l hr⟩
  · intro x hx
    obtain ⟨i1, i2⟩ := linked_inverse _ _ _ hr.1
    have hxl : x = 0 ∨ x ∈ l := by
      by_cases hx0 : x = 0
      · exact Or.inl hx0
      · exact Or.inr ((ring_mem_iff c l hr x).2 ⟨by omega, hx⟩)
    constructor
    · apply i1 x
      have : (0 :: l ++ [0]).dropLast = 0 :: l := List.dropLast_concat
      rw [this]
      simp only [List.mem_cons]
      exact hxl
    · apply i2 x
      simp only [List.cons_append, List.tail_cons, List.mem_append, List.mem_singleton]
      tauto
  · rw [root_next_eq]
    exact ring_walk_eq c l 0 _ hr.1 h0 (by omega)

/-- The first loop of `eget` finds no handle when no node of the ring has the
key. -/
theorem eget_match_none (c : Ecache) (dev parent : Nat) (name : Nat → Nat) :
    ∀ (l : List Nat) (a fuel : Nat),
    Linked (ring_next c) (ring_prev c) (a :: l ++ [0]) → 0 ∉ l → l.length ≤ fuel →
    (∀ y ∈ l, ¬ key_match c dev parent name y) →
    eget_match c dev parent name fuel (ring_next c a) = .done none := by
  intro l
  induction l with
  | nil =>
    intro a fuel h _ _ _
    have := linked_head_mem _ _ a 0 [] h
    rw [this]
    cases fuel <;> simp [eget_match]
  | cons b l ih =>
    intro a fuel h h0 hf hno
    have h1 : Linked (ring_next c) (ring_prev c) (a :: b :: (l ++ [0])) := by simpa using h
    rw [linked_cons] at h1
    have hb0 : b ≠ 0 := fun hh => h0 (by simp [hh])
    rw [h1.1]
    cases fuel with
    | zero => simp at hf
    | succ fuel =>
      have hnb := hno b (by simp)
      unfold key_match at hnb
      simp only [eget_match, if_neg hb0, if_neg hnb]
      exact ih b fuel (by simpa using h1.2.2) (fun hh => h0 (List.mem_cons_of_mem _ hh))
        (by simp at hf; omega) (fun y hy => hno y (List.mem_cons_of_mem _ hy))

/-- The first loop of `eget` finds the first node of the ring that has the
key. -/
theorem eget_match_some (c : Ecache) (dev parent : Nat) (name : Nat → Nat) (x : Nat)
    (l2 : List Nat) :
    ∀ (l1 : List Nat) (a fuel : Nat),
    Linked (ring_next c) (ring_prev c) (a :: (l1 ++ x :: l2) ++ [0]) → 0 ∉ l1 ++ x :: l2 →
    (l1 ++ x :: l2).length ≤ fuel → key_match c dev parent name x →
    (∀ y ∈ l1, ¬ key_match c dev parent name y) →
    eget_match c dev parent name fuel (ring_next c a) = .done (some x) := by
  intro l1
  induction l1 with
  | nil =>
    intro a fuel h h0 hf hx _
    have h1 : Linked (ring_next c) (ring_prev c) (a :: x :: (l2 ++ [0])) := by simpa using h
    rw [linked_cons] at h1
    have hx0 : x ≠ 0 := fun hh => h0 (by simp [hh])
    rw [h1.1]
    cases fuel with
    | zero => simp at hf
    | succ fuel =>
      unfold key_match at hx
      simp only [eget_match, if_neg hx0, if_pos hx]
  | cons b l1 ih =>
    intro a fuel h h0 hf hx hno
    have h1 : Linked (ring_next c) (ring_prev c) (a :: b :: ((l1 ++ x :: l2) ++ [0])) := by
      simpa using h
    rw [linked_cons] at h1
    have hb0 : b ≠ 0 := fun hh => h0 (by simp [hh])
    rw [h1.1]
    cases fuel with
    | zero => simp at hf
    | succ fuel =>
      have hnb := hno b (by simp)
      unfold key_match at hnb
      simp only [eget_match, if_neg hb0, if_neg hnb]
      exact ih b fuel (by simpa using h1.2.2)
        (fun hh => h0 (by simp at hh ⊢; tauto))
        (by simp at hf ⊢; omega) hx (fun y hy => hno y (List.mem_cons_of_mem _ hy))

/-- The second loop of `eget`, along `prev`, finds no handle when every node
has a reference. -/
theorem eget_free_none (c : Ecache) :
    ∀ (l : List Nat) (a fuel : Nat),
    Linked (ring_prev c) (ring_next c) (a :: l ++ [0]) → 0 ∉ l → l.length ≤ fuel →
    (∀ y ∈ l, (c.get y).ref ≠ 0) →
    eget_free c fuel (ring_prev c a) = .done none := by
  intro l
  induction l with
  | nil =>
    intro a fuel h _ _ _
    have := linked_head_mem _ _ a 0 [] h
    rw [this]
    cases fuel <;> simp [eget_free]
  | cons b l ih =>
    intro a fuel h h0 hf hno
    have h1 : Linked (ring_prev c) (ring_next c) (a :: b :: (l ++ [0])) := by simpa using h
    rw [linked_cons] at h1
    have hb0 : b ≠ 0 := fun hh => h0 (by simp [hh])
    rw [h1.1]
    cases fuel with
    | zero => simp at hf
    | succ fuel =>
      have hnb := hno b (by simp)
      simp only [eget_free, if_neg hb0, if_neg hnb]
      exact ih b fuel (by simpa using h1.2.2) (fun hh => h0 (List.mem_cons_of_mem _ hh))
        (by simp at hf; omega) (fun y hy => hno y (List.mem_cons_of_mem _ hy))

/-- The second loop of `eget` finds the first node along `prev` that has no
reference. -/
theorem eget_free_some (c : Ecache) (x : Nat) (l2 : List Nat) :
    ∀ (l1 : List Nat) (a fuel : Nat),
    Linked (ring_prev c) (ring_next c) (a :: (l1 ++ x :: l2) ++ [0]) → 0 ∉ l1 ++ x :: l2 →
    (l1 ++ x :: l2).length ≤ fuel → (c.get x).ref = 0 →
    (∀ y ∈ l1, (c.get y).ref ≠ 0) →
    eget_free c fuel (ring_prev c a) = .done (some x) := by
  intro l1
  induction l1 with
  | nil =>
    intro a fuel h h0 hf hx _
    have h1 : Linked (ring_prev c) (ring_next c) (a :: x :: (l2 ++ [0])) := by simpa using h
    rw [linked_cons] at h1
    have hx0 : x ≠ 0 := fun hh => h0 (by simp [hh])
    rw [h1.1]
    cases fuel with
    | zero => simp at hf
    | succ fuel =>
      simp only [eget_free, if_neg hx0, if_pos hx]
  | cons b l1 ih =>
    intro a fuel h h0 hf hx hno
    have h1 : Linked (ring_prev c) (ring_next c) (a :: b :: ((l1 ++ x :: l2) ++ [0])) := by
      simpa using h
    rw [linked_cons] at h1
    have hb0 : b ≠ 0 := fun hh => h0 (by simp [hh])
    rw [h1.1]
    cases fuel with
    | zero => simp at hf
    | succ fuel =>
      have hnb := hno b (by simp)
      simp only [eget_free, if_neg hb0, if_neg hnb]
      exact ih b fuel (by simpa using h1.2.2)
        (fun hh => h0 (by simp at hh ⊢; tauto))
        (by simp at hf ⊢; omega) hx (fun y hy => hno y (List.mem_cons_of_mem _ hy))

/-- The ring read backwards from the sentinel. -/
theorem ring_reverse (c : Ecache) (l : List Nat) (hr : Ring c l) :
    Linked (ring_prev c) (ring_next c) (0 :: l.reverse ++ [0]) := by
  have := linked_reverse _ _ _ hr.1
  simpa using this

/-- The first element of a list with a decidable property. -/
theorem first_split (P : Nat → Prop) [DecidablePred P] (l : List Nat) (h : ∃ y ∈ l, P y) :
    ∃ l1 x l2, l = l1 ++ x :: l2 ∧ P x ∧ ∀ y ∈ l1, ¬ P y := by
  induction l with
  | nil => simp at h
  | cons b l ih =>
    by_cases hb : P b
    · exact ⟨[], b, l, rfl, hb, by simp⟩
    · obtain ⟨y, hy, hP⟩ := h
      have hyl : y ∈ l := by
        rcases List.mem_cons.1 hy with h1 | h1
        · subst h1; exact absurd hP hb
        · exact h1
      obtain ⟨l1, x, l2, h1, h2, h3⟩ := ih ⟨y, hyl, hP⟩
      refine ⟨b :: l1, x, l2, by rw [h1]; rfl, h2, ?_⟩
      intro z hz
      rcases List.mem_cons.1 hz with h4 | h4
      · subst h4; exact hb
      · exact h3 z h4

/-- The last element of a list with a decidable property. -/
theorem last_split (P : Nat → Prop) [DecidablePred P] (l : List Nat) (h : ∃ y ∈ l, P y) :
    ∃ l1 x l2, l = l1 ++ x :: l2 ∧ P x ∧ ∀ y ∈ l2, ¬ P y := by
  obtain ⟨m1, x, m2, h1, h2, h3⟩ := first_split P l.reverse
    (by obtain ⟨y, hy, hP⟩ := h; exact ⟨y, by simpa using hy, hP⟩)
  refine ⟨m2.reverse, x, m1.reverse, ?_, h2, fun y hy => h3 y (by simpa using hy)⟩
  have := congrArg List.reverse h1
  simpa using this

theorem root_prev_eq (c : Ecache) : c.root.prev = ring_prev c 0 := by
  simp [ring_prev, Ecache.get]

/-- The function `eget` when some node of the ring has the key: it returns the
first such node in MRU order. -/
theorem eget_hit (c : Ecache) (dev parent : Nat) (name : Nat → Nat) (l1 : List Nat) (x : Nat)
    (l2 : List Nat) (hr : Ring c (l1 ++ x :: l2)) (hx : key_match c dev parent name x)
    (hno : ∀ y ∈ l1, ¬ key_match c dev parent name y) :
    eget c dev parent name
      = .done (x, (c.modify x (fun e => { e with ref := e.ref + 1 })).modify x
          (fun e => { e with valid := 1 })) := by
  unfold eget
  rw [root_next_eq, eget_match_some c dev parent name x l2 l1 0 _ hr.1 (ring_not_zero _ _ hr)
    (by rw [ring_length _ _ hr]) hx hno]

/-- The function `eget` when no node has the key and some node has no
reference: it returns the first such node in LRU order. -/
theorem eget_miss (c : Ecache) (dev parent : Nat) (name : Nat → Nat) (l1 : List Nat) (x : Nat)
    (l2 : List Nat) (hr : Ring c (l1 ++ x :: l2))
    (hno : ∀ y ∈ l1 ++ x :: l2, ¬ key_match c dev parent name y)
    (hx : (c.get x).ref = 0) (hbusy : ∀ y ∈ l2, (c.get y).ref ≠ 0) :
    eget c dev parent name
      = .done (x, ((c.modify x (fun e => { e with ref := 1 })).modify x
          (fun e => { e with dev := dev })).modify x (fun e => { e with valid := 0 })) := by
  unfold eget
  rw [root_next_eq, eget_match_none c dev parent name _ 0 _ hr.1 (ring_not_zero _ _ hr)
    (by rw [ring_length _ _ hr]) hno]
  have hrev := ring_reverse c _ hr
  have e1 : (l1 ++ x :: l2).reverse = l2.reverse ++ x :: l1.reverse := by simp
  rw [e1] at hrev
  have h0 := ring_not_zero _ _ hr
  have hlen := ring_length _ _ hr
  simp only []
  rw [root_prev_eq, eget_free_some c x l1.reverse l2.reverse 0 _ hrev
    (by intro hh; apply h0; simp at hh ⊢; tauto)
    (by rw [← hlen]; simp; omega) hx (fun y hy => hbusy y (by simpa using hy))]

/-- The function `eget` when no node has the key and every node has a
reference: it panics. -/
theorem eget_full (c : Ecache) (dev parent : Nat) (name : Nat → Nat) (l : List Nat)
    (hr : Ring c l) (hno : ∀ y ∈ l, ¬ key_match c dev parent name y)
    (hbusy : ∀ y ∈ l, (c.get y).ref ≠ 0) :
    eget c dev parent name = .panicked := by
  unfold eget
  rw [root_next_eq, eget_match_none c dev parent name _ 0 _ hr.1 (ring_not_zero _ _ hr)
    (by rw [ring_length _ _ hr]) hno]
  have hrev := ring_reverse c _ hr
  simp only []
  rw [root_prev_eq, eget_free_none c l.reverse 0 _ hrev
    (by intro hh; exact ring_not_zero _ _ hr (by simpa using hh))
    (by rw [← ring_length _ _ hr]; simp) (fun y hy => hbusy y (by simpa using hy))]

/-- The function `eget` panics exactly when no node has the key and no node is
without a reference. -/
theorem eget_panics_iff (c : Ecache) (dev parent : Nat) (name : Nat → Nat) (l : List Nat)
    (hr : Ring c l) :
    eget c dev parent name = .panicked
      ↔ (∀ y ∈ l, ¬ key_match c dev parent name y) ∧ ∀ y ∈ l, (c.get y).ref ≠ 0 := by
  constructor
  · intro hp
    have hno : ∀ y ∈ l, ¬ key_match c dev parent name y := by
      by_contra hc
      push_neg at hc
      obtain ⟨l1, x, l2, h1, h2, h3⟩ := first_split (key_match c dev parent name) l hc
      subst h1
      rw [eget_hit c dev parent name l1 x l2 hr h2 h3] at hp
      cases hp
    refine ⟨hno, ?_⟩
    by_contra hc
    push_neg at hc
    obtain ⟨l1, x, l2, h1, h2, h3⟩ := last_split (fun y => (c.get y).ref = 0) l hc
    subst h1
    rw [eget_miss c dev parent name l1 x l2 hr hno h2 h3] at hp
    cases hp
  · rintro ⟨h1, h2⟩
    exact eget_full c dev parent name l hr h1 h2

/-! ## Lemmas on the path resolver -/

/-- The function `strncmp` reads its second argument only up to its first NUL
and only at the first `n` indices. -/
theorem strncmp_congr (p q q1 : Nat → Nat) (len : Nat) (h1 : ∀ k, k < len → q k = q1 k) :
    ∀ (n i : Nat), (i + n ≤ len ∨ (q len = 0 ∧ q1 len = 0 ∧ i ≤ len)) →
    strncmp p q n i = strncmp p q1 n i := by
  intro n
  induction n with
  | zero => intro i _; rfl
  | succ n ih =>
    intro i h
    simp only [strncmp]
    by_cases hi : i < len
    · rw [← h1 i hi]
      by_cases hc : p i ≠ 0 ∧ p i = q i
      · rw [if_pos hc, if_pos hc]
        apply ih
        rcases h with h | h
        · left; omega
        · right; exact ⟨h.1, h.2.1, by omega⟩
      · rw [if_neg hc, if_neg hc]
    · have hz : q len = 0 ∧ q1 len = 0 ∧ i ≤ len := by
        rcases h with h | h
        · omega
        · exact h
      have hil : i = len := by omega
      subst hil
      rw [hz.1, hz.2.1]
      have hf : ¬ (p i ≠ 0 ∧ p i = 0) := fun hh => hh.1 hh.2
      rw [if_neg hf, if_neg hf]

theorem eget_match_congr (c : Ecache) (dev parent : Nat) (q q1 : Nat → Nat)
    (hc : ∀ p, strncmp p q FAT32_MAX_FILENAME 0 = strncmp p q1 FAT32_MAX_FILENAME 0) :
    ∀ (fuel ep : Nat), eget_match c dev parent q fuel ep = eget_match c dev parent q1 fuel ep := by
  intro fuel
  induction fuel with
  | zero => intro ep; simp only [eget_match]
  | succ fuel ih => intro ep; simp only [eget_match, hc, ih]

theorem eget_congr (c : Ecache) (dev parent : Nat) (q q1 : Nat → Nat)
    (hc : ∀ p, strncmp p q FAT32_MAX_FILENAME 0 = strncmp p q1 FAT32_MAX_FILENAME 0) :
    eget c dev parent q = eget c dev parent q1 := by
  unfold eget
  rw [eget_match_congr c dev parent q q1 hc]

theorem wnstr_congr (q q1 : Nat → Nat) (len : Nat) (h1 : ∀ k, k < len → q k = q1 k) :
    wnstr q len = wnstr q1 len := by
  unfold wnstr
  congr 1
  apply List.map_congr_left
  intro a ha
  exact h1 a (List.mem_range.1 ha)

theorem strncpy_chars_congr (q q1 : Nat → Nat) :
    ∀ (n i : Nat) (z : Bool), (∀ k, i ≤ k → k < i + n → q k = q1 k) →
    strncpy_chars q n i z = strncpy_chars q1 n i z := by
  intro n
  induction n with
  | zero => intro i z _; rfl
  | succ n ih =>
    intro i z h
    simp only [strncpy_chars]
    rw [← h i (le_refl _) (by omega), ih (i + 1) true (fun k hk1 hk2 => h k (by omega) (by omega)),
      ih (i + 1) false (fun k hk1 hk2 => h k (by omega) (by omega))]

theorem lookup_scan_congr (fat : Fat) (s : Sector) (q q1 : Nat → Nat) (wname : List Nat)
    (entcnt : Nat) (hc : ∀ p, strncmp p q 11 0 = strncmp p q1 11 0) :
    ∀ (fuel ep mtch : Nat) (buffer : Nat → Nat),
    lookup_scan fat s q wname entcnt fuel ep mtch buffer
      = lookup_scan fat s q1 wname entcnt fuel ep mtch buffer := by
  intro fuel
  induction fuel with
  | zero => intro ep mtch buffer; simp only [lookup_scan]
  | succ fuel ih => intro ep mtch buffer; simp only [lookup_scan, hc, ih]

theorem lookup_walk_congr (fat : Fat) (d : Disk) (q q1 : Nat → Nat) (wname : List Nat)
    (entcnt : Nat) (hc : ∀ p, strncmp p q 11 0 = strncmp p q1 11 0) :
    ∀ (fuel cluster sec1 sec clus_cnt skip mtch : Nat) (buffer : Nat → Nat),
    lookup_walk fat d q wname entcnt fuel cluster sec1 sec clus_cnt skip mtch buffer
      = lookup_walk fat d q1 wname entcnt fuel cluster sec1 sec clus_cnt skip mtch buffer := by
  intro fuel
  induction fuel with
  | zero => intros; simp only [lookup_walk]
  | succ fuel ih =>
    intros
    simp only [lookup_walk, lookup_scan_congr fat _ q q1 wname entcnt hc, ih]

/-- The function `lookup_dir` gives the same result for two name buffers that
hold the same `len ≤ 255` bytes and, when `len < 255`, both a NUL behind
them. -/
theorem lookup_dir_congr (fat : Fat) (fault : Nat → Nat → Bool) (junk fuel : Nat) (c : Ecache)
    (d : Disk) (entry : Nat) (q q1 : Nat → Nat) (len : Nat) (h1 : ∀ k, k < len → q k = q1 k)
    (h2 : len < 255 → q len = 0 ∧ q1 len = 0) (h3 : len ≤ 255) :
    lookup_dir fat fault junk fuel c d entry q len
      = lookup_dir fat fault junk fuel c d entry q1 len := by
  have hc255 : ∀ p, strncmp p q FAT32_MAX_FILENAME 0 = strncmp p q1 FAT32_MAX_FILENAME 0 := by
    intro p
    apply strncmp_congr p q q1 len h1
    by_cases hl : len < 255
    · right; exact ⟨(h2 hl).1, (h2 hl).2, Nat.zero_le _⟩
    · left; simp only [FAT32_MAX_FILENAME]; omega
  have hc11 : ∀ p, strncmp p q 11 0 = strncmp p q1 11 0 := by
    intro p
    apply strncmp_congr p q q1 len h1
    by_cases hl : len < 255
    · right; exact ⟨(h2 hl).1, (h2 hl).2, Nat.zero_le _⟩
    · left; omega
  have hcp : ∀ l, strncpy l q len = strncpy l q1 len := by
    intro l
    unfold strncpy
    rw [strncpy_chars_congr q q1 len 0 false (fun k _ hk => h1 k (by omega))]
  unfold lookup_dir
  simp only [eget_congr c _ _ q q1 hc255, wnstr_congr q q1 len h1,
    lookup_walk_congr fat d q q1 _ _ hc11, hcp]

theorem split_slashes (L : List Nat) :
    ∃ a L1, L = List.replicate a 0x2f ++ L1 ∧ L1.head? ≠ some 0x2f := by
  induction L with
  | nil => exact ⟨0, [], rfl, by simp⟩
  | cons b L ih =>
    by_cases hb : b = 0x2f
    · obtain ⟨a, L1, h1, h2⟩ := ih
      refine ⟨a + 1, L1, ?_, h2⟩
      rw [hb, h1, List.replicate_succ]
      rfl
    · exact ⟨0, b :: L, rfl, by simpa using hb⟩

theorem split_name (L : List Nat) (hnz : ∀ x ∈ L, x ≠ 0) :
    ∃ s L2, L = s ++ L2 ∧ (∀ x ∈ s, x ≠ 0x2f ∧ x ≠ 0)
      ∧ (L2.head? = none ∨ L2.head? = some 0x2f) := by
  induction L with
  | nil => exact ⟨[], [], rfl, by simp, Or.inl rfl⟩
  | cons b L ih =>
    by_cases hb : b = 0x2f
    · exact ⟨[], b :: L, rfl, by simp, Or.inr (by simp [hb])⟩
    · obtain ⟨s, L2, h1, h2, h3⟩ := ih (fun x hx => hnz x (List.mem_cons_of_mem _ hx))
      refine ⟨b :: s, L2, by rw [h1]; rfl, ?_, h3⟩
      intro x hx
      rcases List.mem_cons.1 hx with h | h
      · subst h; exact ⟨hb, hnz x (by simp)⟩
      · exact h2 x h

/-- Every string without NUL is some slashes, a run without slash, some
slashes, and a rest that does not start with a slash; the rest is empty when
there are no slashes before it, and the slashes are none when the run is
empty. -/
theorem path_decompose (L : List Nat) (hnz : ∀ x ∈ L, x ≠ 0) :
    ∃ a s b post, L = List.replicate a 0x2f ++ (s ++ (List.replicate b 0x2f ++ post))
      ∧ (∀ x ∈ s, x ≠ 0x2f ∧ x ≠ 0) ∧ post.head? ≠ some 0x2f ∧ (b = 0 → post = [])
      ∧ (s = [] → b = 0) ∧ (∀ x ∈ post, x ≠ 0) ∧ s.length ≤ L.length := by
  obtain ⟨a, L1, h1, h2⟩ := split_slashes L
  have hnz1 : ∀ x ∈ L1, x ≠ 0 := fun x hx => hnz x (by rw [h1]; simp [hx])
  obtain ⟨s, L2, h3, h4, h5⟩ := split_name L1 hnz1
  obtain ⟨b, post, h6, h7⟩ := split_slashes L2
  have hb0 : b = 0 → post = [] := by
    intro hb
    subst hb
    simp only [List.replicate_zero, List.nil_append] at h6
    subst h6
    rcases h5 with h | h
    · cases L2 with
      | nil => rfl
      | cons x r => simp at h
    · exact absurd h h7
  have hs0 : s = [] → b = 0 := by
    intro hs
    subst hs
    simp only [List.nil_append] at h3
    subst h3
    cases b with
    | zero => rfl
    | succ b =>
      exfalso
      apply h2
      rw [h6, List.replicate_succ]
      rfl
  refine ⟨a, s, b, post, by rw [h1, h3, h6], h4, h7, hb0, hs0, ?_, ?_⟩
  · intro x hx
    apply hnz1 x
    rw [h3, h6]
    simp [hx]
  · rw [h1, h3]
    simp
    omega

/-- The function `skipelem` at a cursor behind which only slashes precede the
end of the string. -/
theorem skipelem_none_drop (path : List Nat) (j : Nat) (hj : j ≤ path.length) (a : Nat)
    (name : Nat → Nat) (hd : path.drop j = List.replicate a 0x2f) :
    skipelem path j name = (-1, j + a, name) := by
  have key := skipelem_none (path.take j) a [] name (Or.inl rfl)
  have hl : (path.take j).length = j := by simp [hj]
  rw [hl, List.append_nil, ← hd, List.take_append_drop] at key
  exact key

/-- The function `skipelem` at a cursor in front of a component. -/
theorem skipelem_some_drop (path : List Nat) (j : Nat) (hj : j ≤ path.length) (a : Nat)
    (s : List Nat) (b : Nat) (post : List Nat) (name : Nat → Nat)
    (hd : path.drop j = List.replicate a 0x2f ++ (s ++ (List.replicate b 0x2f ++ post)))
    (hne : s ≠ []) (hs : ∀ x ∈ s, x ≠ 0x2f ∧ x ≠ 0) (hlen : s.length < 2147483648)
    (hpost : post.head? ≠ some 0x2f)
    (hmax : b = 0 → post.head? = none ∨ post.head? = some 0) :
    skipelem path j name
      = (((min s.length 255 : Nat) : Int), j + a + s.length + b,
          fun k => if k < min s.length 255 then s.getD k 0
            else if s.length ≤ 255 ∧ k = s.length then 0 else name k) := by
  have key := skipelem_some (path.take j) a s b post name hne hs hlen hpost hmax
  have hl : (path.take j).length = j := by simp [hj]
  rw [hl, ← hd, List.take_append_drop] at key
  exact key

theorem cstr_drop_cons (path : List Nat) (j x : Nat) (rest : List Nat)
    (hd : path.drop j = x :: rest) : cstr path j = x := by
  have h1 : path = path.take j ++ x :: rest := by rw [← hd, List.take_append_drop]
  have hj : j ≤ path.length := by
    by_contra hc
    rw [List.drop_eq_nil_of_le (by omega)] at hd
    cases hd
  have hl : (path.take j).length = j := by simp [hj]
  have := cstr_append_right (path.take j) (x :: rest) 0
  rw [hl, ← h1] at this
  simpa [cstr] using this

/-- One turn of the loop of `lookup_path` at a cursor in front of a
component. -/
theorem lookup_path_loop_step (fat : Fat) (fault : Nat → Nat → Bool) (junk lfuel : Nat)
    (path : List Nat) (parent : Bool) (fuel i e : Nat) (c : Ecache) (d : Disk)
    (name : Nat → Nat) (L i1 : Nat) (nm : Nat → Nat)
    (hs : skipelem path i name = ((L : Int), i1, nm)) :
    lookup_path_loop fat fault junk lfuel path parent (fuel + 1) i e c d name
      = if (c.get e).ref < 1 then .panicked
        else if (c.get e).attr ≠ ATTR_DIRECTORY then
          (eput fat fault junk c d e).map (fun r => ⟨none, r.1, r.2, nm⟩)
        else if parent = true ∧ cstr path i1 = 0 then .done ⟨some e, c, d, nm⟩
        else
          match lookup_dir fat fault junk lfuel c d e nm L with
          | .done (none, c1, d1) =>
            if (c1.get e).ref < 1 then .panicked
            else (eput fat fault junk c1 d1 e).map (fun r => ⟨none, r.1, r.2, nm⟩)
          | .done (some next, c1, d1) =>
            if (c1.get e).ref < 1 then .panicked
            else
              match eput fat fault junk c1 d1 e with
              | .done (c2, d2) =>
                lookup_path_loop fat fault junk lfuel path parent fuel i1 next c2 d2 nm
              | .panicked => .panicked
              | .nofuel => .nofuel
          | .panicked => .panicked
          | .nofuel => .nofuel := by
  rw [lookup_path_loop]
  simp only [hs]
  rw [if_pos (by omega)]
  simp only [Int.toNat_ofNat]

/-- The function `skipelem` at a cursor in front of a component: the result
with the bytes it leaves in `name`. -/
theorem skipelem_some_ex (path : List Nat) (j : Nat) (hj : j ≤ path.length) (a : Nat)
    (s : List Nat) (b : Nat) (post : List Nat) (name : Nat → Nat)
    (hd : path.drop j = List.replicate a 0x2f ++ (s ++ (List.replicate b 0x2f ++ post)))
    (hne : s ≠ []) (hs : ∀ x ∈ s, x ≠ 0x2f ∧ x ≠ 0) (hlen : s.length < 2147483648)
    (hpost : post.head? ≠ some 0x2f)
    (hmax : b = 0 → post.head? = none ∨ post.head? = some 0) :
    ∃ nm, skipelem path j name = (((min s.length 255 : Nat) : Int), j + a + s.length + b, nm)
      ∧ (∀ k, k < min s.length 255 → nm k = s.getD k 0)
      ∧ (s.length ≤ 255 → nm s.length = 0) := by
  refine ⟨_, skipelem_some_drop path j hj a s b post name hd hne hs hlen hpost hmax, ?_, ?_⟩
  · intro k hk
    simp only [if_pos hk]
  · intro h255
    have hm : min s.length 255 = s.length := by omega
    simp only [hm, if_neg (Nat.lt_irrefl _)]
    rw [if_pos ⟨h255, trivial⟩]

theorem drop_add_of_drop (P : List Nat) (i : Nat) (X Y : List Nat) (h : P.drop i = X ++ Y)
    (hi : i ≤ P.length) : P.drop (i + X.length) = Y ∧ i + X.length + Y.length = P.length := by
  constructor
  · rw [← List.drop_drop, h]
    simp
  · have := congrArg List.length h
    simp only [List.length_drop, List.length_append] at this
    omega

/-- The strings at the two cursors after a component of the prefix: behind the
component `s` the longer path goes on with the rest of the prefix or, when the
prefix ends here, with the last component. -/
theorem lockstep_next (pre Q last : List Nat) (t i iB m a : Nat) (s : List Nat) (b : Nat)
    (post : List Nat) (hi : i ≤ pre.length) (hiB : iB ≤ Q.length)
    (hne : last ≠ []) (hlast : ∀ x ∈ last, x ≠ 0x2f ∧ x ≠ 0)
    (hQ : Q.drop iB
      = pre.drop i ++ (List.replicate m 0x2f ++ (last ++ List.replicate t 0x2f)))
    (hbd : ∀ x, (pre.drop i).getLast? = some x → x ≠ 0x2f → 1 ≤ m)
    (hdec : pre.drop i = List.replicate a 0x2f ++ (s ++ (List.replicate b 0x2f ++ post)))
    (hse : s ≠ []) (hs : ∀ x ∈ s, x ≠ 0x2f ∧ x ≠ 0) (hpost : post.head? ≠ some 0x2f)
    (hb0 : b = 0 → post = []) (hpz : ∀ x ∈ post, x ≠ 0) :
    ∃ b2 m2 post2,
      Q.drop iB = List.replicate a 0x2f ++ (s ++ (List.replicate b2 0x2f ++ post2))
      ∧ post2 = post ++ (List.replicate m2 0x2f ++ (last ++ List.replicate t 0x2f))
      ∧ post2.head? ≠ some 0x2f ∧ 1 ≤ b2
      ∧ (∃ x rest, post2 = x :: rest ∧ x ≠ 0)
      ∧ (∀ x, post.getLast? = some x → x ≠ 0x2f → 1 ≤ m2)
      ∧ i + a + s.length + b ≤ pre.length
      ∧ pre.drop (i + a + s.length + b) = post
      ∧ iB + a + s.length + b2 ≤ Q.length
      ∧ Q.drop (iB + a + s.length + b2) = post2 := by
  obtain ⟨l0, lr, hl0⟩ := List.exists_cons_of_ne_nil hne
  have hl0z := hlast l0 (by rw [hl0]; simp)
  have hP := drop_add_of_drop pre i
    (List.replicate a 0x2f ++ (s ++ List.replicate b 0x2f)) post (by rw [hdec]; simp) hi
  simp only [List.length_append, List.length_replicate] at hP
  have e1 : i + a + s.length + b = i + (a + (s.length + b)) := by omega
  by_cases hpe : post = []
  · -- the prefix ends behind the component
    subst hpe
    have hb2 : 1 ≤ b + m := by
      by_cases hb : b = 0
      · subst hb
        obtain ⟨y, hy⟩ : ∃ y, s.getLast? = some y := by
          cases hsl : s.getLast? with
          | none => exact absurd (List.getLast?_eq_none_iff.1 hsl) hse
          | some y => exact ⟨y, rfl⟩
        have hlast_s : (pre.drop i).getLast? = some y := by
          rw [hdec]
          simp [List.getLast?_append, hy]
        have hym : y ∈ s := List.mem_of_getLast?_eq_some hy
        have := hbd y hlast_s (hs y hym).1
        omega
      · omega
    have hQd : Q.drop iB = List.replicate a 0x2f
        ++ (s ++ (List.replicate (b + m) 0x2f ++ (last ++ List.replicate t 0x2f))) := by
      rw [hQ, hdec, List.replicate_add]
      simp only [List.append_assoc, List.append_nil]
    have hQ2 := drop_add_of_drop Q iB
      (List.replicate a 0x2f ++ (s ++ List.replicate (b + m) 0x2f))
      (last ++ List.replicate t 0x2f) (by rw [hQd]; simp) hiB
    simp only [List.length_append, List.length_replicate] at hQ2
    have e2 : iB + a + s.length + (b + m) = iB + (a + (s.length + (b + m))) := by omega
    refine ⟨b + m, 0, last ++ List.replicate t 0x2f, hQd, by simp, ?_, hb2,
      ⟨l0, lr ++ List.replicate t 0x2f, by rw [hl0]; rfl, hl0z.2⟩, by simp, ?_, ?_, ?_, ?_⟩
    · rw [hl0]; simpa using hl0z.1
    · rw [e1]; omega
    · rw [e1]; exact hP.1
    · rw [e2]; omega
    · rw [e2]; exact hQ2.1
  · -- the prefix goes on
    obtain ⟨p0, pr, hp0⟩ := List.exists_cons_of_ne_nil hpe
    have hb1 : 1 ≤ b := by
      by_contra hc
      exact hpe (hb0 (by omega))
    have hQd : Q.drop iB = List.replicate a 0x2f ++ (s ++ (List.replicate b 0x2f
        ++ (post ++ (List.replicate m 0x2f ++ (last ++ List.replicate t 0x2f))))) := by
      rw [hQ, hdec]
      simp
    have hQ2 := drop_add_of_drop Q iB
      (List.replicate a 0x2f ++ (s ++ List.replicate b 0x2f))
      (post ++ (List.replicate m 0x2f ++ (last ++ List.replicate t 0x2f)))
      (by rw [hQd]; simp) hiB
    simp only [List.length_append, List.length_replicate] at hQ2
    have e2 : iB + a + s.length + b = iB + (a + (s.length + b)) := by omega
    refine ⟨b, m, _, hQd, rfl, ?_, hb1,
      ⟨p0, pr ++ (List.replicate m 0x2f ++ (last ++ List.replicate t 0x2f)),
        by rw [hp0]; rfl, hpz p0 (by rw [hp0]; simp)⟩, ?_, ?_, ?_, ?_, ?_⟩
    · rw [hp0] at hpost ⊢
      simpa using hpost
    · intro x hx hx2
      apply hbd x _ hx2
      rw [hdec]
      simp [List.getLast?_append, hpe, hx]
    · rw [e1]; omega
    · rw [e1]; exact hP.1
    · rw [e2]; omega
    · rw [e2]; exact hQ2.1

/-- The loop of `lookup_path` on a prefix of a path, without the parent flag,
and on the path with one more component, with the flag, run in step: when the
first returns a directory handle the second returns the same handle from the
same cache and volume, and leaves the last component in `name`. -/
theorem lookup_path_lockstep (fat : Fat) (fault : Nat → Nat → Bool) (junk lfuel : Nat)
    (pre Q last : List Nat) (t : Nat) (hpre : ∀ x ∈ pre, x ≠ 0)
    (hprelen : pre.length < 2147483648) (hne : last ≠ [])
    (hlast : ∀ x ∈ last, x ≠ 0x2f ∧ x ≠ 0) (hlen : last.length < 2147483648)
    (h : Nat) (c1 : Ecache) (d1 : Disk) (hattr : (c1.get h).attr = ATTR_DIRECTORY)
    (href : 1 ≤ (c1.get h).ref) :
    ∀ (n i iB m fA fB e : Nat) (c : Ecache) (d : Disk) (nA nB nm0 : Nat → Nat),
      pre.length - i ≤ n → i ≤ pre.length → iB ≤ Q.length →
      Q.drop iB = pre.drop i ++ (List.replicate m 0x2f ++ (last ++ List.replicate t 0x2f)) →
      (∀ x, (pre.drop i).getLast? = some x → x ≠ 0x2f → 1 ≤ m) →
      pre.length - i + 1 ≤ fB →
      lookup_path_loop fat fault junk lfuel pre false fA i e c d nA
        = .done ⟨some h, c1, d1, nm0⟩ →
      ∃ nm, lookup_path_loop fat fault junk lfuel Q true fB iB e c d nB
          = .done ⟨some h, c1, d1, nm⟩
        ∧ (∀ k, k < min last.length 255 → nm k = last.getD k 0)
        ∧ (last.length ≤ 255 → nm last.length = 0) := by
  intro n
  induction n using Nat.strong_induction_on with
  | _ n ih =>
    intro i iB m fA fB e c d nA nB nm0 hn hi hiB hQ hbd hfB hRA
    have hdz : ∀ x ∈ pre.drop i, x ≠ 0 := fun x hx => hpre x (List.mem_of_mem_drop hx)
    obtain ⟨a, s, b, post, hdec, hs, hpost, hb0, hs0, hpz, hsl⟩ :=
      path_decompose (pre.drop i) hdz
    have hdl : (pre.drop i).length = pre.length - i := List.length_drop i pre
    obtain ⟨fB1, rfl⟩ : ∃ fB1, fB = fB1 + 1 := ⟨fB - 1, by omega⟩
    by_cases hse : s = []
    · -- only slashes are left of the prefix
      have hb := hs0 hse
      have hp := hb0 hb
      subst hse hb hp
      simp only [List.nil_append, List.replicate_zero, List.append_nil] at hdec
      have hA := skipelem_none_drop pre i hi a nA hdec
      have hres : (Outcome.done ⟨some e, c, d, nA⟩ : Outcome PathRes)
          = .done ⟨some h, c1, d1, nm0⟩ := by
        cases fA with
        | zero =>
          rw [lookup_path_loop] at hRA
          simpa [hA] using hRA
        | succ fA =>
          rw [lookup_path_loop] at hRA
          simpa [hA] using hRA
      simp only [Outcome.done.injEq, PathRes.mk.injEq, Option.some.injEq] at hres
      obtain ⟨he, hc, hd, _⟩ := hres
      subst he hc hd
      have hQd : Q.drop iB = List.replicate (a + m) 0x2f
          ++ (last ++ (List.replicate t 0x2f ++ [])) := by
        rw [hQ, hdec, List.replicate_add]
        simp only [List.append_assoc, List.append_nil]
      obtain ⟨nm, hB, hn1, hn2⟩ := skipelem_some_ex Q iB hiB (a + m) last t [] nB hQd hne
        hlast hlen (by simp) (fun _ => Or.inl rfl)
      have hQlen : iB + (a + m) + last.length + t = Q.length := by
        have := congrArg List.length hQd
        simp only [List.length_drop, List.length_append, List.length_replicate,
          List.length_nil] at this
        omega
      rw [lookup_path_loop_step fat fault junk lfuel Q true fB1 iB e c d nB _ _ nm hB]
      rw [if_neg (by omega), if_neg (not_not.2 hattr),
        if_pos ⟨rfl, by rw [hQlen]; exact cstr_length Q⟩]
      exact ⟨nm, rfl, hn1, hn2⟩
    · -- a component of the prefix
      have hslen : s.length < 2147483648 := by omega
      obtain ⟨nmA, hA, hA1, hA2⟩ := skipelem_some_ex pre i hi a s b post nA hdec hse hs hslen
        hpost (fun hb => Or.inl (by rw [hb0 hb]; rfl))
      obtain ⟨b2, m2, post2, hQd, hp2, hp2h, hb2, ⟨x0, rest0, hx0, hx0z⟩, hbd2, hi1, hd1, hiB1,
        hdB1⟩ := lockstep_next pre Q last t i iB m a s b post hi hiB hne hlast hQ hbd hdec hse
          hs hpost hb0 hpz
      obtain ⟨nmB, hB, hB1, hB2⟩ := skipelem_some_ex Q iB hiB a s b2 post2 nB hQd hse hs hslen
        hp2h (fun hb => by omega)
      have hcs : cstr Q (iB + a + s.length + b2) ≠ 0 := by
        rw [cstr_drop_cons Q _ x0 rest0 (by rw [hdB1, hx0])]
        exact hx0z
      have hL : 1 ≤ s.length := by
        cases s with
        | nil => exact absurd rfl hse
        | cons _ _ => simp
      have hcongr := lookup_dir_congr fat fault junk lfuel c d e nmB nmA (min s.length 255)
        (fun k hk => by rw [hA1 k hk, hB1 k hk])
        (fun hk => by
          have h255 : s.length ≤ 255 := by omega
          have hm : min s.length 255 = s.length := by omega
          rw [hm]
          exact ⟨hB2 h255, hA2 h255⟩)
        (by omega)
      cases fA with
      | zero =>
        rw [lookup_path_loop] at hRA
        simp only [hA] at hRA
        rw [if_pos (by omega)] at hRA
        cases hRA
      | succ fA =>
        rw [lookup_path_loop_step fat fault junk lfuel pre false fA i e c d nA _ _ nmA hA] at hRA
        rw [lookup_path_loop_step fat fault junk lfuel Q true fB1 iB e c d nB _ _ nmB hB]
        by_cases hr : (c.get e).ref < 1
        · rw [if_pos hr] at hRA
          cases hRA
        rw [if_neg hr] at hRA ⊢
        by_cases ha : (c.get e).attr ≠ ATTR_DIRECTORY
        · rw [if_pos ha] at hRA
          obtain ⟨y, _, hy⟩ := map_done _ _ _ hRA
          simp at hy
        rw [if_neg ha] at hRA ⊢
        rw [if_neg (by simp)] at hRA
        rw [if_neg (fun hh => hcs hh.2), hcongr]
        generalize lookup_dir fat fault junk lfuel c d e nmA (min s.length 255) = r at hRA ⊢
        rcases r with ⟨⟨_ | next, c3, d3⟩⟩ | _ | _
        · simp only [] at hRA
          by_cases hr3 : (c3.get e).ref < 1
          · rw [if_pos hr3] at hRA
            cases hRA
          · rw [if_neg hr3] at hRA
            obtain ⟨y, _, hy⟩ := map_done _ _ _ hRA
            simp at hy
        · simp only [] at hRA ⊢
          by_cases hr3 : (c3.get e).ref < 1
          · rw [if_pos hr3] at hRA
            cases hRA
          rw [if_neg hr3] at hRA ⊢
          generalize eput fat fault junk c3 d3 e = r2 at hRA ⊢
          rcases r2 with ⟨c4, d4⟩ | _ | _
          · simp only [] at hRA ⊢
            exact ih (pre.length - (i + a + s.length + b)) (by omega)
              (i + a + s.length + b) (iB + a + s.length + b2) m2 fA fB1 next c4 d4 nmA nmB nm0
              (le_refl _) hi1 hiB1 (by rw [hdB1, hd1, hp2]) (by rw [hd1]; exact hbd2)
              (by omega) hRA
          · cases hRA
          · cases hRA
        · cases hRA
        · cases hRA

/-! ## The claims, continued -/

/-- C11.  For every handle, every volume state, every destination and all
32-bit `off` and `n`: when `off ≥ file_size` (in particular `off = file_size`)
or `off + n` wraps around `2^32`, `eread` returns 0 and the destination memory
is as it was. -/
theorem eread_past_end (fat : Fat) (fault : Nat → Nat → Bool) (d : Disk) (e : DirEntry)
    (user_dst : Nat) (mem : Mem) (dst off n : Nat) (ho : off < 4294967296)
    (hn : n < 4294967296) (h : e.file_size ≤ off ∨ 4294967296 ≤ off + n) :
    eread fat fault d e user_dst mem dst off n = .done (0, mem) :=
  eread_empty fat fault d e user_dst mem dst off n ho hn h

/-- C11, witness: a read of 10 bytes at the end of a 600-byte file. -/
theorem eread_past_end_witness :
    eread fatA nofault diskTwoLong fileTwoLong 1 zeroMem 16 600 10 = .done (0, zeroMem) :=
  eread_past_end fatA nofault diskTwoLong fileTwoLong 1 zeroMem 16 600 10 (by decide)
    (by decide) (Or.inl (by decide))

/-- C12, as amended.  When the five bytes at offset 82 of sector 0 are not
"FAT32", `fat32_init` returns -1 and leaves geometry and cache as they were.
When they are, the 16-bit field at offset 11 is `BSIZE` and the byte at offset
13 is not 0, it returns 0 with the BPB fields decoded little-endian from
offsets 11, 13, 14, 16, 28, 32, 36, 44, with
`bytes_per_cluster = sectors_per_cluster * bytes_per_sector`, with
`first_data_sector` and `data_cluster_count` as the claimed formulas evaluated
in 32-bit arithmetic, and with exactly the claimed values when
`reserved + fat_count * fat_size ≤ total`. -/
theorem fat32_init_spec (d : Disk) (fat0 : Fat) (c0 : Ecache) (num : Nat) :
    (¬ has_fat32_signature (d 0) → fat32_init d fat0 c0 num = .done (-1, fat0, c0))
    ∧ (has_fat32_signature (d 0) → rd16 (d 0) 11 = BSIZE → 0 < (d 0 13).val →
        ∃ fat, fat32_init d fat0 c0 num = .done (0, fat, ecache_init fat num)
          ∧ (fat.bpb.byts_per_sec = rd16 (d 0) 11 ∧ fat.bpb.sec_per_clus = (d 0 13).val
            ∧ fat.bpb.rsvd_sec_cnt = rd16 (d 0) 14 ∧ fat.bpb.fat_cnt = (d 0 16).val)
          ∧ (fat.bpb.hidd_sec = rd32 (d 0) 28 ∧ fat.bpb.tot_sec = rd32 (d 0) 32
            ∧ fat.bpb.fat_sz = rd32 (d 0) 36 ∧ fat.bpb.root_clus = rd32 (d 0) 44)
          ∧ fat.byts_per_clus = fat.bpb.sec_per_clus * fat.bpb.byts_per_sec
          ∧ fat.first_data_sec
              = (fat.bpb.rsvd_sec_cnt + fat.bpb.fat_cnt * fat.bpb.fat_sz) % 4294967296
          ∧ fat.data_clus_cnt
              = ((fat.bpb.tot_sec + 4294967296 - fat.first_data_sec) % 4294967296)
                  / fat.bpb.sec_per_clus
          ∧ (fat.bpb.rsvd_sec_cnt + fat.bpb.fat_cnt * fat.bpb.fat_sz ≤ fat.bpb.tot_sec →
              fat.first_data_sec = fat.bpb.rsvd_sec_cnt + fat.bpb.fat_cnt * fat.bpb.fat_sz
              ∧ fat.data_clus_cnt
                  = (fat.bpb.tot_sec - fat.first_data_sec) / fat.bpb.sec_per_clus)) := by
  refine ⟨fat32_init_bad_signature d fat0 c0 num, ?_⟩
  intro hsig hbps _
  obtain ⟨fat, h0, h1, h2, h3, h4, h5, h6, h7, h8, h9, h10, h11⟩ :=
    fat32_init_good d fat0 c0 num hsig hbps
  have ht : fat.bpb.tot_sec < 4294967296 := by rw [h6]; exact rd32_lt _ _
  have hg := fat32_geometry_mod fat.bpb ht
  rw [← h9] at hg
  exact ⟨fat, h0, ⟨h1, h2, h3, h4⟩, ⟨h5, h6, h7, h8⟩, h10, hg.1, hg.2, h11⟩

/-- C12, witness: the boot sector of a volume of 64 sectors with one reserved
sector and one FAT of one sector. -/
theorem fat32_init_spec_witness :
    has_fat32_signature (diskBoot (bootSector sigFat32 bpbA) 0)
    ∧ rd16 (diskBoot (bootSector sigFat32 bpbA) 0) 11 = BSIZE
    ∧ ∃ fat, fat32_init (diskBoot (bootSector sigFat32 bpbA)) fatNone cacheNone 2
          = .done (0, fat, ecache_init fat 2)
        ∧ fat.bpb = bpbA
        ∧ fat.first_data_sec = fat.bpb.rsvd_sec_cnt + fat.bpb.fat_cnt * fat.bpb.fat_sz
        ∧ fat.data_clus_cnt = (fat.bpb.tot_sec - fat.first_data_sec) / fat.bpb.sec_per_clus
        ∧ fat.byts_per_clus = fat.bpb.sec_per_clus * fat.bpb.byts_per_sec := by
  obtain ⟨fat, h0, ⟨h1, h2, h3, h4⟩, ⟨h5, h6, h7, h8⟩, h9, _, _, h12⟩ :=
    (fat32_init_spec (diskBoot (bootSector sigFat32 bpbA)) fatNone cacheNone 2).2
      (by decide) (by decide) (by decide)
  have hb : fat.bpb = bpbA := by
    cases hfb : fat.bpb
    rw [hfb] at h1 h2 h3 h4 h5 h6 h7 h8
    simp only at h1 h2 h3 h4 h5 h6 h7 h8
    subst h1 h2 h3 h4 h5 h6 h7 h8
    decide
  have hfit : fat.bpb.rsvd_sec_cnt + fat.bpb.fat_cnt * fat.bpb.fat_sz ≤ fat.bpb.tot_sec := by
    rw [hb]; decide
  exact ⟨by decide, by decide, fat, h0, hb, (h12 hfit).1, (h12 hfit).2, h9⟩

/-- C12, counterexample: a boot sector with the signature "FAT32", 512-byte
sectors, 32 reserved sectors, two FATs of one sector and a total of 10
sectors.  `fat32_init` returns 0 with `first_data_sec = 34` and
`data_clus_cnt = 4294967272`, which is not `(10 - 34) / 1`. -/
theorem fat32_init_short_volume_counterexample :
    has_fat32_signature (diskBoot (bootSector sigFat32 bpbShort) 0)
    ∧ rd16 (diskBoot (bootSector sigFat32 bpbShort) 0) 11 = BSIZE
    ∧ (fat32_init (diskBoot (bootSector sigFat32 bpbShort)) fatNone cacheNone 2).map
        (fun r => (r.1, r.2.1.bpb, r.2.1.first_data_sec, r.2.1.data_clus_cnt))
        = .done (0, bpbShort, 34, 4294967272)
    ∧ ((bpbShort.tot_sec : Int) - 34) / (bpbShort.sec_per_clus : Int) = -24
    ∧ (bpbShort.tot_sec - 34) / bpbShort.sec_per_clus = 0 :=
  ⟨by decide, by decide, by decide!, by decide, by decide⟩

/-- C13.  After a successful `fat32_init`, in every cache state whose `root`
still has the attribute and first cluster that the mount gave it, `get_entry`
on a path of `k ≥ 1` slashes returns `&root`, whose first cluster is the root
cluster of the BPB and whose attribute has the directory bit set; the
reference count of `root` is one more than before, every other handle of the
cache and the volume are as before (for every budget of the directory lookup,
also none). -/
theorem get_entry_root (d0 : Disk) (fat0 : Fat) (c0 : Ecache) (num : Nat) (fat : Fat)
    (cm : Ecache) (fault : Nat → Nat → Bool) (junk lfuel : Nat) (c : Ecache) (d : Disk)
    (cwd k : Nat) (hinit : fat32_init d0 fat0 c0 num = .done (0, fat, cm))
    (hattr : c.root.attr = cm.root.attr) (hclus : c.root.first_clus = cm.root.first_clus)
    (hk : 1 ≤ k) :
    ∃ c1, get_entry fat fault junk lfuel c d cwd (List.replicate k 0x2f)
          = .done ⟨some 0, c1, d, fun _ => 0⟩
      ∧ (c1.get 0).first_clus = fat.bpb.root_clus
      ∧ Nat.land (c1.get 0).attr ATTR_DIRECTORY ≠ 0
      ∧ (c1.get 0).ref = (c.get 0).ref + 1
      ∧ c1.entries = c.entries := by
  obtain ⟨hcm, _, _⟩ := fat32_init_done d0 fat0 c0 num fat cm hinit
  obtain ⟨ha, hf, _⟩ := ecache_init_root fat num
  rw [← hcm] at ha hf
  refine ⟨c.modify 0 (fun e => { e with ref := e.ref + 1 }),
    get_entry_slashes_eq fat fault junk lfuel c d cwd k hk, ?_, ?_, ?_, ?_⟩
  · rw [get_zero, modify_root, if_pos rfl]
    show c.root.first_clus = _
    rw [hclus, hf]
  · rw [get_zero, modify_root, if_pos rfl]
    show Nat.land c.root.attr ATTR_DIRECTORY ≠ 0
    rw [hattr, ha]
    decide
  · rw [get_zero, modify_root, if_pos rfl, get_zero]
  · simp [Ecache.modify]

/-- C13, witness: the path "///" right after the mount of a small volume. -/
theorem get_entry_root_witness :
    ∃ c1, get_entry fatA nofault 0 0 (ecache_init fatA 2) diskA 0 (List.replicate 3 0x2f)
          = .done ⟨some 0, c1, diskA, fun _ => 0⟩
      ∧ (c1.get 0).first_clus = fatA.bpb.root_clus
      ∧ Nat.land (c1.get 0).attr ATTR_DIRECTORY ≠ 0
      ∧ (c1.get 0).ref = ((ecache_init fatA 2).get 0).ref + 1
      ∧ c1.entries = (ecache_init fatA 2).entries :=
  get_entry_root (diskBoot (bootSector sigFat32 bpbA)) fatNone cacheNone 2 fatA
    (ecache_init fatA 2) nofault 0 0 (ecache_init fatA 2) diskA 0 3 (by decide!) rfl rfl
    (by decide)

/-- C19.  On a mounted volume, for every cluster number `c` and all `off`, `n`
with `off + n ≤ bytes_per_cluster`, with a copy helper that never faults:
`ewrite_clus` returns `n`; the `eread_clus` of the same range that follows
returns `n` and delivers the `n` source bytes; and every byte of the volume
other than the bytes `off .. off + n - 1` of the cluster (byte `j` of the
cluster being byte `j mod BSIZE` of its sector `j / BSIZE`) is unchanged.
Both functions return within a loop budget of `n` steps, each of which moves
at least one byte. -/
theorem cluster_write_read (fat : Fat) (fault : Nat → Nat → Bool) (d : Disk) (c user_src : Nat)
    (mem : Mem) (src user_dst : Nat) (mem2 : Mem) (dst off n : Nat) (hm : Mounted fat)
    (hcp : ∀ a l, fault a l = false) (hr : off + n ≤ fat.byts_per_clus) :
    ∃ d1, ewrite_clus fat fault d c user_src mem src off n = .done (n, d1)
      ∧ eread_clus fat fault d1 c user_dst mem2 dst off n
          = .done (n, blit mem2 dst (fun k => mem (src + k)) n)
      ∧ (∀ s i, (∀ j, off ≤ j → j < off + n →
            ¬ (s = u32 (first_sec_of_clus fat c + j / BSIZE) ∧ i = j % BSIZE)) →
          d1 s i = d s i) := by
  obtain ⟨d1, h1, h2, h3⟩ :=
    ewrite_clus_spec fat fault d c user_src mem src off n hm (Or.inr hcp) hr
  refine ⟨d1, h1, ?_, h3⟩
  rw [eread_clus_spec fat fault d1 c user_dst mem2 dst off n hm (Or.inr hcp) hr]
  congr 2
  apply blit_congr
  intro k hk
  rw [h2 (off + k) (by omega) (by omega)]
  congr 1
  omega

/-- C19, witness: 300 bytes written at offset 100 of cluster 3 of a volume with
512-byte clusters, then read back. -/
theorem cluster_write_read_witness :
    ∃ d1, ewrite_clus fatA nofault diskA 3 1 srcMem 7 100 300 = .done (300, d1)
      ∧ eread_clus fatA nofault d1 3 1 zeroMem 16 100 300
          = .done (300, blit zeroMem 16 (fun k => srcMem (7 + k)) 300)
      ∧ (∀ s i, (∀ j, 100 ≤ j → j < 100 + 300 →
            ¬ (s = u32 (first_sec_of_clus fatA 3 + j / BSIZE) ∧ i = j % BSIZE)) →
          d1 s i = diskA s i) :=
  cluster_write_read fatA nofault diskA 3 1 srcMem 7 1 zeroMem 16 100 300 (by decide)
    (fun _ _ => rfl) (by decide)

/-- C18, as amended.  Let the string at the cursor be `a` slashes, then the
maximal run `s` of bytes that are neither `'/'` nor NUL (shorter than `2^31`),
then `b` slashes, then the rest, which does not start with a slash.
`skipelem` returns -1 exactly when `s` is empty, and then leaves the cursor
behind the slashes and `name` as it was.  Otherwise it returns
`min |s| 255`, the first `min |s| 255` bytes of `name` are those of `s`, the
cursor is behind `s` and the slashes that follow it, and, when `|s| ≤ 255`,
`name[|s|]` is NUL and the bytes of `name` after it are as before; when
`|s| > 255` the bytes of `name` from index 255 on are as before. -/
theorem skipelem_spec (pre : List Nat) (a : Nat) (s : List Nat) (b : Nat) (post : List Nat)
    (name : Nat → Nat) (hs : ∀ x ∈ s, x ≠ 0x2f ∧ x ≠ 0) (hlen : s.length < 2147483648)
    (hpost : post.head? ≠ some 0x2f)
    (hend : b = 0 → post.head? = none ∨ post.head? = some 0) (hcan : s = [] → b = 0) :
    ((skipelem (pre ++ (List.replicate a 0x2f ++ (s ++ (List.replicate b 0x2f ++ post))))
        pre.length name).1 = -1 ↔ s = [])
    ∧ (s = [] →
        skipelem (pre ++ (List.replicate a 0x2f ++ (s ++ (List.replicate b 0x2f ++ post))))
          pre.length name = (-1, pre.length + a, name))
    ∧ (s ≠ [] →
        ∃ name1,
          skipelem (pre ++ (List.replicate a 0x2f ++ (s ++ (List.replicate b 0x2f ++ post))))
            pre.length name
            = (((min s.length 255 : Nat) : Int), pre.length + a + s.length + b, name1)
          ∧ (∀ k, k < min s.length 255 → name1 k = s.getD k 0)
          ∧ (s.length ≤ 255 → name1 s.length = 0 ∧ ∀ k, s.length < k → name1 k = name k)
          ∧ (255 < s.length → ∀ k, 255 ≤ k → name1 k = name k)) := by
  have hnone : s = [] →
      skipelem (pre ++ (List.replicate a 0x2f ++ (s ++ (List.replicate b 0x2f ++ post))))
        pre.length name = (-1, pre.length + a, name) := by
    intro h
    have hb := hcan h
    subst h hb
    simp only [List.replicate_zero, List.nil_append]
    exact skipelem_none pre a post name (hend rfl)
  refine ⟨⟨?_, fun h => by rw [hnone h]⟩, hnone, ?_⟩
  · intro h
    by_contra hne
    rw [skipelem_some pre a s b post name hne hs hlen hpost hend] at h
    simp only at h
    omega
  · intro hne
    refine ⟨_, skipelem_some pre a s b post name hne hs hlen hpost hend, ?_, ?_, ?_⟩
    · intro k hk
      simp only [if_pos hk]
    · intro h255
      have hm : min s.length 255 = s.length := by omega
      constructor
      · simp only [hm, if_neg (Nat.lt_irrefl _)]
        rw [if_pos ⟨h255, trivial⟩]
      · intro k hk
        simp only [hm]
        rw [if_neg (by omega), if_neg (by omega)]
    · intro h255 k hk
      have hm : min s.length 255 = 255 := by omega
      simp only [hm]
      rw [if_neg (by omega), if_neg (by omega)]

/-- C18, witness: the string "//ab/c" with the cursor at its start. -/
theorem skipelem_spec_witness :
    ∃ name1,
      skipelem ([] ++ (List.replicate 2 0x2f ++ ([0x61, 0x62] ++ (List.replicate 1 0x2f ++ [0x63]))))
        0 (fun _ => 0x58) = (((min 2 255 : Nat) : Int), 0 + 2 + 2 + 1, name1)
      ∧ (∀ k, k < min 2 255 → name1 k = [0x61, 0x62].getD k 0)
      ∧ (2 ≤ 255 → name1 2 = 0 ∧ ∀ k, 2 < k → name1 k = 0x58)
      ∧ (255 < 2 → ∀ k, 255 ≤ k → name1 k = 0x58) :=
  (skipelem_spec [] 2 [0x61, 0x62] 1 [0x63] (fun _ => 0x58) (by decide) (by decide)
    (by decide) (by decide) (by decide)).2.2 (by decide)

set_option maxRecDepth 100000 in
/-- C18, counterexample: a string of 256 bytes `'a'` and a `name` buffer that
holds `'X'` everywhere.  `skipelem` returns 255 and `name[255]` is still
`'X'`: `name` is not NUL-terminated at the returned length. -/
theorem skipelem_long_name_counterexample :
    (skipelem (List.replicate 256 0x61) 0 (fun _ => 0x58)).1 = 255
    ∧ (skipelem (List.replicate 256 0x61) 0 (fun _ => 0x58)).2.1 = 256
    ∧ (skipelem (List.replicate 256 0x61) 0 (fun _ => 0x58)).2.2 254 = 0x61
    ∧ (skipelem (List.replicate 256 0x61) 0 (fun _ => 0x58)).2.2 255 = 0x58 :=
  ⟨by decide!, by decide!, by decide!, by decide!⟩

/-- C16, at a failing input: a cache of two entries on a volume whose root
directory holds the files "ab", "cb" and "c".  After `get_entry("/ab")`,
`eput`, `get_entry("/cb")`, `eput` and `get_entry("/c")` the two cache
entries are both valid and both have the key (0, 2, "cb"); they are the
handles of two files (first clusters 5 and 4). -/
theorem cache_key_shared_after_lookups :
    namesRun.map (fun r => (r.ret, (r.cache.get 1).valid, (r.cache.get 2).valid))
      = .done (some 1, 1, 1)
    ∧ namesRun.map (fun r => (cache_key (r.cache.get 1), cache_key (r.cache.get 2)))
      = .done ((0, 2, [0x63, 0x62]), (0, 2, [0x63, 0x62]))
    ∧ namesRun.map (fun r => ((r.cache.get 1).first_clus, (r.cache.get 2).first_clus))
      = .done (5, 4) :=
  ⟨by decide!, by decide!, by decide!⟩

/-- C20, at a failing input: a cache of one entry on a volume whose root
directory holds the files "cb" and "c".  After `lookup_dir(&root, "cb", 2)`
and `eput`, the `eget` inside `lookup_dir(&root, "c", 1)` reclaims the slot
(it returns it with `valid = 0`), the scan finds the record of "c" (first
cluster 5, directory offset 128), and the handle returned has the file name
"cb". -/
theorem lookup_dir_stale_filename :
    namesLooked.bind (fun s => (eget s.1 0 2 (cstr [0x63])).map
        (fun r => (r.1, (r.2.get r.1).valid))) = .done (1, 0)
    ∧ (namesLooked.bind (fun s => lookup_dir fatA nofault 0 8 s.1 s.2 0 (cstr [0x63]) 1)).map
        (fun r => (r.1, handle_key (r.2.1.get 1))) = .done (some 1, (5, 5, 2, 128, 1))
    ∧ (namesLooked.bind (fun s => lookup_dir fatA nofault 0 8 s.1 s.2 0 (cstr [0x63]) 1)).map
        (fun r => cstr_take (cstr (r.2.1.get 1).filename) (FAT32_MAX_FILENAME + 1) 0)
        = .done [0x63, 0x62] :=
  ⟨by decide!, by decide!, by decide!⟩

/-- C15.  After a successful `fat32_init` with `num` cache entries and after
every sequence of `eget`, `ealloc`, `edup` and `eput` calls that return, in
every volume state: each node `x` of the ring (the sentinel 0 and the entries
`1 .. num`) satisfies `x.next.prev = x` and `x.prev.next = x`, and the walk
from `root.next` along `next` is back at the sentinel after exactly `num`
nodes, which are the `num` cache entries, each met once. -/
theorem ring_invariant (d0 : Disk) (fat0 : Fat) (c0 : Ecache) (num : Nat) (fat : Fat)
    (cm : Ecache) (fault : Nat → Nat → Bool) (junk : Nat) (calls : List CacheCall) (d : Disk)
    (c1 : Ecache) (d1 : Disk)
    (hinit : fat32_init d0 fat0 c0 num = .done (0, fat, cm))
    (hrun : cache_calls fat fault junk calls (cm, d) = .done (c1, d1)) :
    c1.entries.length = num
    ∧ (∀ x, x ≤ num → (c1.get (c1.get x).next).prev = x ∧ (c1.get (c1.get x).prev).next = x)
    ∧ ∃ l, ring_walk c1 num c1.root.next = some l ∧ l.Nodup ∧ l.length = num
        ∧ ∀ x, x ∈ l ↔ 1 ≤ x ∧ x ≤ num := by
  obtain ⟨hcm, _, _⟩ := fat32_init_done d0 fat0 c0 num fat cm hinit
  obtain ⟨l0, hr0, hlen0⟩ := ecache_init_ring fat num
  rw [← hcm] at hr0 hlen0
  obtain ⟨⟨l, hl⟩, hlen⟩ := cache_calls_ring fat fault junk calls (cm, d) (c1, d1) ⟨l0, hr0⟩ hrun
  have hN : c1.entries.length = num := by rw [hlen]; exact hlen0
  obtain ⟨f1, f2, f3, f4, f5⟩ := ring_facts c1 l hl
  rw [hN] at f1 f2 f4 f5
  exact ⟨hN, f1, l, f2, f3, f4, f5⟩

/-- C15, witness: a cache of three entries and the sequence `ringCalls`, after
which the ring is 2, 1, 3. -/
theorem ring_invariant_witness :
    ∃ c1 d1, cache_calls fatA nofault 0 ringCalls (ecache_init fatA 3, diskNamesBoot)
        = .done (c1, d1)
      ∧ ring_walk c1 3 c1.root.next = some [2, 1, 3]
      ∧ c1.entries.length = 3
      ∧ (∀ x, x ≤ 3 → (c1.get (c1.get x).next).prev = x ∧ (c1.get (c1.get x).prev).next = x)
      ∧ ∃ l, ring_walk c1 3 c1.root.next = some l ∧ l.Nodup ∧ l.length = 3
          ∧ ∀ x, x ∈ l ↔ 1 ≤ x ∧ x ≤ 3 := by
  obtain ⟨x, hx, hw⟩ := map_done
    (cache_calls fatA nofault 0 ringCalls (ecache_init fatA 3, diskNamesBoot))
    (fun s => ring_walk s.1 3 s.1.root.next) (some [2, 1, 3]) (by decide!)
  exact ⟨x.1, x.2, hx, hw,
    ring_invariant diskNamesBoot fatNone cacheNone 3 fatA (ecache_init fatA 3) nofault 0
      ringCalls diskNamesBoot x.1 x.2 (by decide!) hx⟩

/-- C17.  In a cache whose entries form the ring `l` (MRU order):
when some entry has the key `(dev, parent, name)`, `eget` returns the first
such entry of `l` with `ref` one higher (and `valid` set); when none has it,
`eget` returns the entry nearest the LRU end whose `ref` is 0, with `ref = 1`,
`valid = 0` and `dev` set; in both cases the pointer is not the sentinel,
every other handle is unchanged and the ring is the same.  With reference
counts that are not negative, `eget` panics exactly when no entry has the key
and every entry has `ref > 0`. -/
theorem eget_spec (c : Ecache) (l : List Nat) (dev parent : Nat) (name : Nat → Nat)
    (hr : Ring c l) :
    (∀ l1 x l2, l = l1 ++ x :: l2 → key_match c dev parent name x →
      (∀ y ∈ l1, ¬ key_match c dev parent name y) →
      ∃ c1, eget c dev parent name = .done (x, c1) ∧ x ≠ 0
        ∧ c1.get x = { c.get x with ref := (c.get x).ref + 1, valid := 1 }
        ∧ (∀ y, y ≠ x → c1.get y = c.get y) ∧ Ring c1 l)
    ∧ ((∀ y ∈ l, ¬ key_match c dev parent name y) →
      ∀ l1 x l2, l = l1 ++ x :: l2 → (c.get x).ref = 0 → (∀ y ∈ l2, (c.get y).ref ≠ 0) →
      ∃ c1, eget c dev parent name = .done (x, c1) ∧ x ≠ 0
        ∧ c1.get x = { c.get x with ref := 1, dev := dev, valid := 0 }
        ∧ (∀ y, y ≠ x → c1.get y = c.get y) ∧ Ring c1 l)
    ∧ ((∀ y ∈ l, 0 ≤ (c.get y).ref) →
      (eget c dev parent name = .panicked
        ↔ (∀ y ∈ l, ¬ key_match c dev parent name y) ∧ ∀ y ∈ l, 0 < (c.get y).ref)) := by
  refine ⟨?_, ?_, ?_⟩
  · intro l1 x l2 hl hx hno
    subst hl
    have hxb := hr.2.2.1 x (by simp)
    refine ⟨_, eget_hit c dev parent name l1 x l2 hr hx hno, by omega, ?_, ?_,
      ring_keep _ _ _ _ (fun _ => rfl) (fun _ => rfl)
        (ring_keep _ _ _ _ (fun _ => rfl) (fun _ => rfl) hr)⟩
    · rw [get_modify _ _ _ _ (by rw [modify_length]; exact hxb.2), if_pos rfl,
        get_modify _ _ _ _ hxb.2, if_pos rfl]
    · intro y hy
      rw [get_modify _ _ _ _ (by rw [modify_length]; exact hxb.2), if_neg hy,
        get_modify _ _ _ _ hxb.2, if_neg hy]
  · intro hno l1 x l2 hl hx hbusy
    subst hl
    have hxb := hr.2.2.1 x (by simp)
    refine ⟨_, eget_miss c dev parent name l1 x l2 hr hno hx hbusy, by omega, ?_, ?_,
      ring_keep _ _ _ _ (fun _ => rfl) (fun _ => rfl)
        (ring_keep _ _ _ _ (fun _ => rfl) (fun _ => rfl)
          (ring_keep _ _ _ _ (fun _ => rfl) (fun _ => rfl) hr))⟩
    · rw [get_modify _ _ _ _ (by simp only [modify_length]; exact hxb.2), if_pos rfl,
        get_modify _ _ _ _ (by simp only [modify_length]; exact hxb.2), if_pos rfl,
        get_modify _ _ _ _ hxb.2, if_pos rfl]
    · intro y hy
      rw [get_modify _ _ _ _ (by simp only [modify_length]; exact hxb.2), if_neg hy,
        get_modify _ _ _ _ (by simp only [modify_length]; exact hxb.2), if_neg hy,
        get_modify _ _ _ _ hxb.2, if_neg hy]
  · intro href
    rw [eget_panics_iff c dev parent name l hr]
    constructor
    · rintro ⟨h1, h2⟩
      exact ⟨h1, fun y hy => lt_of_le_of_ne (href y hy) (Ne.symm (h2 y hy))⟩
    · rintro ⟨h1, h2⟩
      exact ⟨h1, fun y hy => ne_of_gt (h2 y hy)⟩

/-- C17, witness: a freshly initialised cache of three entries, whose ring is
3, 2, 1; no entry has the key (0, 2, "a"), and `eget` returns entry 1, the
LRU end. -/
theorem eget_spec_witness :
    ∃ c1, eget (ecache_init fatA 3) 0 2 (cstr [0x61]) = .done (1, c1) ∧ 1 ≠ 0
      ∧ c1.get 1 = { (ecache_init fatA 3).get 1 with ref := 1, dev := 0, valid := 0 }
      ∧ (∀ y, y ≠ 1 → c1.get y = (ecache_init fatA 3).get y)
      ∧ Ring c1 [3, 2, 1] :=
  (eget_spec (ecache_init fatA 3) [3, 2, 1] 0 2 (cstr [0x61]) (by decide!)).2.1
    (by decide!) [3, 2] 1 [] rfl (by decide!) (by decide!)

/-- C14, as amended.  Let the path be a prefix `pre` (without NUL, shorter than
`2^31`), `m` slashes, a last component `last` (not empty, without slash and
NUL, shorter than `2^31`) and `t` slashes, where a slash separates `pre` from
`last` and `m = 0` when `pre` is empty.  When `get_entry(pre)` returns a handle
whose attribute is `ATTR_DIRECTORY` and whose `ref` is at least 1, then
`get_parent(path, name)` returns the same handle and leaves the cache and the
volume as `get_entry(pre)` leaves them (the last component is not looked up);
the first `min |last| 255` bytes of `name` are those of `last`, followed by a
NUL when `|last| ≤ 255`. -/
theorem get_parent_spec (fat : Fat) (fault : Nat → Nat → Bool) (junk lfuel : Nat) (c : Ecache)
    (d : Disk) (cwd : Nat) (pre : List Nat) (m : Nat) (last : List Nat) (t : Nat)
    (name : Nat → Nat) (h : Nat) (c1 : Ecache) (d1 : Disk) (nm0 : Nat → Nat)
    (hpre : ∀ x ∈ pre, x ≠ 0) (hprelen : pre.length < 2147483648)
    (hsep : ∀ x, pre.getLast? = some x → x ≠ 0x2f → 1 ≤ m) (habs : pre = [] → m = 0)
    (hne : last ≠ []) (hlast : ∀ x ∈ last, x ≠ 0x2f ∧ x ≠ 0)
    (hlen : last.length < 2147483648)
    (hent : get_entry fat fault junk lfuel c d cwd pre = .done ⟨some h, c1, d1, nm0⟩)
    (hattr : (c1.get h).attr = ATTR_DIRECTORY) (href : 1 ≤ (c1.get h).ref) :
    ∃ nm, get_parent fat fault junk lfuel c d cwd
          (pre ++ (List.replicate m 0x2f ++ (last ++ List.replicate t 0x2f))) name
        = .done ⟨some h, c1, d1, nm⟩
      ∧ (∀ k, k < min last.length 255 → nm k = last.getD k 0)
      ∧ (last.length ≤ 255 → nm last.length = 0) := by
  unfold get_entry lookup_path at hent
  unfold get_parent lookup_path
  have hfirst : (cstr (pre ++ (List.replicate m 0x2f ++ (last ++ List.replicate t 0x2f))) 0
      = 0x2f) = (cstr pre 0 = 0x2f) := by
    cases pre with
    | nil =>
      have hm := habs rfl
      subst hm
      obtain ⟨l0, lr, hl0⟩ := List.exists_cons_of_ne_nil hne
      have hl := (hlast l0 (by rw [hl0]; simp)).1
      subst hl0
      apply propext
      simp [cstr]
      exact hl
    | cons p0 pr => simp [cstr]
  simp only [hfirst]
  exact lookup_path_lockstep fat fault junk lfuel pre _ last t hpre hprelen hne hlast hlen h c1
    d1 hattr href pre.length 0 0 m _ _ _ _ d (fun _ => 0) name nm0 (by omega) (Nat.zero_le _)
    (Nat.zero_le _) (by simp) (by simpa using hsep) (by simp) hent

/-- C14, witness: `get_parent("/a/b/c", name)` on a volume where "/a/b" exists
returns the handle of "/a/b" that `get_entry("/a/b")` returns, and `name` is
"c". -/
theorem get_parent_spec_witness :
    ∃ r nm, get_entry fatA nofault 0 8 (ecache_init fatA 3) diskTree 0 [0x2f, 0x61, 0x2f, 0x62]
        = .done r
      ∧ r.ret = some 2 ∧ handle_key (r.cache.get 2) = (4, 0, 3, 0, 1)
      ∧ get_parent fatA nofault 0 8 (ecache_init fatA 3) diskTree 0
          ([0x2f, 0x61, 0x2f, 0x62] ++ (List.replicate 1 0x2f ++ ([0x63] ++ List.replicate 0 0x2f)))
          (fun _ => 0x58) = .done ⟨some 2, r.cache, r.disk, nm⟩
      ∧ nm 0 = 0x63 ∧ nm 1 = 0 := by
  obtain ⟨x, hx, hy⟩ := map_done
    (get_entry fatA nofault 0 8 (ecache_init fatA 3) diskTree 0 [0x2f, 0x61, 0x2f, 0x62])
    (fun r => (r.ret, (r.cache.get 2).attr, (r.cache.get 2).ref)) (some 2, 16, 1) (by decide!)
  have h4 : (get_entry fatA nofault 0 8 (ecache_init fatA 3) diskTree 0
      [0x2f, 0x61, 0x2f, 0x62]).map (fun r => handle_key (r.cache.get 2))
      = .done (4, 0, 3, 0, 1) := by decide!
  rw [hx] at h4
  simp only [Outcome.map, Outcome.done.injEq] at h4
  obtain ⟨ret, cache, disk, nm0⟩ := x
  simp only [Prod.mk.injEq] at hy
  obtain ⟨h1, h2, h3⟩ := hy
  subst h1
  obtain ⟨nm, g1, g2, g3⟩ := get_parent_spec fatA nofault 0 8 (ecache_init fatA 3) diskTree 0
    [0x2f, 0x61, 0x2f, 0x62] 1 [0x63] 0 (fun _ => 0x58) 2 cache disk nm0 (by decide) (by decide)
    (by decide) (by decide) (by decide) (by decide) (by decide) hx h2 (le_of_eq h3.symm)
  exact ⟨_, nm, hx, rfl, h4, g1, g2 0 (by decide), g3 (by decide)⟩

set_option maxRecDepth 100000 in
/-- C14, counterexample.  (a) The path "/" followed by 256 bytes `'a'` and a
`name` buffer that holds `'X'`: `get_entry("/")` returns the root directory,
`get_parent` returns it too, and `name[255]` is `'X'`, neither byte 255 of the
component nor a NUL.  (b) A directory "a" whose attribute byte is 0x30:
`get_entry("/a")` returns its handle, whose attribute has the directory bit,
and `get_parent("/a/c", name)` returns the null pointer. -/
theorem get_parent_counterexample :
    ((get_entry fatA nofault 0 8 (ecache_init fatA 3) diskTree 0 [0x2f]).map
        (fun r => (r.ret, (r.cache.get 0).attr, (r.cache.get 0).ref))
        = .done (some 0, ATTR_DIRECTORY, 1)
      ∧ (get_parent fatA nofault 0 8 (ecache_init fatA 3) diskTree 0
          (0x2f :: List.replicate 256 0x61) (fun _ => 0x58)).map
        (fun r => (r.ret, r.name 254, r.name 255)) = .done (some 0, 0x61, 0x58)
      ∧ (List.replicate 256 0x61).getD 255 0 = 0x61)
    ∧ ((get_entry fatA nofault 0 8 (ecache_init fatA 3) diskTreeArch 0 [0x2f, 0x61]).map
        (fun r => (r.ret, Nat.land (r.cache.get 1).attr ATTR_DIRECTORY, (r.cache.get 1).ref))
        = .done (some 1, ATTR_DIRECTORY, 1)
      ∧ (get_parent fatA nofault 0 8 (ecache_init fatA 3) diskTreeArch 0
          [0x2f, 0x61, 0x2f, 0x63] (fun _ => 0x58)).map (fun r => r.ret) = .done none) :=
  ⟨⟨by decide!, by decide!, by decide!⟩, ⟨by decide!, by decide!⟩⟩

/-! ## Lemmas on `etrunc` -/

/-- After `free_clus(0)` the FAT entry 0 reads 0. -/
theorem read_fat_free_zero (fat : Fat) (d : Disk) (hbps : fat.bpb.byts_per_sec = BSIZE)
    (hrs : fat.bpb.rsvd_sec_cnt < 65536) (hdc : fat.data_clus_cnt + 1 < FAT32_EOC) :
    read_fat fat (free_clus fat d 0) 0 = 0 := by
  unfold free_clus
  exact ((write_fat_effect fat d 0 0 hbps hrs (by decide) hdc).2 (Nat.zero_le _)).2.1

/-- The loop of `etrunc` that frees the chain, started at cluster number 0 on a
volume whose FAT entry 0 is 0, does not end within any budget. -/
theorem etrunc_free_stuck (fat : Fat) (hbps : fat.bpb.byts_per_sec = BSIZE)
    (hrs : fat.bpb.rsvd_sec_cnt < 65536) (hdc : fat.data_clus_cnt + 1 < FAT32_EOC) :
    ∀ (fuel : Nat) (d : Disk), read_fat fat d 0 = 0 → etrunc_free fat fuel 0 d = .nofuel := by
  intro fuel
  induction fuel with
  | zero =>
    intro d _
    simp [etrunc_free, FAT32_EOC]
  | succ fuel ih =>
    intro d h0
    rw [etrunc_free, if_pos (by decide)]
    simp only [h0]
    exact ih _ (read_fat_free_zero fat d hbps hrs hdc)

/-! ## The claims, concluded -/

/-- C21, at a failing input: two volumes with the same FAT and the same bytes
in the only cluster (cluster 2, which is sector 2) of the root directory, which
differ only in sector 3, the data cluster of a file.  `lookup_dir` of "f"
returns a handle on the first volume (taken from the file's data at directory
offset 512, behind the end of the directory) and the null pointer on the
second. -/
theorem lookup_dir_reads_next_cluster :
    Mounted fatA ∧ fatA.bpb.sec_per_clus = 1 ∧ first_sec_of_clus fatA 2 = 2
    ∧ ((ecache_init fatA 2).get 0).first_clus = 2
    ∧ FAT32_EOC ≤ read_fat fatA diskSpillA 2
    ∧ (∀ sec, sec ≠ 3 → diskSpillB sec = diskSpillA sec)
    ∧ (lookup_dir fatA nofault 0 8 (ecache_init fatA 2) diskSpillA 0 nameF 1).map
        (fun r => (r.1, handle_key (r.2.1.get 1))) = .done (some 1, (7, 100, 2, 512, 1))
    ∧ (lookup_dir fatA nofault 0 8 (ecache_init fatA 2) diskSpillB 0 nameF 1).map
        (fun r => r.1) = .done none := by
  refine ⟨by decide, by decide, by decide, by decide!, by decide!, ?_, by decide!, by decide!⟩
  intro sec h
  simp [diskSpillB, h]

/-- C22, at failing inputs.  (a) The empty file "f" of a directory (first
cluster 0, size 0): `etrunc` of the handle that `lookup_dir` returns sets FAT
entry 0, which held `0x0FFFFFF8`, to 0.  In the volume state it leaves, the
loop of `etrunc` that frees the chain of a handle with `first_clus = 0` does
not end within any budget.  (b) The handle that `ealloc` produces on a freshly
formatted volume: `etrunc` sets FAT entry 0 to 0. -/
theorem etrunc_empty_file_clears_fat0 :
    (MountedLayout fatA ∧ fat1_entry fatA diskEmptyFile 0 = 0x0FFFFFF8
      ∧ (lookup_then_etrunc fatA nofault 0 8 (ecache_init fatA 2) diskEmptyFile 0 nameF 1).map
          (fun r => (handle_key r.1, (List.range 4).map (fat1_entry fatA r.2)))
        = .done ((0, 0, 2, 0, 1), [0, 0x0FFFFFFF, 0x0FFFFFFF, 0])
      ∧ ∀ fuel,
          (lookup_then_etrunc fatA nofault 0 8 (ecache_init fatA 2) diskEmptyFile 0 nameF
            1).bind (fun r => etrunc_free fatA fuel 0 r.2) = .nofuel)
    ∧ (MountedLayout fatD ∧ fat1_entry fatD diskD 0 = 0x0FFFFFF8
      ∧ (ealloc (ecache_init fatD 2) 0 nameF false).map (fun r => (r.1, r.2.get 1))
          = .done (some 1, fileFresh)
      ∧ fileFresh.first_clus = 0
      ∧ (etrunc fatD nofault 0 8 diskD fileFresh).map
          (fun r => (List.range 4).map (fat1_entry fatD r.1))
        = .done [0, 0x0FFFFFFF, 0x0FFFFFFF, 0]) := by
  refine ⟨⟨by decide, by decide!, by decide!, ?_⟩,
    ⟨by decide, by decide!, by decide!, rfl, by decide!⟩⟩
  intro fuel
  obtain ⟨x, hx, hy⟩ := map_done
    (lookup_then_etrunc fatA nofault 0 8 (ecache_init fatA 2) diskEmptyFile 0 nameF 1)
    (fun r => read_fat fatA r.2 0) 0 (by decide!)
  rw [hx]
  exact etrunc_free_stuck fatA (by decide) (by decide) (by decide) fuel x.2 hy

end Fat32
